import Mathlib

/-! # HashMap (solve.cpp): open addressing with Robin-Hood hashing

A shallow embedding of the class template `HashMap<KeyType, ValueType, Hash>` of
`src/solve.cpp`, followed by theorems about it.

Modelling decisions:

* `std::list` nodes carry an identity (`Node.id`): a list iterator is the identity of the
  node it designates, `emplace_back` creates a node with an identity never used before
  (`next_id_`), `list::erase` and `list::clear` destroy nodes.  An iterator whose node is no
  longer in the list is dangling.
* The three `std::vector`s are lists.  Every member function indexes them with indices
  below `capacity_`, and `update_size` gives all three the length `capacity_`, so reads are
  written with `getD` and writes with `set`.
* A call that does not return (a loop that never stops, division by zero in
  `% capacity_`, dereferencing an iterator that designates no node) is `none`.
* `size_t` is `Nat`; the one place where a caller-supplied number is incremented (the
  default constructor) wraps modulo `2 ^ 64`.  List lengths stay far below `2 ^ 64 / 3`
  (every node occupies memory), so `size * 3 + 1` and `size * 2 + 1` do not wrap.
* `float` is IEEE-754 binary32 with round-to-nearest-even; the comparison
  `size >= LOAD_FACTOR * capacity_` is computed exactly on integers scaled by `2 ^ 24`.
-/

namespace Jurijo

/-! ## Data model -/

/-- A value of type `MyList::iterator`. -/
inductive Iter where
  /-- the value-initialised iterator `iterator()` -/
  | singular : Iter
  /-- an iterator to the list node with the given identity -/
  | node (id : Nat) : Iter
  /-- the iterator `list_element_.end()` -/
  | past_end : Iter
deriving DecidableEq

/-- A node of `list_element_`: its identity and the stored `std::pair<const KeyType, ValueType>`. -/
structure Node (K V : Type) where
  id : Nat
  first : K
  second : V
deriving DecidableEq

/-- The pair stored in a node. -/
def Node.pair {K V : Type} (n : Node K V) : K × V := (n.first, n.second)

/-- The private data members of `HashMap`; `next_id_` is the identity that the next
`emplace_back` gives to its node. -/
structure HashMap (K V : Type) where
  capacity_ : Nat
  hasher_ : K → Nat
  link_element_ : List Iter
  dist_element_ : List Nat
  used_element_ : List Bool
  list_element_ : List (Node K V)
  next_id_ : Nat

/-- What a call of `at` does when it returns or throws. -/
inductive Result (α : Type) where
  | ok (a : α) : Result α
  | out_of_range (what : String) : Result α
deriving DecidableEq

/-! ## The `float` comparison of `insert` -/

/-- The number of low-order bits of `n` that do not fit into a 24-bit significand: the
least `e` with `n / 2 ^ e < 2 ^ 24` (for `fuel` at least `n`). -/
def drop_bits : Nat → Nat → Nat
  | 0, _ => 0
  | fuel + 1, n => if n < 2 ^ 24 then 0 else drop_bits fuel (n / 2) + 1

/-- Conversion of a non-negative integer to the nearest number with a 24-bit significand,
ties to even (binary32 without overflow): the result is again written as an integer. -/
def to_float (n : Nat) : Nat :=
  if n < 2 ^ 24 then n
  else
    let e := drop_bits n n
    let q := n / 2 ^ e
    let r := n % 2 ^ e
    let half := 2 ^ (e - 1)
    if r < half then q * 2 ^ e
    else if half < r then (q + 1) * 2 ^ e
    else if q % 2 = 0 then q * 2 ^ e
    else (q + 1) * 2 ^ e

/-- The constant `LOAD_FACTOR = 0.57` as a `float`: `9563013 / 2 ^ 24`. -/
def LOAD_FACTOR : Nat := 9563013

/-- The test `list_element_.size() >= LOAD_FACTOR * capacity_`: both integers are converted
to `float`, the product is rounded to `float`, and the comparison is exact. -/
def load_reached (size capacity : Nat) : Bool :=
  decide (to_float (LOAD_FACTOR * to_float capacity) ≤ to_float size * 2 ^ 24)

/-! ## Vector helpers -/

/-- The call `v.resize(n)` (new elements are value-initialised to `d`). -/
def resize {α : Type} (xs : List α) (n : Nat) (d : α) : List α :=
  xs.take n ++ List.replicate (n - xs.length) d

/-- The call `fill(v.begin(), v.end(), d)`. -/
def fill {α : Type} (xs : List α) (d : α) : List α :=
  List.replicate xs.length d

/-- The statements `++i; if (i == capacity_) i = 0;`. -/
def next_index (capacity i : Nat) : Nat :=
  if i + 1 = capacity then 0 else i + 1

variable {K V : Type}

/-! ## Member functions -/

/-- The iteration sequence `begin() .. end()`: the stored pairs in list order. -/
def HashMap.sequence (m : HashMap K V) : List (K × V) :=
  m.list_element_.map Node.pair

/-- Member `size`. -/
def HashMap.size (m : HashMap K V) : Nat := m.list_element_.length

/-- Member `empty`. -/
def HashMap.empty (m : HashMap K V) : Bool := m.list_element_.isEmpty

/-- Member `hash_function`. -/
def HashMap.hash_function (m : HashMap K V) : K → Nat := m.hasher_

/-- Member `begin`. -/
def HashMap.begin_ (m : HashMap K V) : Iter :=
  match m.list_element_ with
  | [] => Iter.past_end
  | n :: _ => Iter.node n.id

/-- Member `end`. -/
def HashMap.end_ (_m : HashMap K V) : Iter := Iter.past_end

/-- Dereferencing an iterator: the node it designates, if there is one. -/
def HashMap.deref (m : HashMap K V) : Iter → Option (Node K V)
  | Iter.node id => m.list_element_.find? (fun n => n.id == id)
  | _ => none

/-- Member `update_size`. -/
def HashMap.update_size (m : HashMap K V) : HashMap K V :=
  { m with
    link_element_ := resize m.link_element_ m.capacity_ Iter.singular
    used_element_ := resize m.used_element_ m.capacity_ false
    dist_element_ := resize m.dist_element_ m.capacity_ 0
    list_element_ := [] }

/-- The default member initialisers, before a constructor body runs. -/
def HashMap.members (hasher : K → Nat) : HashMap K V :=
  { capacity_ := 1, hasher_ := hasher, link_element_ := [], dist_element_ := [],
    used_element_ := [], list_element_ := [], next_id_ := 0 }

/-- Constructor `HashMap(Hash hasher, size_t capacity)`. -/
def HashMap.new (hasher : K → Nat) (capacity : Nat) : HashMap K V :=
  HashMap.update_size { (HashMap.members hasher : HashMap K V) with
    capacity_ := (capacity + 1) % 2 ^ 64 }

/-- The walk of `get_need_index`, started at `current_ind`.  The walk does not change the
table and returns to its start after `capacity_` slots, so the walk that has not stopped
after `capacity_` slots never stops. -/
def HashMap.get_need_index_loop [DecidableEq K] (m : HashMap K V) (ind : K) :
    Nat → Nat → Option Nat
  | 0, _ => none
  | fuel + 1, current_ind =>
    if m.used_element_.getD current_ind false then
      match m.deref (m.link_element_.getD current_ind Iter.singular) with
      | none => none
      | some n =>
        if n.first = ind then some current_ind
        else HashMap.get_need_index_loop m ind fuel (next_index m.capacity_ current_ind)
    else some current_ind

/-- Member `get_need_index`. -/
def HashMap.get_need_index [DecidableEq K] (m : HashMap K V) (ind : K) : Option Nat :=
  if m.capacity_ = 0 then none
  else m.get_need_index_loop ind m.capacity_ (m.hasher_ ind % m.capacity_)

/-- The `while (true)` loop of `insert`.  Each round moves to the next slot and the loop
leaves at the first slot whose distance is 0, so the loop that has not stopped after
`capacity_` rounds never stops. -/
def HashMap.insert_loop : Nat → HashMap K V → Nat → Nat → Iter → Option (HashMap K V)
  | 0, _, _, _, _ => none
  | fuel + 1, m, current_ind, current_step, current_it =>
    if m.dist_element_.getD current_ind 0 < current_step then
      let dist_old := m.dist_element_.getD current_ind 0
      let link_old := m.link_element_.getD current_ind Iter.singular
      let m1 : HashMap K V :=
        { m with
          dist_element_ := m.dist_element_.set current_ind current_step
          link_element_ := m.link_element_.set current_ind current_it
          used_element_ := m.used_element_.set current_ind true }
      if dist_old = 0 then some m1
      else HashMap.insert_loop fuel m1 (next_index m.capacity_ current_ind) (dist_old + 1) link_old
    else
      HashMap.insert_loop fuel m (next_index m.capacity_ current_ind) (current_step + 1) current_it

/-- The loop `for (auto i : lst) insert(i);` for a given `insert`. -/
def insert_all (ins : HashMap K V → K × V → Option (HashMap K V)) :
    List (K × V) → HashMap K V → Option (HashMap K V)
  | [], m => some m
  | x :: xs, m =>
    match ins m x with
    | none => none
    | some m1 => insert_all ins xs m1

/-- Member `rebuild`, for a given `insert`. -/
def HashMap.rebuild_with (ins : HashMap K V → K × V → Option (HashMap K V))
    (m : HashMap K V) : Option (HashMap K V) :=
  let m1 : HashMap K V := { m with capacity_ := m.list_element_.length * 3 + 1 }
  let old_value := m1.list_element_.map Node.pair
  let m2 := m1.update_size
  let m3 : HashMap K V :=
    { m2 with
      link_element_ := fill m2.link_element_ Iter.singular
      used_element_ := fill m2.used_element_ false
      dist_element_ := fill m2.dist_element_ 0 }
  insert_all ins old_value m3

/-- Member `insert`; `depth` bounds the nesting of `insert` inside `rebuild` inside
`insert` (`insert_fuel_stable`: 2 is always enough). -/
def HashMap.insert_fuel : Nat → HashMap K V → K × V → Option (HashMap K V)
  | 0, _, _ => none
  | depth + 1, m, val =>
    if m.capacity_ = 0 then none
    else
      let current_ind := m.hasher_ val.1 % m.capacity_
      let m1 : HashMap K V :=
        { m with
          list_element_ := m.list_element_ ++ [⟨m.next_id_, val.1, val.2⟩]
          next_id_ := m.next_id_ + 1 }
      match HashMap.insert_loop m1.capacity_ m1 current_ind 1 (Iter.node m.next_id_) with
      | none => none
      | some m2 =>
        if load_reached m2.list_element_.length m2.capacity_ then
          HashMap.rebuild_with (HashMap.insert_fuel depth) m2
        else some m2

/-- Member `insert`. -/
def HashMap.insert (m : HashMap K V) (val : K × V) : Option (HashMap K V) :=
  HashMap.insert_fuel 2 m val

/-- Member `rebuild`. -/
def HashMap.rebuild (m : HashMap K V) : Option (HashMap K V) :=
  HashMap.rebuild_with (HashMap.insert_fuel 1) m

/-- Constructor `HashMap(std::initializer_list<...> lst, Hash hasher)`. -/
def HashMap.from_list (lst : List (K × V)) (hasher : K → Nat) : Option (HashMap K V) :=
  insert_all HashMap.insert lst
    (HashMap.update_size { (HashMap.members hasher : HashMap K V) with
      capacity_ := lst.length * 2 + 1 })

/-- Constructor `HashMap(const iterator &begin, const iterator &end, Hash hasher)`; the
range is given by the elements it traverses. -/
def HashMap.from_range (range : List (K × V)) (hasher : K → Nat) : Option (HashMap K V) :=
  insert_all HashMap.insert range
    (HashMap.update_size { (HashMap.members hasher : HashMap K V) with capacity_ := 1 })

/-- The backward-shift loop of `erase`.  Each round lowers the sum of `dist_element_`
(see `erase_loop_returns`), so `fuel` above that sum is never used up. -/
def HashMap.erase_loop : Nat → HashMap K V → Nat → Option (HashMap K V)
  | 0, _, _ => none
  | fuel + 1, m, pos =>
    if 1 < m.dist_element_.getD pos 0 then
      let last_pos := if pos ≠ 0 then pos - 1 else m.capacity_ - 1
      let m1 : HashMap K V :=
        { m with
          used_element_ := (m.used_element_.set pos false).set last_pos true
          link_element_ := m.link_element_.set last_pos (m.link_element_.getD pos Iter.singular)
          dist_element_ :=
            (m.dist_element_.set last_pos (m.dist_element_.getD pos 0 - 1)).set pos 0 }
      HashMap.erase_loop fuel m1 (next_index m.capacity_ pos)
    else some m

/-- Member `erase`. -/
def HashMap.erase [DecidableEq K] (m : HashMap K V) (ind : K) : Option (HashMap K V) :=
  match m.get_need_index ind with
  | none => none
  | some current_ind =>
    if m.used_element_.getD current_ind false then
      match m.link_element_.getD current_ind Iter.singular with
      | Iter.node id =>
        if m.list_element_.any (fun n => n.id == id) then
          let m1 : HashMap K V :=
            { m with
              list_element_ := m.list_element_.eraseP (fun n => n.id == id)
              dist_element_ := m.dist_element_.set current_ind 0
              used_element_ := m.used_element_.set current_ind false }
          HashMap.erase_loop (m1.dist_element_.sum + 1) m1 (next_index m.capacity_ current_ind)
        else none
      | _ => none
    else some m

/-- Member `find`. -/
def HashMap.find [DecidableEq K] (m : HashMap K V) (ind : K) : Option Iter :=
  match m.get_need_index ind with
  | none => none
  | some current_ind =>
    if m.used_element_.getD current_ind false then
      some (m.link_element_.getD current_ind Iter.singular)
    else some m.end_

/-- Member `at`. -/
def HashMap.at_ [DecidableEq K] (m : HashMap K V) (ind : K) : Option (Result V) :=
  match m.get_need_index ind with
  | none => none
  | some current_ind =>
    if m.used_element_.getD current_ind false != true then
      some (Result.out_of_range "Aboba")
    else
      match m.deref (m.link_element_.getD current_ind Iter.singular) with
      | none => none
      | some n => some (Result.ok n.second)

/-- Member `operator[]`: the state afterwards and the identity of the node whose `second`
the returned reference designates. -/
def HashMap.subscript [DecidableEq K] [Inhabited V] (m : HashMap K V) (ind : K) :
    Option (HashMap K V × Nat) :=
  match m.get_need_index ind with
  | none => none
  | some current_ind =>
    match (if m.used_element_.getD current_ind false != true then m.insert (ind, default)
           else some m) with
    | none => none
    | some m1 =>
      match m1.get_need_index ind with
      | none => none
      | some i =>
        match m1.deref (m1.link_element_.getD i Iter.singular) with
        | none => none
        | some n => some (m1, n.id)

/-- Reading through a reference to the `second` of the node `id`. -/
def HashMap.read_ref (m : HashMap K V) (id : Nat) : Option V :=
  (m.deref (Iter.node id)).map Node.second

/-- Storing `v` through a reference to the `second` of the node `id` (as in `m[k] = v`). -/
def HashMap.write_ref (m : HashMap K V) (id : Nat) (v : V) : HashMap K V :=
  { m with
    list_element_ := m.list_element_.map (fun n => if n.id = id then { n with second := v } else n) }

/-- Member `clear`. -/
def HashMap.clear (m : HashMap K V) : HashMap K V :=
  { m with
    list_element_ := []
    link_element_ := fill m.link_element_ Iter.singular
    used_element_ := fill m.used_element_ false
    dist_element_ := fill m.dist_element_ 0 }

/-- Member `operator=`, for `other` an object different from `self`. -/
def HashMap.assign (self other : HashMap K V) : Option (HashMap K V) :=
  let m1 := self.clear
  let m2 : HashMap K V := { m1 with hasher_ := other.hasher_, capacity_ := other.capacity_ }
  insert_all HashMap.insert (other.list_element_.map Node.pair) m2.update_size

/-! ## Invariants of the table -/

/-- The entry `dist_element_[i]`. -/
def HashMap.dist (m : HashMap K V) (i : Nat) : Nat := m.dist_element_.getD i 0

/-- The entry `used_element_[i]`. -/
def HashMap.used (m : HashMap K V) (i : Nat) : Bool := m.used_element_.getD i false

/-- The entry `link_element_[i]`. -/
def HashMap.link (m : HashMap K V) (i : Nat) : Iter := m.link_element_.getD i Iter.singular

/-- The part of the invariant that every loop keeps at every round: the vectors have
`capacity_` entries, a slot is used exactly when its distance is positive, a used slot
holds an iterator to a node of the list whose key lies `dist - 1` slots after its home,
two used slots hold different iterators, and node identities are unique. -/
structure Base (m : HashMap K V) : Prop where
  cap_pos : 0 < m.capacity_
  len_link : m.link_element_.length = m.capacity_
  len_dist : m.dist_element_.length = m.capacity_
  len_used : m.used_element_.length = m.capacity_
  used_iff : ∀ i, i < m.capacity_ → (m.used i = true ↔ 0 < m.dist i)
  link_valid : ∀ i, i < m.capacity_ → 0 < m.dist i →
    ∃ n, n ∈ m.list_element_ ∧ m.link i = Iter.node n.id ∧
      (m.hasher_ n.first + (m.dist i - 1)) % m.capacity_ = i
  link_inj : ∀ i j, i < m.capacity_ → j < m.capacity_ → 0 < m.dist i → 0 < m.dist j →
    m.link i = m.link j → i = j
  ids_nodup : (m.list_element_.map Node.id).Nodup
  ids_fresh : ∀ n, n ∈ m.list_element_ → n.id < m.next_id_

/-- The invariant of the table between two calls, without the bound on the size: `Base`,
every node is held by a used slot, and the distance grows by at most one from a slot to
the next one (Robin-Hood order). -/
structure Inv0 (m : HashMap K V) : Prop where
  base : Base m
  link_surj : ∀ n, n ∈ m.list_element_ →
    ∃ i, i < m.capacity_ ∧ 0 < m.dist i ∧ m.link i = Iter.node n.id
  robin : ∀ i, i < m.capacity_ → m.dist (next_index m.capacity_ i) ≤ m.dist i + 1

/-- The invariant between two calls: `Inv0` and fewer entries than slots. -/
def Inv (m : HashMap K V) : Prop := Inv0 m ∧ m.list_element_.length < m.capacity_

/-- The invariant of the loop of `insert` when it is about to look at slot `ind` carrying
the node `c` with distance `step`. -/
structure Carrying (m : HashMap K V) (ind step c : Nat) : Prop where
  base : Base m
  ind_lt : ind < m.capacity_
  step_pos : 0 < step
  carry_mem : ∃ n, n ∈ m.list_element_ ∧ n.id = c ∧
    (m.hasher_ n.first + (step - 1)) % m.capacity_ = ind
  carry_free : ∀ i, i < m.capacity_ → 0 < m.dist i → m.link i ≠ Iter.node c
  others_ref : ∀ n, n ∈ m.list_element_ → n.id ≠ c →
    ∃ i, i < m.capacity_ ∧ 0 < m.dist i ∧ m.link i = Iter.node n.id
  robin : ∀ i, i < m.capacity_ → m.dist (next_index m.capacity_ i) ≤ m.dist i + 1
  step_le : ∀ j, j < m.capacity_ → next_index m.capacity_ j = ind → step ≤ m.dist j + 1

/-- The invariant of the backward-shift loop of `erase` when it is about to look at slot
`pos`, the slot `hole` before it having been vacated. -/
structure Shifting (m : HashMap K V) (hole pos : Nat) : Prop where
  base : Base m
  link_surj : ∀ n, n ∈ m.list_element_ →
    ∃ i, i < m.capacity_ ∧ 0 < m.dist i ∧ m.link i = Iter.node n.id
  hole_lt : hole < m.capacity_
  next_hole : next_index m.capacity_ hole = pos
  hole_zero : m.dist hole = 0
  robin : ∀ j, j < m.capacity_ → j ≠ hole → m.dist (next_index m.capacity_ j) ≤ m.dist j + 1
  before : ∀ j, j < m.capacity_ → next_index m.capacity_ j = hole → m.dist pos ≤ m.dist j + 2

/-- What `get_need_index` returns in a state satisfying the invariant: an unused slot when
no node has the key, and otherwise a used slot holding a node with the key. -/
def Located [DecidableEq K] (m : HashMap K V) (ind : K) (i : Nat) : Prop :=
  i < m.capacity_ ∧
    ((m.used i = false ∧ ∀ n, n ∈ m.list_element_ → n.first ≠ ind) ∨
     (m.used i = true ∧ ∃ n, n ∈ m.list_element_ ∧ m.link i = Iter.node n.id ∧
        m.deref (m.link i) = some n ∧ n.first = ind))

/-- The table of a map all of whose keys have home 0: the first `N` nodes of the list sit in
the slots `0 .. N - 1` in list order, the node at position `j` with distance `j + 1`, and
every other slot is unused with distance 0. -/
def StackedTo (m : HashMap K V) (N : Nat) : Prop :=
  ∀ j, j < m.capacity_ →
    (j < N → m.dist j = j + 1 ∧ m.used j = true ∧
      ∃ n, m.list_element_[j]? = some n ∧ m.link j = Iter.node n.id) ∧
    (N ≤ j → m.dist j = 0 ∧ m.used j = false)

/-- The table `m1` is the table `m` after the backward shift of the `r` slots that follow
slot `p`: for the slot `t` places after `p` (cyclically), the slot holds what the next slot
held with the distance lowered by 1 when `t < r`; it is unused with distance 0 (and keeps
the iterator it had) when `t = r`; and it is unchanged when `t > r`. -/
def ShiftedRun (m m1 : HashMap K V) (p r : Nat) : Prop :=
  ∀ t, t < m.capacity_ →
    (t < r →
      m1.dist ((p + t) % m.capacity_) = m.dist ((p + t + 1) % m.capacity_) - 1 ∧
      m1.link ((p + t) % m.capacity_) = m.link ((p + t + 1) % m.capacity_) ∧
      m1.used ((p + t) % m.capacity_) = true) ∧
    (t = r →
      m1.dist ((p + t) % m.capacity_) = 0 ∧ m1.used ((p + t) % m.capacity_) = false ∧
      m1.link ((p + t) % m.capacity_) = m.link ((p + t) % m.capacity_)) ∧
    (r < t →
      m1.dist ((p + t) % m.capacity_) = m.dist ((p + t) % m.capacity_) ∧
      m1.used ((p + t) % m.capacity_) = m.used ((p + t) % m.capacity_) ∧
      m1.link ((p + t) % m.capacity_) = m.link ((p + t) % m.capacity_))

/-- The states of a `HashMap` object: those produced by a constructor followed by any
number of calls of `insert`, `erase`, `operator[]` (with or without a store through the
returned reference), `clear` and `operator=`.  The argument of the default constructor
is below `SIZE_MAX`: for `SIZE_MAX` itself `++capacity_` wraps to 0 (see
`new_size_max`). -/
inductive Reachable [DecidableEq K] [Inhabited V] : HashMap K V → Prop where
  | new (hasher : K → Nat) (capacity : Nat) (h : capacity + 1 < 2 ^ 64) :
      Reachable (HashMap.new hasher capacity)
  | from_list (lst : List (K × V)) (hasher : K → Nat) (m : HashMap K V)
      (h : HashMap.from_list lst hasher = some m) : Reachable m
  | from_range (range : List (K × V)) (hasher : K → Nat) (m : HashMap K V)
      (h : HashMap.from_range range hasher = some m) : Reachable m
  | insert (m : HashMap K V) (val : K × V) (m1 : HashMap K V)
      (hm : Reachable m) (h : m.insert val = some m1) : Reachable m1
  | erase (m : HashMap K V) (ind : K) (m1 : HashMap K V)
      (hm : Reachable m) (h : m.erase ind = some m1) : Reachable m1
  | subscript (m : HashMap K V) (ind : K) (m1 : HashMap K V) (id : Nat)
      (hm : Reachable m) (h : m.subscript ind = some (m1, id)) : Reachable m1
  | store (m : HashMap K V) (ind : K) (m1 : HashMap K V) (id : Nat) (v : V)
      (hm : Reachable m) (h : m.subscript ind = some (m1, id)) : Reachable (m1.write_ref id v)
  | clear (m : HashMap K V) (hm : Reachable m) : Reachable m.clear
  | assign (self other m1 : HashMap K V)
      (hs : Reachable self) (ho : Reachable other) (h : self.assign other = some m1) :
      Reachable m1

/-- The state that `insert` leaves when it does not grow the table. -/
def Appended (m : HashMap K V) (val : K × V) (m2 : HashMap K V) : Prop :=
  m2.list_element_ = m.list_element_ ++ [⟨m.next_id_, val.1, val.2⟩] ∧
    m2.capacity_ = m.capacity_ ∧ m2.hasher_ = m.hasher_ ∧ m2.next_id_ = m.next_id_ + 1

/-- What `insert` does in a state satisfying the invariant. -/
structure InsertPost (m : HashMap K V) (val : K × V) (m1 : HashMap K V) : Prop where
  inv : Inv m1
  sequence_eq : m1.sequence = m.sequence ++ [val]
  hasher_eq : m1.hasher_ = m.hasher_
  length_eq : m1.list_element_.length = m.list_element_.length + 1
  next_le : m.next_id_ ≤ m1.next_id_
  no_growth : load_reached (m.list_element_.length + 1) m.capacity_ = false → Appended m val m1
  growth : load_reached (m.list_element_.length + 1) m.capacity_ = true →
    m1.capacity_ = (m.list_element_.length + 1) * 3 + 1 ∧
      ∀ n, n ∈ m1.list_element_ → m.next_id_ < n.id

/-! ## Concrete maps -/

/-- The identity on `size_t`, as `std::hash<size_t>` of the usual implementations. -/
def demo_hash : Nat → Nat := fun k => k

/-- The call `m.insert(val)` on a concrete map on which it returns. -/
def demo_insert (m : HashMap Nat String) (val : Nat × String) : HashMap Nat String :=
  (m.insert val).getD m

/-- The call `m.erase(k)` on a concrete map on which it returns. -/
def demo_erase (m : HashMap Nat String) (k : Nat) : HashMap Nat String :=
  (m.erase k).getD m

/-- The assignment `t = s` on concrete maps on which it returns. -/
def demo_assign (t s : HashMap Nat String) : HashMap Nat String :=
  (t.assign s).getD t

/-- The map `HashMap<size_t, std::string>()`. -/
def demo_new : HashMap Nat String := HashMap.new demo_hash 1

/-- The map `demo_new` after `insert({1, "a"})`. -/
def demo_one : HashMap Nat String := demo_insert demo_new (1, "a")

/-- The map `demo_one` after `insert({1, "b"})`. -/
def demo_two : HashMap Nat String := demo_insert demo_one (1, "b")

/-- The map `demo_two` after `erase(1)`. -/
def demo_two_erased : HashMap Nat String := demo_erase demo_two 1

/-- The map `demo_one` after `insert({2, "b"})`, which grows the table. -/
def demo_grown : HashMap Nat String := demo_insert demo_one (2, "b")

/-- The map `demo_new` after `insert({0, "a"})`. -/
def demo_s1 : HashMap Nat String := demo_insert demo_new (0, "a")

/-- The map `demo_s1` after `insert({1, "z"})`. -/
def demo_s2 : HashMap Nat String := demo_insert demo_s1 (1, "z")

/-- The map `demo_s2` after `insert({1, "w"})`. -/
def demo_s3 : HashMap Nat String := demo_insert demo_s2 (1, "w")

/-- The map `demo_s3` after `insert({13, "p"})`. -/
def demo_s4 : HashMap Nat String := demo_insert demo_s3 (13, "p")

/-- The map `demo_s4` after `erase(13)`. -/
def demo_shifted : HashMap Nat String := demo_erase demo_s4 13

/-- The map `x` after `x = demo_shifted` for a default-constructed `x`. -/
def demo_copy : HashMap Nat String := demo_assign demo_new demo_shifted

/-- The map `y` after `y = demo_copy` for a default-constructed `y`. -/
def demo_copy2 : HashMap Nat String := demo_assign demo_new demo_copy

/-- The map `m` after `insert({0, ""})`, ..., `insert({n - 1, ""})`. -/
def demo_fill : Nat → HashMap Nat String → HashMap Nat String
  | 0, m => m
  | n + 1, m => demo_insert (demo_fill n m) (n, "")

/-- The map `HashMap<size_t, std::string>(std::hash<size_t>(), 29433734)` after the inserts
of the keys 0, ..., 16777228. -/
def demo_full : HashMap Nat String :=
  demo_fill 16777229 (HashMap.new demo_hash 29433734)

/-- A hasher that maps every key to 0. -/
def zero_hash : Nat → Nat := fun _ => 0

/-- The default-constructed map with `zero_hash` after `insert({1, "x"})`. -/
def demo_x : HashMap Nat String := demo_insert (HashMap.new zero_hash 1) (1, "x")

/-- The map `demo_x` after `insert({2, "y"})`. -/
def demo_xy : HashMap Nat String := demo_insert demo_x (2, "y")

/-- The map `demo_xy` after `insert({3, "z"})`. -/
def demo_xyz : HashMap Nat String := demo_insert demo_xy (3, "z")

/-- The map `demo_xyz` after `erase(1)`. -/
def demo_xyz_erased : HashMap Nat String := demo_erase demo_xyz 1

/-- The map constructed from the empty range. -/
def demo_range_empty : HashMap Nat String :=
  (HashMap.from_range [] demo_hash).getD demo_new

/-- The map `HashMap<size_t, std::string>(std::hash<size_t>(), SIZE_MAX)`. -/
def demo_size_max : HashMap Nat String := HashMap.new demo_hash (2 ^ 64 - 1)

/-! # Theorems -/

/-! ## Arithmetic of the growth test -/

/-- The bits dropped from a number of at least `2 ^ 24` leave a 24-bit significand. -/
theorem drop_bits_spec : ∀ (fuel n : Nat), n ≤ fuel → 2 ^ 24 ≤ n →
    ∃ e, drop_bits fuel n = e + 1 ∧ 2 ^ 23 ≤ n / 2 ^ (e + 1) ∧ n / 2 ^ (e + 1) < 2 ^ 24 := by
  intro fuel
  induction fuel with
  | zero => intro n h1 h2; omega
  | succ fuel ih =>
    intro n h1 h2
    unfold drop_bits
    rw [if_neg (by omega)]
    by_cases h : n / 2 < 2 ^ 24
    · refine ⟨0, ?_, ?_, ?_⟩
      · cases fuel with
        | zero => omega
        | succ f => unfold drop_bits; rw [if_pos h]
      · simp only [zero_add, pow_one]; omega
      · simpa using h
    · obtain ⟨e, he, h3, h4⟩ := ih (n / 2) (by omega) (by omega)
      refine ⟨e + 1, by rw [he], ?_, ?_⟩
      · rw [Nat.div_div_eq_div_mul, ← pow_succ'] at h3; exact h3
      · rw [Nat.div_div_eq_div_mul, ← pow_succ'] at h4; exact h4

/-- Rounding to `float` changes a number by at most one part in `2 ^ 24`. -/
theorem to_float_bounds (n : Nat) :
    16777215 * n ≤ 16777216 * to_float n ∧ 16777216 * to_float n ≤ 16777217 * n := by
  unfold to_float
  by_cases hn : n < 2 ^ 24
  · rw [if_pos hn]; omega
  · rw [if_neg hn]
    obtain ⟨e, he, hq, -⟩ := drop_bits_spec n n (Nat.le_refl n) (Nat.le_of_not_lt hn)
    simp only [he, Nat.add_sub_cancel]
    have hP : 2 ^ (e + 1) = 2 * 2 ^ e := by rw [pow_succ]; ring
    have hdm := Nat.div_add_mod n (2 ^ (e + 1))
    have hr : n % 2 ^ (e + 1) < 2 ^ (e + 1) := Nat.mod_lt _ (by positivity)
    have hA : 16777216 * 2 ^ e ≤ 2 ^ (e + 1) * (n / 2 ^ (e + 1)) := by
      calc 16777216 * 2 ^ e = 2 ^ (e + 1) * 2 ^ 23 := by rw [hP]; ring
        _ ≤ 2 ^ (e + 1) * (n / 2 ^ (e + 1)) := Nat.mul_le_mul_left _ hq
    have e1 : n / 2 ^ (e + 1) * 2 ^ (e + 1) = 2 ^ (e + 1) * (n / 2 ^ (e + 1)) := by ring
    have e2 : (n / 2 ^ (e + 1) + 1) * 2 ^ (e + 1)
        = 2 ^ (e + 1) * (n / 2 ^ (e + 1)) + 2 ^ (e + 1) := by ring
    rw [e1, e2]
    generalize 2 ^ (e + 1) * (n / 2 ^ (e + 1)) = A at *
    generalize n % 2 ^ (e + 1) = r at *
    generalize n / 2 ^ (e + 1) = q at *
    generalize 2 ^ (e + 1) = P at *
    generalize 2 ^ e = H at *
    split_ifs <;> omega

theorem load_reached_false_lt {n c : Nat} (h : load_reached n c = false) : n < c := by
  unfold load_reached LOAD_FACTOR at h
  have h1 := to_float_bounds n
  have h2 := to_float_bounds c
  have h3 := to_float_bounds (9563013 * to_float c)
  simp only [decide_eq_false_iff_not, not_le] at h
  omega

theorem load_reached_triple {k n : Nat} (h : k ≤ n) : load_reached k (n * 3 + 1) = false := by
  unfold load_reached LOAD_FACTOR
  have h1 := to_float_bounds k
  have h2 := to_float_bounds (n * 3 + 1)
  have h3 := to_float_bounds (9563013 * to_float (n * 3 + 1))
  simp only [decide_eq_false_iff_not, not_le]
  omega

/-! ## Lists and cyclic indices -/

theorem getD_set {α : Type} (l : List α) (p i : Nat) (v d : α) (hp : p < l.length) :
    (l.set p v).getD i d = if i = p then v else l.getD i d := by
  simp only [List.getD_eq_getElem?_getD, List.getElem?_set]
  by_cases h : p = i
  · subst h; simp [hp]
  · have h2 : ¬ i = p := fun e => h e.symm
    simp [h, h2]

theorem getD_replicate {α : Type} (n i : Nat) (d : α) : (List.replicate n d).getD i d = d := by
  simp only [List.getD_eq_getElem?_getD, List.getElem?_replicate]
  split_ifs <;> rfl

theorem length_resize {α : Type} (xs : List α) (n : Nat) (d : α) : (resize xs n d).length = n := by
  simp only [resize, List.length_append, List.length_take, List.length_replicate]
  omega

theorem fill_resize {α : Type} (xs : List α) (n : Nat) (d : α) :
    fill (resize xs n d) d = List.replicate n d := by
  rw [fill, length_resize]

theorem resize_replicate {α : Type} (k n : Nat) (d : α) :
    resize (List.replicate k d) n d = List.replicate n d := by
  rw [List.eq_replicate_iff]
  refine ⟨length_resize _ _ _, ?_⟩
  intro b hb
  simp only [resize, List.mem_append] at hb
  rcases hb with hb | hb
  · exact List.eq_of_mem_replicate (List.mem_of_mem_take hb)
  · exact List.eq_of_mem_replicate hb

theorem sum_set (l : List Nat) (p v : Nat) (hp : p < l.length) :
    (l.set p v).sum + l.getD p 0 = l.sum + v := by
  induction l generalizing p with
  | nil => simp at hp
  | cons a t ih =>
    cases p with
    | zero => simp; omega
    | succ p =>
      simp only [List.length_cons, Nat.add_lt_add_iff_right] at hp
      have := ih p hp
      simp only [List.set_cons_succ, List.sum_cons, List.getD_cons_succ]
      omega

theorem next_index_lt {c i : Nat} (hc : 0 < c) (hi : i < c) : next_index c i < c := by
  unfold next_index; split_ifs <;> omega

theorem next_index_inj {c i j : Nat}
    (h : next_index c i = next_index c j) : i = j := by
  unfold next_index at h; split_ifs at h <;> omega

theorem mod_succ_eq_next {c x : Nat} (hc : 0 < c) : (x + 1) % c = next_index c (x % c) := by
  unfold next_index
  have hx : x % c < c := Nat.mod_lt _ hc
  rw [Nat.add_mod]
  split_ifs with h
  · by_cases h1 : c = 1
    · subst h1; simp [Nat.mod_one]
    · rw [Nat.mod_eq_of_lt (show 1 < c by omega), h, Nat.mod_self]
  · by_cases h1 : c = 1
    · subst h1; omega
    · rw [Nat.mod_eq_of_lt (show 1 < c by omega)]
      exact Nat.mod_eq_of_lt (by omega)

theorem next_index_eq_mod {c i : Nat} (hi : i < c) : next_index c i = (i + 1) % c := by
  rw [mod_succ_eq_next (by omega), Nat.mod_eq_of_lt hi]

theorem next_add_mod {c i t : Nat} (hi : i < c) : (next_index c i + t) % c = (i + (t + 1)) % c := by
  rw [next_index_eq_mod hi, Nat.mod_add_mod]; congr 1; omega

theorem exists_offset {c a j : Nat} (ha : a < c) (hj : j < c) : ∃ e, e < c ∧ (a + e) % c = j := by
  by_cases h : a ≤ j
  · exact ⟨j - a, by omega, by rw [show a + (j - a) = j by omega]; exact Nat.mod_eq_of_lt hj⟩
  · refine ⟨c - a + j, by omega, ?_⟩
    rw [show a + (c - a + j) = j + c by omega, Nat.add_mod_right]
    exact Nat.mod_eq_of_lt hj

theorem last_pos_eq {c h pos : Nat} (hn : next_index c h = pos) :
    (if pos ≠ 0 then pos - 1 else c - 1) = h := by
  unfold next_index at hn; split_ifs at hn <;> split_ifs <;> omega

theorem mod_pred_of_next {c x h : Nat} (hh : h < c) (hx : (x + 1) % c = next_index c h) :
    x % c = h := by
  have hc : 0 < c := by omega
  rw [mod_succ_eq_next hc] at hx
  exact next_index_inj hx

/-! ## Nodes and iterators -/

theorem node_eq_of_id_eq {l : List (Node K V)} (hn : (l.map Node.id).Nodup)
    {a b : Node K V} (ha : a ∈ l) (hb : b ∈ l) (h : a.id = b.id) : a = b :=
  List.inj_on_of_nodup_map hn ha hb h

theorem find_node_of_mem {l : List (Node K V)} (hn : (l.map Node.id).Nodup)
    {n : Node K V} (hm : n ∈ l) : l.find? (fun x => x.id == n.id) = some n := by
  cases hf : l.find? (fun x => x.id == n.id) with
  | none =>
    rw [List.find?_eq_none] at hf
    exact absurd (by simp) (hf n hm)
  | some x =>
    have h1 : x.id = n.id := by simpa using List.find?_some hf
    rw [node_eq_of_id_eq hn (List.mem_of_find?_eq_some hf) hm h1]

theorem deref_of_mem {m : HashMap K V} (hb : Base m) {n : Node K V}
    (hm : n ∈ m.list_element_) : m.deref (Iter.node n.id) = some n :=
  find_node_of_mem hb.ids_nodup hm

/-- The node held by a used slot. -/
theorem Base.deref_link {m : HashMap K V} (hb : Base m) {i : Nat} (hi : i < m.capacity_)
    (hd : 0 < m.dist i) :
    ∃ n, n ∈ m.list_element_ ∧ m.link i = Iter.node n.id ∧ m.deref (m.link i) = some n ∧
      (m.hasher_ n.first + (m.dist i - 1)) % m.capacity_ = i := by
  obtain ⟨n, hn, hl, hh⟩ := hb.link_valid i hi hd
  exact ⟨n, hn, hl, by rw [hl]; exact deref_of_mem hb hn, hh⟩

/-! ## An unused slot exists -/

theorem exists_unused {m : HashMap K V} (hb : Base m)
    (hs : m.list_element_.length < m.capacity_) : ∃ j, j < m.capacity_ ∧ m.dist j = 0 := by
  by_contra hcon
  have hall : ∀ j, j < m.capacity_ → 0 < m.dist j := by
    intro j hj
    by_contra h0
    exact hcon ⟨j, hj, by omega⟩
  let f : Nat → Nat := fun i => match m.link i with
    | Iter.node id => id
    | _ => 0
  have hcard : (m.list_element_.map Node.id).toFinset.card < (Finset.range m.capacity_).card := by
    rw [Finset.card_range]
    calc (m.list_element_.map Node.id).toFinset.card
        ≤ (m.list_element_.map Node.id).length := List.toFinset_card_le _
      _ = m.list_element_.length := List.length_map _ _
      _ < m.capacity_ := hs
  have hmaps : ∀ a ∈ Finset.range m.capacity_, f a ∈ (m.list_element_.map Node.id).toFinset := by
    intro a ha
    rw [Finset.mem_range] at ha
    obtain ⟨n, hn, hl, -⟩ := hb.link_valid a ha (hall a ha)
    have : f a = n.id := by simp only [f, hl]
    rw [this, List.mem_toFinset]
    exact List.mem_map_of_mem _ hn
  obtain ⟨x, hx, y, hy, hxy, hf⟩ :=
    Finset.exists_ne_map_eq_of_card_lt_of_maps_to hcard hmaps
  rw [Finset.mem_range] at hx hy
  obtain ⟨n, -, hl, -⟩ := hb.link_valid x hx (hall x hx)
  obtain ⟨n2, -, hl2, -⟩ := hb.link_valid y hy (hall y hy)
  have e1 : f x = n.id := by simp only [f, hl]
  have e2 : f y = n2.id := by simp only [f, hl2]
  apply hxy
  apply hb.link_inj x y hx hy (hall x hx) (hall y hy)
  rw [hl, hl2, ← e1, ← e2, hf]

/-! ## The probe path of a stored key is used -/

theorem path_used {m : HashMap K V} (hc : 0 < m.capacity_)
    (hr : ∀ i, i < m.capacity_ → m.dist (next_index m.capacity_ i) ≤ m.dist i + 1)
    (x d : Nat) (hd : m.dist ((x + (d - 1)) % m.capacity_) = d) :
    ∀ r, r < d → d - r ≤ m.dist ((x + (d - 1 - r)) % m.capacity_) := by
  intro r
  induction r with
  | zero => intro _; simp only [Nat.sub_zero]; omega
  | succ r ih =>
    intro hlt
    have h1 := ih (by omega)
    have h2 := hr ((x + (d - 1 - (r + 1))) % m.capacity_) (Nat.mod_lt _ hc)
    rw [← mod_succ_eq_next hc] at h2
    rw [show x + (d - 1 - (r + 1)) + 1 = x + (d - 1 - r) by omega] at h2
    omega

theorem path_used_at {m : HashMap K V} (hc : 0 < m.capacity_)
    (hr : ∀ i, i < m.capacity_ → m.dist (next_index m.capacity_ i) ≤ m.dist i + 1)
    (x d : Nat) (hd : m.dist ((x + (d - 1)) % m.capacity_) = d) (s : Nat) (hs : s < d) :
    s + 1 ≤ m.dist ((x + s) % m.capacity_) := by
  have h := path_used hc hr x d hd (d - 1 - s) (by omega)
  rw [show d - 1 - (d - 1 - s) = s by omega] at h
  omega

/-! ## Lookup -/

theorem get_need_index_loop_spec [DecidableEq K] {m : HashMap K V} (h : Inv0 m) (ind : K) :
    ∀ fuel t,
      (∀ s, s < t → ∀ n, n ∈ m.list_element_ →
        m.link ((m.hasher_ ind + s) % m.capacity_) = Iter.node n.id → n.first ≠ ind) →
      (∃ e, t ≤ e ∧ e < t + fuel ∧ m.dist ((m.hasher_ ind + e) % m.capacity_) = 0) →
      ∃ i, m.get_need_index_loop ind fuel ((m.hasher_ ind + t) % m.capacity_) = some i ∧
        Located m ind i := by
  have hc := h.base.cap_pos
  intro fuel
  induction fuel with
  | zero =>
    intro t _ ⟨e, h1, h2, _⟩
    omega
  | succ fuel ih =>
    intro t hvis ⟨e, hte, het, he0⟩
    have hcur : (m.hasher_ ind + t) % m.capacity_ < m.capacity_ := Nat.mod_lt _ hc
    unfold HashMap.get_need_index_loop
    by_cases hu : m.used ((m.hasher_ ind + t) % m.capacity_) = true
    · have hu2 : m.used_element_.getD ((m.hasher_ ind + t) % m.capacity_) false = true := hu
      rw [if_pos hu2]
      have hd := (h.base.used_iff _ hcur).1 hu
      obtain ⟨n, hn, hl, hdr, -⟩ := h.base.deref_link hcur hd
      have hdr2 : m.deref (m.link_element_.getD ((m.hasher_ ind + t) % m.capacity_)
        Iter.singular) = some n := hdr
      rw [hdr2]
      simp only
      by_cases hk : n.first = ind
      · rw [if_pos hk]
        exact ⟨_, rfl, hcur, Or.inr ⟨hu, n, hn, hl, hdr, hk⟩⟩
      · rw [if_neg hk, ← mod_succ_eq_next hc]
        have hne : e ≠ t := by
          intro hh; rw [hh] at he0; omega
        apply ih (t + 1)
        · intro s hs n2 hn2 hl2
          by_cases hst : s = t
          · subst hst
            rw [hl] at hl2
            have : n.id = n2.id := by injection hl2
            rw [← node_eq_of_id_eq h.base.ids_nodup hn hn2 this]
            exact hk
          · exact hvis s (by omega) n2 hn2 hl2
        · exact ⟨e, by omega, by omega, he0⟩
    · have hu2 : ¬ (m.used_element_.getD ((m.hasher_ ind + t) % m.capacity_) false = true) := hu
      rw [if_neg hu2]
      refine ⟨_, rfl, hcur, Or.inl ⟨by simpa using hu, ?_⟩⟩
      intro n hn hk
      obtain ⟨j, hj, hdj, hlj⟩ := h.link_surj n hn
      obtain ⟨n2, hn2, hl2, hh2⟩ := h.base.link_valid j hj hdj
      rw [hlj] at hl2
      have hid : n.id = n2.id := by injection hl2
      have hnn : n = n2 := node_eq_of_id_eq h.base.ids_nodup hn hn2 hid
      rw [← hnn, hk] at hh2
      have hdist : m.dist ((m.hasher_ ind + (m.dist j - 1)) % m.capacity_) = m.dist j := by
        rw [hh2]
      have hcur0 : m.dist ((m.hasher_ ind + t) % m.capacity_) = 0 := by
        by_contra hne
        exact hu ((h.base.used_iff _ hcur).2 (by omega))
      by_cases htd : t < m.dist j
      · have := path_used_at hc h.robin (m.hasher_ ind) (m.dist j) hdist t htd
        omega
      · have hv := hvis (m.dist j - 1) (by omega) n hn
        rw [hh2] at hv
        exact hv hlj hk

theorem get_need_index_spec [DecidableEq K] {m : HashMap K V} (h : Inv m) (ind : K) :
    ∃ i, m.get_need_index ind = some i ∧ Located m ind i := by
  have hc := h.1.base.cap_pos
  obtain ⟨j, hj, hj0⟩ := exists_unused h.1.base h.2
  obtain ⟨e, he, hje⟩ := exists_offset (Nat.mod_lt (m.hasher_ ind) hc) hj
  unfold HashMap.get_need_index
  rw [if_neg (by omega)]
  have := get_need_index_loop_spec h.1 ind m.capacity_ 0 (by intro s hs; omega)
    ⟨e, by omega, by omega, by rw [← Nat.mod_add_mod, hje]; exact hj0⟩
  simpa using this

/-! ## The loop of `insert` -/

/-- The loop of `insert` writes the three vectors only. -/
theorem insert_loop_frame : ∀ (fuel : Nat) (m : HashMap K V) (i s : Nat) (it : Iter)
    (m1 : HashMap K V), HashMap.insert_loop fuel m i s it = some m1 →
    m1.list_element_ = m.list_element_ ∧ m1.capacity_ = m.capacity_ ∧
      m1.hasher_ = m.hasher_ ∧ m1.next_id_ = m.next_id_ := by
  intro fuel
  induction fuel with
  | zero => intro m i s it m1 h; simp [HashMap.insert_loop] at h
  | succ fuel ih =>
    intro m i s it m1 h
    unfold HashMap.insert_loop at h
    by_cases h1 : m.dist_element_.getD i 0 < s
    · rw [if_pos h1] at h
      simp only at h
      by_cases h2 : m.dist_element_.getD i 0 = 0
      · rw [if_pos h2] at h
        simp only [Option.some.injEq] at h
        subst h
        exact ⟨rfl, rfl, rfl, rfl⟩
      · rw [if_neg h2] at h
        exact ih { m with
          dist_element_ := m.dist_element_.set i s
          link_element_ := m.link_element_.set i it
          used_element_ := m.used_element_.set i true } _ _ _ _ h
    · rw [if_neg h1] at h
      exact ih m _ _ _ _ h

/-- Writing the carried node into slot `p` keeps `Base`. -/
theorem Carrying.base_put {m : HashMap K V} {ind step c : Nat} (h : Carrying m ind step c) :
    Base ({ m with
      dist_element_ := m.dist_element_.set ind step
      link_element_ := m.link_element_.set ind (Iter.node c)
      used_element_ := m.used_element_.set ind true } : HashMap K V) := by
  have hb := h.base
  have hi := h.ind_lt
  have hd : ∀ i, HashMap.dist ({ m with
      dist_element_ := m.dist_element_.set ind step
      link_element_ := m.link_element_.set ind (Iter.node c)
      used_element_ := m.used_element_.set ind true } : HashMap K V) i
      = if i = ind then step else m.dist i :=
    fun i => getD_set _ _ _ _ _ (by rw [hb.len_dist]; exact hi)
  have hl : ∀ i, HashMap.link ({ m with
      dist_element_ := m.dist_element_.set ind step
      link_element_ := m.link_element_.set ind (Iter.node c)
      used_element_ := m.used_element_.set ind true } : HashMap K V) i
      = if i = ind then Iter.node c else m.link i :=
    fun i => getD_set _ _ _ _ _ (by rw [hb.len_link]; exact hi)
  have hu : ∀ i, HashMap.used ({ m with
      dist_element_ := m.dist_element_.set ind step
      link_element_ := m.link_element_.set ind (Iter.node c)
      used_element_ := m.used_element_.set ind true } : HashMap K V) i
      = if i = ind then true else m.used i :=
    fun i => getD_set _ _ _ _ _ (by rw [hb.len_used]; exact hi)
  have hsp := h.step_pos
  refine ⟨hb.cap_pos, ?_, ?_, ?_, ?_, ?_, ?_, hb.ids_nodup, hb.ids_fresh⟩
  · simpa using hb.len_link
  · simpa using hb.len_dist
  · simpa using hb.len_used
  · intro i hic
    rw [hd, hu]
    by_cases e : i = ind
    · simp [e, hsp]
    · simp only [e, if_false]; exact hb.used_iff i hic
  · intro i hic
    rw [hd, hl]
    by_cases e : i = ind
    · simp only [e, if_true]
      intro _
      obtain ⟨n, hn, hid, hh⟩ := h.carry_mem
      exact ⟨n, hn, by rw [hid], hh⟩
    · simp only [e, if_false]; exact hb.link_valid i hic
  · intro i j hic hjc
    rw [hd, hd, hl, hl]
    by_cases e : i = ind <;> by_cases e2 : j = ind
    · intro _ _ _; rw [e, e2]
    · simp only [e, e2, if_true, if_false]
      intro _ hj hl2
      exact absurd hl2.symm (h.carry_free j hjc hj)
    · simp only [e, e2, if_true, if_false]
      intro hi2 _ hl2
      exact absurd hl2 (h.carry_free i hic hi2)
    · simp only [e, e2, if_false]; exact hb.link_inj i j hic hjc

theorem insert_loop_spec : ∀ (fuel : Nat) (m : HashMap K V) (ind step c : Nat),
    Carrying m ind step c →
    (∃ t, t < fuel ∧ m.dist ((ind + t) % m.capacity_) = 0) →
    ∃ m1, HashMap.insert_loop fuel m ind step (Iter.node c) = some m1 ∧ Inv0 m1 := by
  intro fuel
  induction fuel with
  | zero => intro m ind step c _ ⟨t, h, _⟩; omega
  | succ fuel ih =>
    intro m ind step c h ⟨t, ht, ht0⟩
    have hb := h.base
    have hc := hb.cap_pos
    have hi := h.ind_lt
    have hsp := h.step_pos
    have hb1 := h.base_put
    have hd : ∀ i, HashMap.dist ({ m with
        dist_element_ := m.dist_element_.set ind step
        link_element_ := m.link_element_.set ind (Iter.node c)
        used_element_ := m.used_element_.set ind true } : HashMap K V) i
        = if i = ind then step else m.dist i :=
      fun i => getD_set _ _ _ _ _ (by rw [hb.len_dist]; exact hi)
    have hl : ∀ i, HashMap.link ({ m with
        dist_element_ := m.dist_element_.set ind step
        link_element_ := m.link_element_.set ind (Iter.node c)
        used_element_ := m.used_element_.set ind true } : HashMap K V) i
        = if i = ind then Iter.node c else m.link i :=
      fun i => getD_set _ _ _ _ _ (by rw [hb.len_link]; exact hi)
    have hnext := next_index_lt hc hi
    unfold HashMap.insert_loop
    by_cases hlt : m.dist ind < step
    · have hlt2 : m.dist_element_.getD ind 0 < step := hlt
      rw [if_pos hlt2]
      simp only
      have hrobin : ∀ i, i < m.capacity_ →
          HashMap.dist ({ m with
            dist_element_ := m.dist_element_.set ind step
            link_element_ := m.link_element_.set ind (Iter.node c)
            used_element_ := m.used_element_.set ind true } : HashMap K V)
            (next_index m.capacity_ i)
          ≤ HashMap.dist ({ m with
            dist_element_ := m.dist_element_.set ind step
            link_element_ := m.link_element_.set ind (Iter.node c)
            used_element_ := m.used_element_.set ind true } : HashMap K V) i + 1 := by
        intro i hic
        rw [hd, hd]
        have r := h.robin i hic
        by_cases e1 : next_index m.capacity_ i = ind
        · have s := h.step_le i hic e1
          rw [if_pos e1]
          split_ifs <;> omega
        · rw [if_neg e1]
          split_ifs with e2
          · rw [← e2] at hlt; omega
          · exact r
      by_cases h0 : m.dist ind = 0
      · have h02 : m.dist_element_.getD ind 0 = 0 := h0
        rw [if_pos h02]
        refine ⟨_, rfl, hb1, ?_, hrobin⟩
        intro n hn
        by_cases e : n.id = c
        · exact ⟨ind, hi, by rw [hd, if_pos rfl]; exact hsp, by rw [hl, if_pos rfl, e]⟩
        · obtain ⟨i, hic, hdi, hli⟩ := h.others_ref n hn e
          have ne : i ≠ ind := by intro hh; rw [hh] at hdi; omega
          exact ⟨i, hic, by rw [hd, if_neg ne]; exact hdi, by rw [hl, if_neg ne]; exact hli⟩
      · have h02 : ¬ m.dist_element_.getD ind 0 = 0 := h0
        rw [if_neg h02]
        obtain ⟨n1, hn1, hl1, hh1⟩ := hb.link_valid ind hi (by omega)
        have hl1b : m.link_element_.getD ind Iter.singular = Iter.node n1.id := hl1
        rw [hl1b]
        have hcne : n1.id ≠ c := by
          intro hh
          exact h.carry_free ind hi (by omega) (by rw [hl1, hh])
        apply ih
        · refine ⟨hb1, hnext, by omega, ?_, ?_, ?_, hrobin, ?_⟩
          · refine ⟨n1, hn1, rfl, ?_⟩
            show (m.hasher_ n1.first + (m.dist ind + 1 - 1)) % m.capacity_
              = next_index m.capacity_ ind
            have hs := mod_succ_eq_next (x := m.hasher_ n1.first + (m.dist ind - 1)) hc
            rw [hh1] at hs
            rw [← hs]
            congr 1
            omega
          · intro i hic
            rw [hd, hl]
            by_cases e : i = ind
            · simp only [e, if_true]
              intro _ hh
              injection hh with hh
              exact hcne hh.symm
            · simp only [e, if_false]
              intro hdi hli
              exact e (hb.link_inj i ind hic hi hdi (by omega) (by rw [hli, hl1]))
          · intro n hn hne
            by_cases e : n.id = c
            · exact ⟨ind, hi, by rw [hd, if_pos rfl]; exact hsp, by rw [hl, if_pos rfl, e]⟩
            · obtain ⟨i, hic, hdi, hli⟩ := h.others_ref n hn e
              have ne : i ≠ ind := by
                intro hh
                rw [hh, hl1] at hli
                injection hli with hli
                exact hne hli.symm
              exact ⟨i, hic, by rw [hd, if_neg ne]; exact hdi, by rw [hl, if_neg ne]; exact hli⟩
          · intro j hjc hj
            have : j = ind := next_index_inj hj
            rw [hd, if_pos this]
            show m.dist ind + 1 ≤ step + 1
            omega
        · have ht1 : t ≠ 0 := by
            intro hh
            rw [hh, Nat.add_zero, Nat.mod_eq_of_lt hi] at ht0
            omega
          refine ⟨t - 1, by omega, ?_⟩
          show HashMap.dist _ ((next_index m.capacity_ ind + (t - 1)) % m.capacity_) = 0
          rw [next_add_mod hi, show t - 1 + 1 = t by omega, hd]
          have : (ind + t) % m.capacity_ ≠ ind := by
            intro hh; rw [hh] at ht0; omega
          rw [if_neg this]
          exact ht0
    · have hlt2 : ¬ m.dist_element_.getD ind 0 < step := hlt
      rw [if_neg hlt2]
      apply ih
      · refine ⟨hb, hnext, by omega, ?_, h.carry_free, h.others_ref, h.robin, ?_⟩
        · obtain ⟨n, hn, hid, hh⟩ := h.carry_mem
          refine ⟨n, hn, hid, ?_⟩
          have hs := mod_succ_eq_next (x := m.hasher_ n.first + (step - 1)) hc
          rw [hh] at hs
          rw [← hs]
          congr 1
          omega
        · intro j hjc hj
          have : j = ind := next_index_inj hj
          rw [this]
          omega
      · have ht1 : t ≠ 0 := by
          intro hh
          rw [hh, Nat.add_zero, Nat.mod_eq_of_lt hi] at ht0
          omega
        refine ⟨t - 1, by omega, ?_⟩
        rw [next_add_mod hi, show t - 1 + 1 = t by omega]
        exact ht0

/-! ## `insert` -/

/-- A table whose slots are all unused, with an empty list, satisfies the invariant. -/
theorem Inv0_blank {m : HashMap K V} (hc : 0 < m.capacity_)
    (hl : m.link_element_ = List.replicate m.capacity_ Iter.singular)
    (hd : m.dist_element_ = List.replicate m.capacity_ 0)
    (hu : m.used_element_ = List.replicate m.capacity_ false)
    (hn : m.list_element_ = []) : Inv0 m := by
  have d0 : ∀ i, m.dist i = 0 := by
    intro i; unfold HashMap.dist; rw [hd]; exact getD_replicate _ _ _
  have u0 : ∀ i, m.used i = false := by
    intro i; unfold HashMap.used; rw [hu]; exact getD_replicate _ _ _
  refine ⟨⟨hc, by rw [hl, List.length_replicate], by rw [hd, List.length_replicate],
    by rw [hu, List.length_replicate], ?_, ?_, ?_, by rw [hn]; exact List.nodup_nil, ?_⟩, ?_, ?_⟩
  · intro i _; rw [u0, d0]; simp
  · intro i _ h; rw [d0] at h; omega
  · intro i j _ _ h; rw [d0] at h; omega
  · intro n h; rw [hn] at h; cases h
  · intro n h; rw [hn] at h; cases h
  · intro i _; rw [d0, d0]; omega

/-- The placement loop of `insert` stops and keeps the invariant. -/
theorem place_spec {m : HashMap K V} (h : Inv0 m) (hs : m.list_element_.length < m.capacity_)
    (val : K × V) :
    ∃ m2, HashMap.insert_loop m.capacity_
        ({ m with
          list_element_ := m.list_element_ ++ [⟨m.next_id_, val.1, val.2⟩]
          next_id_ := m.next_id_ + 1 } : HashMap K V)
        (m.hasher_ val.1 % m.capacity_) 1 (Iter.node m.next_id_) = some m2 ∧
      Inv0 m2 ∧ Appended m val m2 := by
  have hb := h.base
  have hc := hb.cap_pos
  have hcar : Carrying ({ m with
      list_element_ := m.list_element_ ++ [⟨m.next_id_, val.1, val.2⟩]
      next_id_ := m.next_id_ + 1 } : HashMap K V)
      (m.hasher_ val.1 % m.capacity_) 1 m.next_id_ := by
    refine ⟨⟨hc, hb.len_link, hb.len_dist, hb.len_used, hb.used_iff, ?_, hb.link_inj, ?_, ?_⟩,
      Nat.mod_lt _ hc, Nat.one_pos, ?_, ?_, ?_, h.robin, ?_⟩
    · intro i hi hd
      obtain ⟨n, hn, hl, hh⟩ := hb.link_valid i hi hd
      exact ⟨n, List.mem_append_left _ hn, hl, hh⟩
    · show ((m.list_element_ ++ [(⟨m.next_id_, val.1, val.2⟩ : Node K V)]).map Node.id).Nodup
      rw [List.map_append, List.nodup_append]
      refine ⟨hb.ids_nodup, by simp, ?_⟩
      intro a ha hb2
      simp only [List.map_cons, List.map_nil, List.mem_singleton] at hb2
      rw [List.mem_map] at ha
      obtain ⟨n, hn, rfl⟩ := ha
      have := hb.ids_fresh n hn
      omega
    · intro n hn
      show n.id < m.next_id_ + 1
      rcases List.mem_append.1 hn with h1 | h1
      · have := hb.ids_fresh n h1; omega
      · simp only [List.mem_singleton] at h1
        rw [h1]; exact Nat.lt_succ_self _
    · exact ⟨(⟨m.next_id_, val.1, val.2⟩ : Node K V), by simp, rfl, by simp⟩
    · intro i hi hd hl
      obtain ⟨n, hn, hl2, -⟩ := hb.link_valid i hi hd
      have e : HashMap.link m i = Iter.node m.next_id_ := hl
      rw [hl2] at e
      injection e with e
      have := hb.ids_fresh n hn
      omega
    · intro n hn hne
      rcases List.mem_append.1 hn with h1 | h1
      · exact h.link_surj n h1
      · simp only [List.mem_singleton] at h1
        rw [h1] at hne
        exact absurd rfl hne
    · intro j _ _
      exact Nat.succ_le_succ (Nat.zero_le _)
  obtain ⟨j, hj, hj0⟩ := exists_unused hb hs
  obtain ⟨e, he, hje⟩ := exists_offset (Nat.mod_lt (m.hasher_ val.1) hc) hj
  obtain ⟨m2, hm2, hinv⟩ := insert_loop_spec m.capacity_ _ _ _ _ hcar
    ⟨e, he, by rw [hje]; exact hj0⟩
  obtain ⟨f1, f2, f3, f4⟩ := insert_loop_frame _ _ _ _ _ _ hm2
  exact ⟨m2, hm2, hinv, f1, f2, f3, f4⟩

theorem insert_fuel_succ (depth : Nat) (m : HashMap K V) (val : K × V) :
    HashMap.insert_fuel (depth + 1) m val =
      if m.capacity_ = 0 then none
      else
        match HashMap.insert_loop m.capacity_
          ({ m with
            list_element_ := m.list_element_ ++ [⟨m.next_id_, val.1, val.2⟩]
            next_id_ := m.next_id_ + 1 } : HashMap K V)
          (m.hasher_ val.1 % m.capacity_) 1 (Iter.node m.next_id_) with
        | none => none
        | some m2 =>
          if load_reached m2.list_element_.length m2.capacity_ then
            HashMap.rebuild_with (HashMap.insert_fuel depth) m2
          else some m2 := by
  rfl

/-- An `insert` that does not reach the load factor. -/
theorem insert_fuel_no_growth {m : HashMap K V} (h : Inv0 m)
    (hs : m.list_element_.length < m.capacity_) (val : K × V) (depth : Nat)
    (hl : load_reached (m.list_element_.length + 1) m.capacity_ = false) :
    ∃ m2, HashMap.insert_fuel (depth + 1) m val = some m2 ∧ Inv0 m2 ∧ Appended m val m2 := by
  obtain ⟨m2, hm2, hinv, happ⟩ := place_spec h hs val
  refine ⟨m2, ?_, hinv, happ⟩
  rw [insert_fuel_succ, if_neg (by have := h.base.cap_pos; omega), hm2]
  simp only
  obtain ⟨f1, f2, -, -⟩ := happ
  rw [f1, f2, List.length_append, List.length_singleton, hl]
  simp

theorem sequence_of_appended {m m2 : HashMap K V} {val : K × V} (h : Appended m val m2) :
    m2.sequence = m.sequence ++ [val] := by
  unfold HashMap.sequence
  rw [h.1, List.map_append]
  rfl

/-- The reinsertions of `rebuild`: none of them reaches the load factor. -/
theorem reinsert_spec (depth N : Nat) : ∀ (L : List (K × V)) (m : HashMap K V),
    Inv0 m → m.capacity_ = N * 3 + 1 → m.list_element_.length + L.length ≤ N →
    ∃ m2, insert_all (HashMap.insert_fuel (depth + 1)) L m = some m2 ∧ Inv0 m2 ∧
      m2.sequence = m.sequence ++ L ∧ m2.capacity_ = m.capacity_ ∧ m2.hasher_ = m.hasher_ ∧
      m2.list_element_.length = m.list_element_.length + L.length ∧
      m.next_id_ ≤ m2.next_id_ ∧
      (∀ n, n ∈ m2.list_element_ → n ∈ m.list_element_ ∨ m.next_id_ ≤ n.id) := by
  intro L
  induction L with
  | nil =>
    intro m h _ _
    exact ⟨m, rfl, h, by simp, rfl, rfl, by simp, Nat.le_refl _, fun n hn => Or.inl hn⟩
  | cons x xs ih =>
    intro m h hcap hlen
    simp only [List.length_cons] at hlen
    obtain ⟨m1, hm1, hinv1, happ⟩ := insert_fuel_no_growth h (by omega) x depth
      (by rw [hcap]; exact load_reached_triple (by omega))
    have hseq := sequence_of_appended happ
    obtain ⟨a1, a2, a3, a4⟩ := happ
    have hlen1 : m1.list_element_.length = m.list_element_.length + 1 := by
      rw [a1, List.length_append, List.length_singleton]
    obtain ⟨m2, hm2, hinv2, s2, c2, hh2, l2, n2, f2⟩ := ih m1 hinv1 (by rw [a2, hcap])
      (by rw [hlen1]; omega)
    refine ⟨m2, ?_, hinv2, ?_, by rw [c2, a2], by rw [hh2, a3], ?_, by omega, ?_⟩
    · simp only [insert_all, hm1, hm2]
    · rw [s2, hseq, List.append_assoc]; rfl
    · rw [l2, hlen1, List.length_cons]; omega
    · intro n hn
      rcases f2 n hn with h1 | h1
      · rw [a1] at h1
        rcases List.mem_append.1 h1 with h3 | h3
        · exact Or.inl h3
        · simp only [List.mem_singleton] at h3
          right; rw [h3]
      · right; omega

/-- Member `rebuild` on any table: the state it leaves. -/
theorem rebuild_with_spec (depth : Nat) (m : HashMap K V) :
    ∃ m2, HashMap.rebuild_with (HashMap.insert_fuel (depth + 1)) m = some m2 ∧ Inv0 m2 ∧
      m2.sequence = m.sequence ∧ m2.capacity_ = m.list_element_.length * 3 + 1 ∧
      m2.hasher_ = m.hasher_ ∧ m2.list_element_.length = m.list_element_.length ∧
      m.next_id_ ≤ m2.next_id_ ∧ (∀ n, n ∈ m2.list_element_ → m.next_id_ ≤ n.id) := by
  unfold HashMap.rebuild_with
  simp only
  have hblank : Inv0 ({ ({ m with capacity_ := m.list_element_.length * 3 + 1 } :
      HashMap K V).update_size with
      link_element_ := fill ({ m with capacity_ := m.list_element_.length * 3 + 1 } :
        HashMap K V).update_size.link_element_ Iter.singular
      used_element_ := fill ({ m with capacity_ := m.list_element_.length * 3 + 1 } :
        HashMap K V).update_size.used_element_ false
      dist_element_ := fill ({ m with capacity_ := m.list_element_.length * 3 + 1 } :
        HashMap K V).update_size.dist_element_ 0 } : HashMap K V) := by
    apply Inv0_blank
    · exact Nat.succ_pos _
    · exact fill_resize _ _ _
    · exact fill_resize _ _ _
    · exact fill_resize _ _ _
    · rfl
  obtain ⟨m2, hm2, hinv, s2, c2, h2, l2, n2, f2⟩ :=
    reinsert_spec depth m.list_element_.length (m.list_element_.map Node.pair) _ hblank rfl
      (by simp [HashMap.update_size])
  refine ⟨m2, hm2, hinv, ?_, c2, h2, ?_, n2, ?_⟩
  · rw [s2]; simp [HashMap.sequence, HashMap.update_size]
  · rw [l2]; simp [HashMap.update_size]
  · intro n hn
    rcases f2 n hn with h1 | h1
    · simp [HashMap.update_size] at h1
    · exact h1

/-- On any table, an `insert` that does not reach the load factor appends one node and
does not call `rebuild`. -/
theorem insert_fuel_appended (m : HashMap K V) (val : K × V) (depth : Nat)
    (hl : load_reached (m.list_element_.length + 1) m.capacity_ = false) (m1 : HashMap K V)
    (h : HashMap.insert_fuel (depth + 1) m val = some m1) :
    Appended m val m1 ∧ ∀ d, HashMap.insert_fuel (d + 1) m val = some m1 := by
  rw [insert_fuel_succ] at h
  by_cases hc : m.capacity_ = 0
  · rw [if_pos hc] at h; cases h
  · rw [if_neg hc] at h
    cases hloop : HashMap.insert_loop m.capacity_
        ({ m with
          list_element_ := m.list_element_ ++ [⟨m.next_id_, val.1, val.2⟩]
          next_id_ := m.next_id_ + 1 } : HashMap K V)
        (m.hasher_ val.1 % m.capacity_) 1 (Iter.node m.next_id_) with
    | none => rw [hloop] at h; cases h
    | some m2 =>
      rw [hloop] at h
      obtain ⟨f1, f2, f3, f4⟩ := insert_loop_frame _ _ _ _ _ _ hloop
      have hl2 : load_reached m2.list_element_.length m2.capacity_ = false := by
        rw [f1, f2, List.length_append, List.length_singleton]; exact hl
      simp only [hl2, Bool.false_eq_true, if_false, Option.some.injEq] at h
      subst h
      refine ⟨⟨f1, f2, f3, f4⟩, ?_⟩
      intro d
      rw [insert_fuel_succ, if_neg hc, hloop]
      simp only [hl2, Bool.false_eq_true, if_false]

theorem insert_fuel_depth (m : HashMap K V) (val : K × V) (d1 d2 : Nat)
    (hl : load_reached (m.list_element_.length + 1) m.capacity_ = false) :
    HashMap.insert_fuel (d1 + 1) m val = HashMap.insert_fuel (d2 + 1) m val := by
  cases h : HashMap.insert_fuel (d1 + 1) m val with
  | some m1 => exact ((insert_fuel_appended m val d1 hl m1 h).2 d2).symm
  | none =>
    cases h2 : HashMap.insert_fuel (d2 + 1) m val with
    | none => rfl
    | some m1 =>
      have := (insert_fuel_appended m val d2 hl m1 h2).2 d1
      rw [h] at this; cases this

theorem insert_all_depth (N d1 d2 : Nat) : ∀ (L : List (K × V)) (m : HashMap K V),
    m.capacity_ = N * 3 + 1 → m.list_element_.length + L.length ≤ N →
    insert_all (HashMap.insert_fuel (d1 + 1)) L m
      = insert_all (HashMap.insert_fuel (d2 + 1)) L m := by
  intro L
  induction L with
  | nil => intro m _ _; rfl
  | cons x xs ih =>
    intro m hc hlen
    simp only [List.length_cons] at hlen
    have hl : load_reached (m.list_element_.length + 1) m.capacity_ = false := by
      rw [hc]; exact load_reached_triple (by omega)
    unfold insert_all
    rw [insert_fuel_depth m x d1 d2 hl]
    cases h : HashMap.insert_fuel (d2 + 1) m x with
    | none => rfl
    | some m1 =>
      obtain ⟨⟨a1, a2, -, -⟩, -⟩ := insert_fuel_appended m x d2 hl m1 h
      exact ih m1 (by rw [a2, hc])
        (by rw [a1, List.length_append, List.length_singleton]; omega)

/-- The bound 2 on the nesting of `insert` in `HashMap.insert` loses nothing: with any
larger bound the result is the same, on every table. -/
theorem insert_fuel_stable (depth : Nat) (m : HashMap K V) (val : K × V) :
    HashMap.insert_fuel (depth + 2) m val = HashMap.insert_fuel 2 m val := by
  rw [insert_fuel_succ, insert_fuel_succ]
  by_cases hc : m.capacity_ = 0
  · rw [if_pos hc, if_pos hc]
  · rw [if_neg hc, if_neg hc]
    cases hloop : HashMap.insert_loop m.capacity_
        ({ m with
          list_element_ := m.list_element_ ++ [⟨m.next_id_, val.1, val.2⟩]
          next_id_ := m.next_id_ + 1 } : HashMap K V)
        (m.hasher_ val.1 % m.capacity_) 1 (Iter.node m.next_id_) with
    | none => rfl
    | some m2 =>
      simp only
      by_cases hl : load_reached m2.list_element_.length m2.capacity_ = true
      · rw [if_pos hl, if_pos hl]
        unfold HashMap.rebuild_with
        exact insert_all_depth m2.list_element_.length depth 0 _ _ rfl
          (by simp [HashMap.update_size])
      · rw [if_neg hl, if_neg hl]

theorem insert_spec {m : HashMap K V} (h : Inv m) (val : K × V) :
    ∃ m1, m.insert val = some m1 ∧ InsertPost m val m1 := by
  obtain ⟨m2, hm2, hinv, happ⟩ := place_spec h.1 h.2 val
  have hseq := sequence_of_appended happ
  obtain ⟨a1, a2, a3, a4⟩ := happ
  have hlen : m2.list_element_.length = m.list_element_.length + 1 := by
    rw [a1, List.length_append, List.length_singleton]
  have hc := h.1.base.cap_pos
  unfold HashMap.insert
  rw [insert_fuel_succ, if_neg (by omega), hm2]
  simp only
  by_cases hl : load_reached (m.list_element_.length + 1) m.capacity_ = true
  · rw [hlen, a2, if_pos hl]
    obtain ⟨m3, hm3, hinv3, s3, c3, h3, l3, n3, f3⟩ := rebuild_with_spec 0 m2
    refine ⟨m3, hm3, ⟨hinv3, by rw [c3, l3]; omega⟩, by rw [s3, hseq], by rw [h3, a3],
      by rw [l3, hlen], by omega, ?_, ?_⟩
    · intro hf; rw [hf] at hl; cases hl
    · intro _
      refine ⟨by rw [c3, hlen], ?_⟩
      intro n hn
      have := f3 n hn
      omega
  · rw [hlen, a2, if_neg hl]
    have hl2 : load_reached (m.list_element_.length + 1) m.capacity_ = false := by
      simpa using hl
    refine ⟨m2, rfl, ⟨hinv, ?_⟩, hseq, a3, hlen, by omega, fun _ => ⟨a1, a2, a3, a4⟩, ?_⟩
    · rw [hlen, a2]; exact load_reached_false_lt hl2
    · intro ht; rw [ht] at hl2; cases hl2

/-- The loop `for (auto i : lst) insert(i);` in a state satisfying the invariant. -/
theorem insert_all_spec : ∀ (L : List (K × V)) (m : HashMap K V), Inv m →
    ∃ m1, insert_all HashMap.insert L m = some m1 ∧ Inv m1 ∧
      m1.sequence = m.sequence ++ L ∧ m1.hasher_ = m.hasher_ := by
  intro L
  induction L with
  | nil => intro m h; exact ⟨m, rfl, h, by simp, rfl⟩
  | cons x xs ih =>
    intro m h
    obtain ⟨m1, hm1, hp⟩ := insert_spec h x
    obtain ⟨m2, hm2, hinv2, s2, h2⟩ := ih m1 hp.inv
    refine ⟨m2, ?_, hinv2, ?_, by rw [h2, hp.hasher_eq]⟩
    · simp only [insert_all, hm1, hm2]
    · rw [s2, hp.sequence_eq, List.append_assoc]; rfl

/-! ## `erase` -/

/-- The backward-shift loop stops on every table: each round lowers the sum of the
distances. -/
theorem erase_loop_returns : ∀ (fuel : Nat) (m : HashMap K V) (pos : Nat),
    m.dist_element_.sum < fuel → ∃ m1, HashMap.erase_loop fuel m pos = some m1 := by
  intro fuel
  induction fuel with
  | zero => intro m pos h; omega
  | succ fuel ih =>
    intro m pos h
    unfold HashMap.erase_loop
    by_cases hd : 1 < m.dist_element_.getD pos 0
    · rw [if_pos hd]
      simp only
      apply ih
      show ((m.dist_element_.set (if pos ≠ 0 then pos - 1 else m.capacity_ - 1)
        (m.dist_element_.getD pos 0 - 1)).set pos 0).sum < fuel
      generalize (if pos ≠ 0 then pos - 1 else m.capacity_ - 1) = last
      have hpos : pos < m.dist_element_.length := by
        by_contra hh
        rw [List.getD_eq_default _ _ (by omega)] at hd
        omega
      by_cases hlast : last < m.dist_element_.length
      · have h1 := sum_set (m.dist_element_.set last (m.dist_element_.getD pos 0 - 1)) pos 0
          (by rw [List.length_set]; exact hpos)
        have h2 := sum_set m.dist_element_ last (m.dist_element_.getD pos 0 - 1) hlast
        rw [getD_set _ _ _ _ _ hlast] at h1
        by_cases e : pos = last
        · subst e; rw [if_pos rfl] at h1; omega
        · rw [if_neg e] at h1; omega
      · have hs : m.dist_element_.set last (m.dist_element_.getD pos 0 - 1) = m.dist_element_ :=
          List.set_eq_of_length_le (by omega)
        rw [hs]
        have h1 := sum_set m.dist_element_ pos 0 hpos
        omega
    · rw [if_neg hd]
      exact ⟨m, rfl⟩

theorem erase_loop_post : ∀ (fuel : Nat) (m : HashMap K V) (hole pos : Nat) (m1 : HashMap K V),
    Shifting m hole pos → HashMap.erase_loop fuel m pos = some m1 →
    Inv0 m1 ∧ m1.list_element_ = m.list_element_ ∧ m1.capacity_ = m.capacity_ ∧
      m1.hasher_ = m.hasher_ ∧ m1.next_id_ = m.next_id_ := by
  intro fuel
  induction fuel with
  | zero => intro m hole pos m1 _ h; simp [HashMap.erase_loop] at h
  | succ fuel ih =>
    intro m hole pos m1 hs h
    have hb := hs.base
    have hc := hb.cap_pos
    have hh := hs.hole_lt
    have hpc : pos < m.capacity_ := by rw [← hs.next_hole]; exact next_index_lt hc hh
    unfold HashMap.erase_loop at h
    by_cases hd : 1 < m.dist pos
    · have hd2 : 1 < m.dist_element_.getD pos 0 := hd
      rw [if_pos hd2, last_pos_eq hs.next_hole] at h
      simp only at h
      have hne : pos ≠ hole := by
        intro e; rw [e, hs.hole_zero] at hd; omega
      have hne2 : hole ≠ pos := fun e => hne e.symm
      have hdist : ∀ i, HashMap.dist ({ m with
          used_element_ := (m.used_element_.set pos false).set hole true
          link_element_ := m.link_element_.set hole (m.link_element_.getD pos Iter.singular)
          dist_element_ :=
            (m.dist_element_.set hole (m.dist_element_.getD pos 0 - 1)).set pos 0 } :
            HashMap K V) i
          = if i = pos then 0 else if i = hole then m.dist pos - 1 else m.dist i := by
        intro i
        show ((m.dist_element_.set hole (m.dist_element_.getD pos 0 - 1)).set pos 0).getD i 0 = _
        rw [getD_set _ _ _ _ _ (by rw [List.length_set, hb.len_dist]; exact hpc),
          getD_set _ _ _ _ _ (by rw [hb.len_dist]; exact hh)]
        rfl
      have hused : ∀ i, HashMap.used ({ m with
          used_element_ := (m.used_element_.set pos false).set hole true
          link_element_ := m.link_element_.set hole (m.link_element_.getD pos Iter.singular)
          dist_element_ :=
            (m.dist_element_.set hole (m.dist_element_.getD pos 0 - 1)).set pos 0 } :
            HashMap K V) i
          = if i = hole then true else if i = pos then false else m.used i := by
        intro i
        show ((m.used_element_.set pos false).set hole true).getD i false = _
        rw [getD_set _ _ _ _ _ (by rw [List.length_set, hb.len_used]; exact hh),
          getD_set _ _ _ _ _ (by rw [hb.len_used]; exact hpc)]
        rfl
      have hlink : ∀ i, HashMap.link ({ m with
          used_element_ := (m.used_element_.set pos false).set hole true
          link_element_ := m.link_element_.set hole (m.link_element_.getD pos Iter.singular)
          dist_element_ :=
            (m.dist_element_.set hole (m.dist_element_.getD pos 0 - 1)).set pos 0 } :
            HashMap K V) i
          = if i = hole then m.link pos else m.link i := by
        intro i
        show (m.link_element_.set hole (m.link_element_.getD pos Iter.singular)).getD i
          Iter.singular = _
        rw [getD_set _ _ _ _ _ (by rw [hb.len_link]; exact hh)]
        rfl
      refine ih ({ m with
          used_element_ := (m.used_element_.set pos false).set hole true
          link_element_ := m.link_element_.set hole (m.link_element_.getD pos Iter.singular)
          dist_element_ :=
            (m.dist_element_.set hole (m.dist_element_.getD pos 0 - 1)).set pos 0 } :
            HashMap K V) pos (next_index m.capacity_ pos) m1 ?_ h
      refine ⟨⟨hc, ?_, ?_, ?_, ?_, ?_, ?_, hb.ids_nodup, hb.ids_fresh⟩, ?_, hpc, rfl, ?_, ?_, ?_⟩
      · simpa using hb.len_link
      · simpa using hb.len_dist
      · simpa using hb.len_used
      · intro i hi
        rw [hused, hdist]
        by_cases e1 : i = hole
        · simp only [e1, if_true, if_neg hne2]
          constructor
          · intro _; omega
          · intro _; trivial
        · by_cases e2 : i = pos
          · simp [e1, e2, hne]
          · simp only [e1, e2, if_false]; exact hb.used_iff i hi
      · intro i hi
        rw [hdist, hlink]
        by_cases e2 : i = pos
        · simp only [e2, if_true]; intro hf; omega
        · by_cases e1 : i = hole
          · simp only [e1, if_true, if_neg hne2]
            intro _
            obtain ⟨n, hn, hl, hhash⟩ := hb.link_valid pos hpc (by omega)
            refine ⟨n, hn, hl, ?_⟩
            apply mod_pred_of_next hh
            rw [hs.next_hole]
            refine Eq.trans ?_ hhash
            congr 1
            omega
          · simp only [e1, e2, if_false]; exact hb.link_valid i hi
      · intro i j hi hj
        rw [hdist, hdist, hlink, hlink]
        by_cases e2 : i = pos
        · simp only [e2, if_true]; intro hf; omega
        · by_cases f2 : j = pos
          · simp only [f2, if_true]; intro _ hf; omega
          · by_cases e1 : i = hole <;> by_cases f1 : j = hole
            · intro _ _ _; rw [e1, f1]
            · simp only [e1, f1, e2, f2, if_true, if_false, if_neg hne2]
              intro _ hdj hl
              exact absurd (hb.link_inj pos j hpc hj (by omega) hdj hl).symm f2
            · simp only [e1, f1, e2, f2, if_true, if_false, if_neg hne2]
              intro hdi _ hl
              exact absurd (hb.link_inj i pos hi hpc hdi (by omega) hl) e2
            · simp only [e1, f1, e2, f2, if_false]; exact hb.link_inj i j hi hj
      · intro n hn
        obtain ⟨i, hi, hdi, hli⟩ := hs.link_surj n hn
        by_cases e2 : i = pos
        · refine ⟨hole, hh, ?_, ?_⟩
          · rw [hdist, if_neg hne2, if_pos rfl]; omega
          · rw [hlink, if_pos rfl, ← e2]; exact hli
        · have e1 : i ≠ hole := by
            intro e; rw [e, hs.hole_zero] at hdi; omega
          exact ⟨i, hi, by rw [hdist, if_neg e2, if_neg e1]; exact hdi,
            by rw [hlink, if_neg e1]; exact hli⟩
      · rw [hdist, if_pos rfl]
      · intro j hj hjp
        show HashMap.dist _ (next_index m.capacity_ j) ≤ HashMap.dist _ j + 1
        rw [hdist, hdist]
        by_cases e1 : next_index m.capacity_ j = pos
        · rw [if_pos e1]; omega
        · have jh : j ≠ hole := by
            intro e; rw [e] at e1; exact e1 hs.next_hole
          rw [if_neg e1, if_neg hjp, if_neg jh]
          by_cases e3 : next_index m.capacity_ j = hole
          · rw [if_pos e3]
            have := hs.before j hj e3
            omega
          · rw [if_neg e3]
            exact hs.robin j hj jh
      · intro j hj hjn
        show HashMap.dist _ (next_index m.capacity_ pos) ≤ HashMap.dist _ j + 2
        have jh : j = hole := next_index_inj (hjn.trans hs.next_hole.symm)
        rw [hdist, hdist, jh, if_neg hne2, if_pos rfl]
        have := hs.robin pos hpc hne
        split_ifs <;> omega
    · have hd2 : ¬ 1 < m.dist_element_.getD pos 0 := hd
      rw [if_neg hd2] at h
      simp only [Option.some.injEq] at h
      subst h
      refine ⟨⟨hb, hs.link_surj, ?_⟩, rfl, rfl, rfl, rfl⟩
      intro i hi
      by_cases e : i = hole
      · rw [e, hs.next_hole, hs.hole_zero]; omega
      · exact hs.robin i hi e

theorem not_mem_eraseP_id {l : List (Node K V)} (hn : (l.map Node.id).Nodup)
    {n : Node K V} (hm : n ∈ l) :
    ∀ x, x ∈ l.eraseP (fun y => y.id == n.id) → x.id ≠ n.id := by
  intro x hx hid
  obtain ⟨a, l1, l2, -, pa, hl, he⟩ := List.exists_of_eraseP hm (p := fun y => y.id == n.id)
    (by simp)
  have hxl : x ∈ l := List.mem_of_mem_eraseP hx
  have hxn : x = n := node_eq_of_id_eq hn hxl hm hid
  have hal : a ∈ l := by rw [hl]; simp
  have han : a = n := node_eq_of_id_eq hn hal hm (by simpa using pa)
  have hnd : l.Nodup := List.Nodup.of_map _ hn
  rw [hl, han] at hnd
  have h2 := (List.nodup_middle.1 hnd)
  rw [List.nodup_cons] at h2
  apply h2.1
  rw [← hxn, ← he]
  exact hx

/-- The state in which `erase` starts its backward-shift loop. -/
theorem shifting_start {m : HashMap K V} (h : Inv0 m) {i : Nat} (hi : i < m.capacity_)
    {n : Node K V} (hn : n ∈ m.list_element_) (hl : m.link i = Iter.node n.id)
    (hd : 0 < m.dist i) :
    Shifting ({ m with
      list_element_ := m.list_element_.eraseP (fun x => x.id == n.id)
      dist_element_ := m.dist_element_.set i 0
      used_element_ := m.used_element_.set i false } : HashMap K V)
      i (next_index m.capacity_ i) := by
  have hb := h.base
  have hc := hb.cap_pos
  have hdist : ∀ j, HashMap.dist ({ m with
      list_element_ := m.list_element_.eraseP (fun x => x.id == n.id)
      dist_element_ := m.dist_element_.set i 0
      used_element_ := m.used_element_.set i false } : HashMap K V) j
      = if j = i then 0 else m.dist j :=
    fun j => getD_set _ _ _ _ _ (by rw [hb.len_dist]; exact hi)
  have hused : ∀ j, HashMap.used ({ m with
      list_element_ := m.list_element_.eraseP (fun x => x.id == n.id)
      dist_element_ := m.dist_element_.set i 0
      used_element_ := m.used_element_.set i false } : HashMap K V) j
      = if j = i then false else m.used j :=
    fun j => getD_set _ _ _ _ _ (by rw [hb.len_used]; exact hi)
  have hkeep : ∀ j, j < m.capacity_ → j ≠ i → 0 < m.dist j → ∀ x, x ∈ m.list_element_ →
      m.link j = Iter.node x.id → x ∈ m.list_element_.eraseP (fun y => y.id == n.id) := by
    intro j hj hji hdj x hx hlx
    rw [List.mem_eraseP_of_neg]
    · exact hx
    · intro hp
      have e : x.id = n.id := by simpa using hp
      exact hji (hb.link_inj j i hj hi hdj hd (by rw [hlx, hl, e]))
  refine ⟨⟨hc, hb.len_link, ?_, ?_, ?_, ?_, ?_, ?_, ?_⟩, ?_, hi, rfl, ?_, ?_, ?_⟩
  · simpa using hb.len_dist
  · simpa using hb.len_used
  · intro j hj
    rw [hused, hdist]
    by_cases e : j = i
    · simp [e]
    · simp only [e, if_false]; exact hb.used_iff j hj
  · intro j hj
    rw [hdist]
    by_cases e : j = i
    · simp only [e, if_true]; intro hf; omega
    · simp only [e, if_false]
      intro hdj
      obtain ⟨x, hx, hlx, hh⟩ := hb.link_valid j hj hdj
      exact ⟨x, hkeep j hj e hdj x hx hlx, hlx, hh⟩
  · intro j k hj hk
    rw [hdist, hdist]
    by_cases e : j = i
    · simp only [e, if_true]; intro hf; omega
    · by_cases f : k = i
      · simp only [f, if_true]; intro _ hf; omega
      · simp only [e, f, if_false]; exact hb.link_inj j k hj hk
  · exact List.Nodup.sublist ((List.eraseP_sublist _).map _) hb.ids_nodup
  · intro x hx
    exact hb.ids_fresh x (List.mem_of_mem_eraseP hx)
  · intro x hx
    have hxl : x ∈ m.list_element_ := List.mem_of_mem_eraseP hx
    obtain ⟨j, hj, hdj, hlj⟩ := h.link_surj x hxl
    have hji : j ≠ i := by
      intro e
      rw [e, hl] at hlj
      injection hlj with hlj
      exact not_mem_eraseP_id hb.ids_nodup hn x hx hlj.symm
    exact ⟨j, hj, by rw [hdist, if_neg hji]; exact hdj, hlj⟩
  · rw [hdist, if_pos rfl]
  · intro j hj hji
    show HashMap.dist _ (next_index m.capacity_ j) ≤ HashMap.dist _ j + 1
    rw [hdist, hdist, if_neg hji]
    have := h.robin j hj
    split_ifs <;> omega
  · intro j hj hjn
    show HashMap.dist _ (next_index m.capacity_ i) ≤ HashMap.dist _ j + 2
    rw [hdist, hdist]
    have r1 := h.robin i hi
    have r2 := h.robin j hj
    rw [hjn] at r2
    by_cases e : j = i
    · rw [e] at hjn
      rw [hjn, if_pos rfl]
      omega
    · rw [if_neg e]
      split_ifs <;> omega

/-- What `erase` does in a state satisfying the invariant. -/
theorem erase_spec [DecidableEq K] {m : HashMap K V} (h : Inv m) (ind : K) :
    ∃ i, m.get_need_index ind = some i ∧ Located m ind i ∧
      ((m.used i = false ∧ m.erase ind = some m) ∨
       (m.used i = true ∧ ∃ n m1, n ∈ m.list_element_ ∧ m.link i = Iter.node n.id ∧
          n.first = ind ∧ m.erase ind = some m1 ∧ Inv m1 ∧
          m1.list_element_ = m.list_element_.eraseP (fun x => x.id == n.id) ∧
          m1.capacity_ = m.capacity_ ∧ m1.hasher_ = m.hasher_ ∧ m1.next_id_ = m.next_id_)) := by
  obtain ⟨i, hgi, hloc⟩ := get_need_index_spec h ind
  refine ⟨i, hgi, hloc, ?_⟩
  obtain ⟨hi, hcase⟩ := hloc
  rcases hcase with ⟨hu, -⟩ | ⟨hu, n, hn, hl, -, hk⟩
  · left
    refine ⟨hu, ?_⟩
    unfold HashMap.erase
    rw [hgi]
    have hu2 : m.used_element_.getD i false = false := hu
    simp only [hu2, Bool.false_eq_true, if_false]
  · right
    refine ⟨hu, ?_⟩
    have hd := (h.1.base.used_iff i hi).1 hu
    have hs := shifting_start h.1 hi hn hl hd
    obtain ⟨m1, hm1⟩ := erase_loop_returns
      (({ m with
        list_element_ := m.list_element_.eraseP (fun x => x.id == n.id)
        dist_element_ := m.dist_element_.set i 0
        used_element_ := m.used_element_.set i false } : HashMap K V).dist_element_.sum + 1)
      ({ m with
        list_element_ := m.list_element_.eraseP (fun x => x.id == n.id)
        dist_element_ := m.dist_element_.set i 0
        used_element_ := m.used_element_.set i false } : HashMap K V)
      (next_index m.capacity_ i) (Nat.lt_succ_self _)
    obtain ⟨hinv, f1, f2, f3, f4⟩ := erase_loop_post _ _ _ _ _ hs hm1
    refine ⟨n, m1, hn, hl, hk, ?_, ⟨hinv, ?_⟩, f1, f2, f3, f4⟩
    · unfold HashMap.erase
      rw [hgi]
      have hu2 : m.used_element_.getD i false = true := hu
      have hl2 : m.link_element_.getD i Iter.singular = Iter.node n.id := hl
      have hany : m.list_element_.any (fun x => x.id == n.id) = true := by
        rw [List.any_eq_true]
        exact ⟨n, hn, by simp⟩
      simp only [hu2, if_true, hl2, hany]
      exact hm1
    · rw [f1, f2]
      show (m.list_element_.eraseP (fun x => x.id == n.id)).length < m.capacity_
      rw [List.length_eraseP_of_mem hn (by simp)]
      have := h.2
      omega

/-! ## Constructors, `clear`, `operator=`, `operator[]` -/

/-- The function `update_size` applied to a table whose slots are all unused leaves a table
whose slots are all unused. -/
theorem Inv_update_size {m : HashMap K V} (hc : 0 < m.capacity_)
    (hl : ∃ k, m.link_element_ = List.replicate k Iter.singular)
    (hd : ∃ k, m.dist_element_ = List.replicate k 0)
    (hu : ∃ k, m.used_element_ = List.replicate k false) : Inv m.update_size := by
  obtain ⟨k1, hl⟩ := hl
  obtain ⟨k2, hd⟩ := hd
  obtain ⟨k3, hu⟩ := hu
  refine ⟨Inv0_blank hc ?_ ?_ ?_ rfl, hc⟩
  · show resize m.link_element_ m.capacity_ Iter.singular = _
    rw [hl]; exact resize_replicate _ _ _
  · show resize m.dist_element_ m.capacity_ 0 = _
    rw [hd]; exact resize_replicate _ _ _
  · show resize m.used_element_ m.capacity_ false = _
    rw [hu]; exact resize_replicate _ _ _

theorem Inv_new (hasher : K → Nat) (capacity : Nat) (h : capacity + 1 < 2 ^ 64) :
    Inv (HashMap.new hasher capacity : HashMap K V) := by
  unfold HashMap.new
  apply Inv_update_size
  · show 0 < (capacity + 1) % 2 ^ 64
    rw [Nat.mod_eq_of_lt h]; omega
  · exact ⟨0, rfl⟩
  · exact ⟨0, rfl⟩
  · exact ⟨0, rfl⟩

theorem Inv_clear {m : HashMap K V} (h : Inv m) : Inv m.clear := by
  have hb := h.1.base
  refine ⟨Inv0_blank hb.cap_pos ?_ ?_ ?_ rfl, hb.cap_pos⟩
  · show fill m.link_element_ Iter.singular = _
    rw [fill, hb.len_link]; rfl
  · show fill m.dist_element_ 0 = _
    rw [fill, hb.len_dist]; rfl
  · show fill m.used_element_ false = _
    rw [fill, hb.len_used]; rfl

/-- What `operator=` does when the assigned map satisfies the invariant. -/
theorem assign_spec (self : HashMap K V) {other : HashMap K V} (ho : Inv other) :
    ∃ m1, self.assign other = some m1 ∧ Inv m1 ∧ m1.sequence = other.sequence ∧
      m1.hasher_ = other.hasher_ := by
  have hstart : Inv ({ self.clear with
      hasher_ := other.hasher_, capacity_ := other.capacity_ } : HashMap K V).update_size := by
    apply Inv_update_size
    · exact ho.1.base.cap_pos
    · exact ⟨_, rfl⟩
    · exact ⟨_, rfl⟩
    · exact ⟨_, rfl⟩
  obtain ⟨m1, hm1, hinv, hs, hh⟩ := insert_all_spec (other.list_element_.map Node.pair) _ hstart
  refine ⟨m1, hm1, hinv, ?_, ?_⟩
  · rw [hs]; simp [HashMap.sequence, HashMap.update_size]
  · rw [hh]; rfl

theorem from_list_spec (lst : List (K × V)) (hasher : K → Nat) :
    ∃ m1, HashMap.from_list lst hasher = some m1 ∧ Inv m1 ∧ m1.sequence = lst ∧
      m1.hasher_ = hasher := by
  have hstart : Inv ({ (HashMap.members hasher : HashMap K V) with
      capacity_ := lst.length * 2 + 1 } : HashMap K V).update_size := by
    apply Inv_update_size
    · exact Nat.succ_pos _
    · exact ⟨0, rfl⟩
    · exact ⟨0, rfl⟩
    · exact ⟨0, rfl⟩
  obtain ⟨m1, hm1, hinv, hs, hh⟩ := insert_all_spec lst _ hstart
  refine ⟨m1, hm1, hinv, ?_, ?_⟩
  · rw [hs]; simp [HashMap.sequence, HashMap.update_size]
  · rw [hh]; rfl

theorem from_range_spec (range : List (K × V)) (hasher : K → Nat) :
    ∃ m1, HashMap.from_range range hasher = some m1 ∧ Inv m1 ∧ m1.sequence = range ∧
      m1.hasher_ = hasher := by
  have hstart : Inv ({ (HashMap.members hasher : HashMap K V) with
      capacity_ := 1 } : HashMap K V).update_size := by
    apply Inv_update_size
    · exact Nat.one_pos
    · exact ⟨0, rfl⟩
    · exact ⟨0, rfl⟩
    · exact ⟨0, rfl⟩
  obtain ⟨m1, hm1, hinv, hs, hh⟩ := insert_all_spec range _ hstart
  refine ⟨m1, hm1, hinv, ?_, ?_⟩
  · rw [hs]; simp [HashMap.sequence, HashMap.update_size]
  · rw [hh]; rfl

/-- A store through a reference changes no key and no node identity. -/
theorem Inv_write_ref {m : HashMap K V} (h : Inv m) (id : Nat) (v : V) :
    Inv (m.write_ref id v) := by
  have hb := h.1.base
  have hmem : ∀ n, n ∈ m.list_element_ →
      ∃ n2, n2 ∈ (m.write_ref id v).list_element_ ∧ n2.id = n.id ∧ n2.first = n.first := by
    intro n hn
    refine ⟨if n.id = id then { n with second := v } else n, ?_, ?_, ?_⟩
    · exact List.mem_map_of_mem (fun n => if n.id = id then { n with second := v } else n) hn
    · split_ifs <;> rfl
    · split_ifs <;> rfl
  have hmem2 : ∀ n2, n2 ∈ (m.write_ref id v).list_element_ →
      ∃ n, n ∈ m.list_element_ ∧ n2.id = n.id ∧ n2.first = n.first := by
    intro n2 hn2
    obtain ⟨n, hn, he⟩ := List.mem_map.1 hn2
    refine ⟨n, hn, ?_, ?_⟩
    · rw [← he]; split_ifs <;> rfl
    · rw [← he]; split_ifs <;> rfl
  have hids : (m.write_ref id v).list_element_.map Node.id = m.list_element_.map Node.id := by
    show (m.list_element_.map _).map Node.id = _
    rw [List.map_map]
    apply List.map_congr_left
    intro n _
    simp only [Function.comp]
    split_ifs <;> rfl
  refine ⟨⟨⟨hb.cap_pos, hb.len_link, hb.len_dist, hb.len_used, hb.used_iff, ?_, hb.link_inj,
    ?_, ?_⟩, ?_, h.1.robin⟩, ?_⟩
  · intro i hi hd
    obtain ⟨n, hn, hl, hh⟩ := hb.link_valid i hi hd
    obtain ⟨n2, hn2, e1, e2⟩ := hmem n hn
    exact ⟨n2, hn2, by rw [e1]; exact hl, by rw [e2]; exact hh⟩
  · rw [hids]; exact hb.ids_nodup
  · intro n2 hn2
    obtain ⟨n, hn, e1, -⟩ := hmem2 n2 hn2
    rw [e1]; exact hb.ids_fresh n hn
  · intro n2 hn2
    obtain ⟨n, hn, e1, -⟩ := hmem2 n2 hn2
    rw [e1]; exact h.1.link_surj n hn
  · show (m.list_element_.map _).length < m.capacity_
    rw [List.length_map]; exact h.2

/-- A key held by some node is found by `get_need_index`. -/
theorem get_need_index_present [DecidableEq K] {m : HashMap K V} (h : Inv m) (ind : K)
    (hex : ∃ x, x ∈ m.list_element_ ∧ x.first = ind) :
    ∃ n j, m.get_need_index ind = some j ∧ j < m.capacity_ ∧ m.used j = true ∧
      m.link j = Iter.node n.id ∧ m.deref (m.link j) = some n ∧ n ∈ m.list_element_ ∧
      n.first = ind := by
  obtain ⟨x, hx, hxk⟩ := hex
  obtain ⟨j, hgj, hj, hcj⟩ := get_need_index_spec h ind
  rcases hcj with ⟨-, hno⟩ | ⟨hu, n, hn, hl, hdr, hk⟩
  · exact absurd hxk (hno x hx)
  · exact ⟨n, j, hgj, hj, hu, hl, hdr, hn, hk⟩

/-- What `operator[]` does in a state satisfying the invariant. -/
theorem subscript_spec [DecidableEq K] [Inhabited V] {m : HashMap K V} (h : Inv m) (ind : K) :
    ∃ m1 n i, m.subscript ind = some (m1, n.id) ∧ Inv m1 ∧ n ∈ m1.list_element_ ∧
      n.first = ind ∧ m1.get_need_index ind = some i ∧ m1.used i = true ∧
      m1.link i = Iter.node n.id ∧
      ((∀ x, x ∈ m.list_element_ → x.first ≠ ind) → m.insert (ind, default) = some m1) ∧
      ((∃ x, x ∈ m.list_element_ ∧ x.first = ind) → m1 = m) := by
  obtain ⟨i, hgi, hi, hcase⟩ := get_need_index_spec h ind
  rcases hcase with ⟨hu, hno⟩ | ⟨hu, n0, hn0, hl0, hdr0, hk0⟩
  · obtain ⟨m1, hm1, hp⟩ := insert_spec h (ind, default)
    have hex : ∃ x, x ∈ m1.list_element_ ∧ x.first = ind := by
      have hs := hp.sequence_eq
      have hmem : (ind, (default : V)) ∈ m1.sequence := by rw [hs]; simp
      obtain ⟨x, hx, hxe⟩ := List.mem_map.1 hmem
      exact ⟨x, hx, congrArg Prod.fst hxe⟩
    obtain ⟨n, j, hgj, -, huj, hlj, hdr, hn, hk⟩ := get_need_index_present hp.inv ind hex
    refine ⟨m1, n, j, ?_, hp.inv, hn, hk, hgj, huj, hlj, fun _ => hm1, ?_⟩
    · unfold HashMap.subscript
      rw [hgi]
      have hu2 : m.used_element_.getD i false = false := hu
      have hdr2 : m1.deref (m1.link_element_.getD j Iter.singular) = some n := hdr
      simp only
      rw [hu2, if_pos (show (false != true) = true from rfl), hm1]
      simp only [hgj, hdr2]
    · intro ⟨x, hx, hxk⟩
      exact absurd hxk (hno x hx)
  · refine ⟨m, n0, i, ?_, h, hn0, hk0, hgi, hu, hl0, ?_, fun _ => rfl⟩
    · unfold HashMap.subscript
      rw [hgi]
      have hu2 : m.used_element_.getD i false = true := hu
      have hdr2 : m.deref (m.link_element_.getD i Iter.singular) = some n0 := hdr0
      simp only
      rw [hu2, if_neg (show ¬ (true != true) = true by decide)]
      simp only [hgi, hdr2]
    · intro hno
      exact absurd hk0 (hno n0 hn0)

/-- Every state of a `HashMap` object satisfies the invariant. -/
theorem Reachable.inv [DecidableEq K] [Inhabited V] {m : HashMap K V} (h : Reachable m) :
    Inv m := by
  induction h with
  | new hasher capacity h => exact Inv_new hasher capacity h
  | from_list lst hasher m h =>
    obtain ⟨m1, hm1, hinv, -, -⟩ := from_list_spec lst hasher
    rw [h] at hm1; injection hm1 with e; rw [e]; exact hinv
  | from_range range hasher m h =>
    obtain ⟨m1, hm1, hinv, -, -⟩ := from_range_spec range hasher
    rw [h] at hm1; injection hm1 with e; rw [e]; exact hinv
  | insert m val m1 _ h ih =>
    obtain ⟨m2, hm2, hp⟩ := insert_spec ih val
    rw [h] at hm2; injection hm2 with e; rw [e]; exact hp.inv
  | erase m ind m1 _ h ih =>
    obtain ⟨i, -, -, hc⟩ := erase_spec ih ind
    rcases hc with ⟨-, he⟩ | ⟨-, n, m2, -, -, -, he, hinv, -⟩
    · rw [h] at he; injection he with e; rw [e]; exact ih
    · rw [h] at he; injection he with e; rw [e]; exact hinv
  | subscript m ind m1 id _ h ih =>
    obtain ⟨m2, n, i, hs, hinv, -⟩ := subscript_spec ih ind
    rw [h] at hs; injection hs with e; injection e with e1 e2; rw [e1]; exact hinv
  | store m ind m1 id v _ h ih =>
    obtain ⟨m2, n, i, hs, hinv, -⟩ := subscript_spec ih ind
    rw [h] at hs; injection hs with e; injection e with e1 e2; rw [e1]
    exact Inv_write_ref hinv id v
  | clear m _ ih => exact Inv_clear ih
  | assign self other m1 _ _ h _ iho =>
    obtain ⟨m2, hm2, hinv, -, -⟩ := assign_spec self iho
    rw [h] at hm2; injection hm2 with e; rw [e]; exact hinv

/-! ## `find` and `at` -/

theorem find_at_absent [DecidableEq K] {m : HashMap K V} (h : Inv m) (k : K)
    (hno : ∀ n, n ∈ m.list_element_ → n.first ≠ k) :
    m.find k = some Iter.past_end ∧ m.at_ k = some (Result.out_of_range "Aboba") := by
  obtain ⟨i, hgi, hi, hcase⟩ := get_need_index_spec h k
  rcases hcase with ⟨hu, -⟩ | ⟨-, n, hn, -, -, hk⟩
  · have hu2 : m.used_element_.getD i false = false := hu
    constructor
    · unfold HashMap.find
      rw [hgi]
      simp only [hu2, Bool.false_eq_true, if_false]
      rfl
    · unfold HashMap.at_
      rw [hgi]
      simp only
      rw [hu2, if_pos (show (false != true) = true from rfl)]
  · exact absurd hk (hno n hn)

theorem find_at_present [DecidableEq K] {m : HashMap K V} (h : Inv m) (k : K)
    (hex : ∃ n, n ∈ m.list_element_ ∧ n.first = k) :
    ∃ n, n ∈ m.list_element_ ∧ n.first = k ∧ m.find k = some (Iter.node n.id) ∧
      m.at_ k = some (Result.ok n.second) := by
  obtain ⟨n, j, hgj, -, hu, hl, hdr, hn, hk⟩ := get_need_index_present h k hex
  have hu2 : m.used_element_.getD j false = true := hu
  have hl2 : m.link_element_.getD j Iter.singular = Iter.node n.id := hl
  refine ⟨n, hn, hk, ?_, ?_⟩
  · unfold HashMap.find
    rw [hgj]
    simp only [hu2, if_true, hl2]
  · unfold HashMap.at_
    rw [hgj]
    simp only
    rw [hu2, if_neg (show ¬ (true != true) = true by decide), hl2, ← hl, hdr]

theorem sequence_keys (m : HashMap K V) :
    m.sequence.map Prod.fst = m.list_element_.map Node.first := by
  unfold HashMap.sequence
  rw [List.map_map]
  rfl

theorem mem_sequence_of_mem {m : HashMap K V} {n : Node K V} (h : n ∈ m.list_element_) :
    (n.first, n.second) ∈ m.sequence :=
  List.mem_map_of_mem Node.pair h

theorem exists_node_of_mem_sequence {m : HashMap K V} {p : K × V} (h : p ∈ m.sequence) :
    ∃ n, n ∈ m.list_element_ ∧ n.first = p.1 ∧ n.second = p.2 := by
  obtain ⟨n, hn, he⟩ := List.mem_map.1 h
  exact ⟨n, hn, congrArg Prod.fst he, congrArg Prod.snd he⟩

/-- Removing a node with key `k` from a list whose last pair has key `k` leaves as many
nodes with key `k` as the list without its last pair has. -/
theorem count_key_after_erase [DecidableEq K] {l1 l2 : List (Node K V)} {n : Node K V}
    {s : List (K × V)} {k : K} {v : V}
    (h : (l1 ++ n :: l2).map Node.pair = s ++ [(k, v)]) (hk : n.first = k) :
    ((l1 ++ l2).map Node.first).count k = (s.map Prod.fst).count k := by
  have e1 : (l1 ++ n :: l2).map Node.first = (s ++ [(k, v)]).map Prod.fst := by
    rw [← h, List.map_map]; rfl
  have e2 := congrArg (List.count k) e1
  rw [List.map_append, List.map_append, List.count_append, List.count_append, List.map_cons,
    hk, List.count_cons_self] at e2
  have e3 : List.count k (List.map Prod.fst [(k, v)]) = 1 := by simp
  rw [e3] at e2
  rw [List.map_append, List.count_append]
  omega

/-! ## Stores through a reference -/

/-- A node whose identity is below every identity in the list is not in the list. -/
theorem deref_none_of_lt {m : HashMap K V} {c : Nat}
    (h : ∀ n, n ∈ m.list_element_ → c < n.id) : m.deref (Iter.node c) = none := by
  show m.list_element_.find? _ = none
  rw [List.find?_eq_none]
  intro n hn
  have := h n hn
  simp only [beq_iff_eq]
  omega

/-! ## More fuel does not change a result -/

theorem get_need_index_loop_mono [DecidableEq K] (m : HashMap K V) (k : K) :
    ∀ (fuel cur i : Nat), m.get_need_index_loop k fuel cur = some i →
      m.get_need_index_loop k (fuel + 1) cur = some i := by
  intro fuel
  induction fuel with
  | zero => intro cur i h; simp [HashMap.get_need_index_loop] at h
  | succ fuel ih =>
    intro cur i h
    unfold HashMap.get_need_index_loop at h ⊢
    by_cases hu : m.used_element_.getD cur false = true
    · rw [if_pos hu] at h ⊢
      cases hd : m.deref (m.link_element_.getD cur Iter.singular) with
      | none => rw [hd] at h; cases h
      | some n =>
        rw [hd] at h
        simp only at h ⊢
        by_cases hk : n.first = k
        · rw [if_pos hk] at h ⊢; exact h
        · rw [if_neg hk] at h ⊢; exact ih _ _ h
    · rw [if_neg hu] at h ⊢; exact h

theorem insert_loop_mono : ∀ (fuel : Nat) (m : HashMap K V) (i s : Nat) (it : Iter)
    (m1 : HashMap K V), HashMap.insert_loop fuel m i s it = some m1 →
      HashMap.insert_loop (fuel + 1) m i s it = some m1 := by
  intro fuel
  induction fuel with
  | zero => intro m i s it m1 h; simp [HashMap.insert_loop] at h
  | succ fuel ih =>
    intro m i s it m1 h
    unfold HashMap.insert_loop at h ⊢
    by_cases h1 : m.dist_element_.getD i 0 < s
    · rw [if_pos h1] at h ⊢
      simp only at h ⊢
      by_cases h2 : m.dist_element_.getD i 0 = 0
      · rw [if_pos h2] at h ⊢; exact h
      · rw [if_neg h2] at h ⊢
        exact ih { m with
          dist_element_ := m.dist_element_.set i s
          link_element_ := m.link_element_.set i it
          used_element_ := m.used_element_.set i true } _ _ _ _ h
    · rw [if_neg h1] at h ⊢
      exact ih m _ _ _ _ h

theorem erase_loop_mono : ∀ (fuel : Nat) (m : HashMap K V) (pos : Nat) (m1 : HashMap K V),
    HashMap.erase_loop fuel m pos = some m1 → HashMap.erase_loop (fuel + 1) m pos = some m1 := by
  intro fuel
  induction fuel with
  | zero => intro m pos m1 h; simp [HashMap.erase_loop] at h
  | succ fuel ih =>
    intro m pos m1 h
    unfold HashMap.erase_loop at h ⊢
    by_cases h1 : 1 < m.dist_element_.getD pos 0
    · rw [if_pos h1] at h ⊢
      simp only at h ⊢
      exact ih { m with
          used_element_ := (m.used_element_.set pos false).set
            (if pos ≠ 0 then pos - 1 else m.capacity_ - 1) true
          link_element_ := m.link_element_.set
            (if pos ≠ 0 then pos - 1 else m.capacity_ - 1)
            (m.link_element_.getD pos Iter.singular)
          dist_element_ :=
            (m.dist_element_.set (if pos ≠ 0 then pos - 1 else m.capacity_ - 1)
              (m.dist_element_.getD pos 0 - 1)).set pos 0 } _ _ h
    · rw [if_neg h1] at h ⊢; exact h

/-! ## Concrete maps are states of the container -/

theorem demo_new_reachable : Reachable demo_new := Reachable.new demo_hash 1 (by norm_num)

theorem demo_one_reachable : Reachable demo_one :=
  Reachable.insert demo_new (1, "a") demo_one demo_new_reachable rfl

theorem demo_two_reachable : Reachable demo_two :=
  Reachable.insert demo_one (1, "b") demo_two demo_one_reachable rfl

theorem demo_shifted_reachable : Reachable demo_shifted :=
  Reachable.erase demo_s4 13 demo_shifted
    (Reachable.insert demo_s3 (13, "p") demo_s4
      (Reachable.insert demo_s2 (1, "w") demo_s3
        (Reachable.insert demo_s1 (1, "z") demo_s2
          (Reachable.insert demo_new (0, "a") demo_s1 demo_new_reachable rfl) rfl) rfl) rfl) rfl

/-- With the constructor argument `SIZE_MAX` the stored capacity wraps to 0 and the lookup
divides by zero. -/
theorem new_size_max (hasher : K → Nat) [DecidableEq K] (k : K) :
    (HashMap.new hasher (2 ^ 64 - 1) : HashMap K V).capacity_ = 0 ∧
      (HashMap.new hasher (2 ^ 64 - 1) : HashMap K V).find k = none := by
  constructor <;> rfl

/-! ## Claims -/

/-- Lookup is sound and complete in every state reachable from a constructor whose capacity argument is below
`SIZE_MAX` (the states of `Reachable`):
for every key `k`, if no entry of the list has key `k` then `find(k)` returns `end()` and `at(k)` throws `std::out_of_range`; otherwise
`find(k)` returns an iterator to an entry of the list whose key is `k` and `at(k)` returns
the value of that entry. -/
theorem lookup_sound_complete [DecidableEq K] [Inhabited V] (m : HashMap K V)
    (hm : Reachable m) (k : K) :
    ((∀ n, n ∈ m.list_element_ → n.first ≠ k) →
        m.find k = some Iter.past_end ∧ m.at_ k = some (Result.out_of_range "Aboba")) ∧
    ((∃ n, n ∈ m.list_element_ ∧ n.first = k) →
        ∃ n, n ∈ m.list_element_ ∧ n.first = k ∧ m.find k = some (Iter.node n.id) ∧
          m.at_ k = some (Result.ok n.second)) :=
  ⟨find_at_absent hm.inv k, find_at_present hm.inv k⟩

/-- Soundness and completeness of the lookup on the map holding `(1, "a")`, for the
key 1. -/
theorem lookup_sound_complete_witness :
    Reachable demo_one ∧
    (((∀ n, n ∈ demo_one.list_element_ → n.first ≠ 1) →
        demo_one.find 1 = some Iter.past_end ∧
          demo_one.at_ 1 = some (Result.out_of_range "Aboba")) ∧
    ((∃ n, n ∈ demo_one.list_element_ ∧ n.first = 1) →
        ∃ n, n ∈ demo_one.list_element_ ∧ n.first = 1 ∧
          demo_one.find 1 = some (Iter.node n.id) ∧
          demo_one.at_ 1 = some (Result.ok n.second))) :=
  ⟨demo_one_reachable, lookup_sound_complete demo_one demo_one_reachable 1⟩

/-- Insert appends, in every state reachable from a constructor whose capacity argument is below
`SIZE_MAX` (the states of `Reachable`):
`insert((k, v))` returns and the iteration sequence afterwards is the sequence before followed by `(k, v)`, with or without a
rehash; `size()` grows by exactly 1. -/
theorem insert_appends [DecidableEq K] [Inhabited V] (m : HashMap K V) (hm : Reachable m)
    (val : K × V) :
    ∃ m1, m.insert val = some m1 ∧ m1.sequence = m.sequence ++ [val] ∧
      m1.size = m.size + 1 := by
  obtain ⟨m1, hm1, hp⟩ := insert_spec hm.inv val
  exact ⟨m1, hm1, hp.sequence_eq, hp.length_eq⟩

/-- Insert appends on the map holding `(1, "a")`, for an insert that grows the table. -/
theorem insert_appends_witness :
    Reachable demo_one ∧
    ∃ m1, demo_one.insert (2, "b") = some m1 ∧ m1.sequence = demo_one.sequence ++ [(2, "b")] ∧
      m1.size = demo_one.size + 1 :=
  ⟨demo_one_reachable, insert_appends demo_one demo_one_reachable (2, "b")⟩

/-- Erase semantics, in every state reachable from a constructor whose capacity argument is below
`SIZE_MAX` (the states of `Reachable`):
`erase(k)` of a key that no entry has leaves the whole state unchanged; otherwise it removes from the list exactly the entry that
`find(k)` designates, the other entries keep their order, and `size()` decreases by
exactly 1. -/
theorem erase_semantics [DecidableEq K] [Inhabited V] (m : HashMap K V) (hm : Reachable m)
    (k : K) :
    ((∀ n, n ∈ m.list_element_ → n.first ≠ k) → m.erase k = some m) ∧
    ((∃ n, n ∈ m.list_element_ ∧ n.first = k) →
      ∃ n l1 l2 m1, m.find k = some (Iter.node n.id) ∧ n.first = k ∧
        m.list_element_ = l1 ++ n :: l2 ∧ m.erase k = some m1 ∧
        m1.list_element_ = l1 ++ l2 ∧
        m1.sequence = l1.map Node.pair ++ l2.map Node.pair ∧
        m.sequence = l1.map Node.pair ++ (n.first, n.second) :: l2.map Node.pair ∧
        m1.size + 1 = m.size) := by
  obtain ⟨i, hgi, hloc, hcase⟩ := erase_spec hm.inv k
  constructor
  · intro hno
    rcases hcase with ⟨-, he⟩ | ⟨-, n, m1, hn, -, hk, -⟩
    · exact he
    · exact absurd hk (hno n hn)
  · intro ⟨x, hx, hxk⟩
    rcases hcase with ⟨hu, -⟩ | ⟨hu, n, m1, hn, hl, hk, he, -, hlist, -⟩
    · rcases hloc.2 with ⟨-, hno⟩ | ⟨hu2, -⟩
      · exact absurd hxk (hno x hx)
      · rw [hu] at hu2; cases hu2
    · obtain ⟨a, l1, l2, -, pa, hsplit, herase⟩ :=
        List.exists_of_eraseP hn (p := fun y => y.id == n.id) (by simp)
      have han : a = n := by
        apply node_eq_of_id_eq hm.inv.1.base.ids_nodup _ hn (by simpa using pa)
        rw [hsplit]; simp
      rw [han] at hsplit
      have hfind : m.find k = some (Iter.node n.id) := by
        unfold HashMap.find
        rw [hgi]
        have hu2 : m.used_element_.getD i false = true := hu
        have hl2 : m.link_element_.getD i Iter.singular = Iter.node n.id := hl
        simp only [hu2, if_true, hl2]
      refine ⟨n, l1, l2, m1, hfind, hk, hsplit, he, by rw [hlist, herase], ?_, ?_, ?_⟩
      · unfold HashMap.sequence
        rw [hlist, herase, List.map_append]
      · unfold HashMap.sequence
        rw [hsplit, List.map_append, List.map_cons]
        rfl
      · unfold HashMap.size
        rw [hlist, herase, hsplit]
        simp only [List.length_append, List.length_cons]
        omega

/-- Erase semantics on the map holding `(1, "a")` and `(1, "b")`, for the key 1. -/
theorem erase_semantics_witness :
    Reachable demo_two ∧
    (((∀ n, n ∈ demo_two.list_element_ → n.first ≠ 1) → demo_two.erase 1 = some demo_two) ∧
    ((∃ n, n ∈ demo_two.list_element_ ∧ n.first = 1) →
      ∃ n l1 l2 m1, demo_two.find 1 = some (Iter.node n.id) ∧ n.first = 1 ∧
        demo_two.list_element_ = l1 ++ n :: l2 ∧ demo_two.erase 1 = some m1 ∧
        m1.list_element_ = l1 ++ l2 ∧
        m1.sequence = l1.map Node.pair ++ l2.map Node.pair ∧
        demo_two.sequence = l1.map Node.pair ++ (n.first, n.second) :: l2.map Node.pair ∧
        m1.size + 1 = demo_two.size)) :=
  ⟨demo_two_reachable, erase_semantics demo_two demo_two_reachable 1⟩

/-- Counterexample to C5 as stated: on the map holding `(1, "a")`, `insert({1, "b"})`
followed by `erase(1)` leaves the size at 1, but the key 1 is still found. -/
theorem insert_erase_key_still_found :
    Reachable demo_one ∧ demo_one.insert (1, "b") = some demo_two ∧
      demo_two.erase 1 = some demo_two_erased ∧ demo_two_erased.size = demo_one.size ∧
      demo_two_erased.find 1 = some (Iter.node 3) ∧
      demo_two_erased.find 1 ≠ some Iter.past_end :=
  ⟨demo_one_reachable, rfl, rfl, by decide, by decide, by decide⟩

/-- Claim C5, amended: in every state `m` reachable from a constructor whose capacity
argument is below `SIZE_MAX` (the states of `Reachable`), `insert((k, v))` followed by
`erase(k)` returns a map of the size of `m`; in it `k` is not found if no entry of `m` had
key `k`, and `k` is still found if an entry of `m` had key `k` (the pair removes one entry
with key `k`, not all of them). -/
theorem insert_erase_round_trip [DecidableEq K] [Inhabited V] (m : HashMap K V)
    (hm : Reachable m) (k : K) (v : V) :
    ∃ m1 m2, m.insert (k, v) = some m1 ∧ m1.erase k = some m2 ∧ m2.size = m.size ∧
      ((∀ n, n ∈ m.list_element_ → n.first ≠ k) → m2.find k = some Iter.past_end) ∧
      ((∃ n, n ∈ m.list_element_ ∧ n.first = k) →
        ∃ n, n ∈ m2.list_element_ ∧ n.first = k ∧ m2.find k = some (Iter.node n.id)) := by
  obtain ⟨m1, hm1, hp⟩ := insert_spec hm.inv (k, v)
  have hmem : (k, v) ∈ m1.sequence := by rw [hp.sequence_eq]; simp
  obtain ⟨x, hx, hx1, -⟩ := exists_node_of_mem_sequence hmem
  obtain ⟨i, -, hloc, hcase⟩ := erase_spec hp.inv k
  rcases hcase with ⟨hu, -⟩ | ⟨-, n, m2, hn, -, hk, he, hinv2, hlist, -⟩
  · rcases hloc.2 with ⟨-, hno⟩ | ⟨hu2, -⟩
    · exact absurd hx1 (hno x hx)
    · rw [hu] at hu2; cases hu2
  · obtain ⟨a, l1, l2, -, pa, hsplit, herase⟩ :=
      List.exists_of_eraseP hn (p := fun y => y.id == n.id) (by simp)
    have han : a = n := by
      apply node_eq_of_id_eq hp.inv.1.base.ids_nodup _ hn (by simpa using pa)
      rw [hsplit]; simp
    rw [han] at hsplit
    have hseq : (l1 ++ n :: l2).map Node.pair = m.sequence ++ [(k, v)] := by
      rw [← hsplit]; exact hp.sequence_eq
    have hcount := count_key_after_erase hseq hk
    rw [sequence_keys, ← herase, ← hlist] at hcount
    refine ⟨m1, m2, hm1, he, ?_, ?_, ?_⟩
    · unfold HashMap.size
      rw [hlist, List.length_eraseP_of_mem hn (by simp), hp.length_eq]
      rfl
    · intro hno
      apply (find_at_absent hinv2 k _).1
      intro y hy hyk
      have h0 : (m.list_element_.map Node.first).count k = 0 := by
        rw [List.count_eq_zero]
        intro hc
        obtain ⟨z, hz, hzk⟩ := List.mem_map.1 hc
        exact hno z hz hzk
      rw [h0, List.count_eq_zero] at hcount
      exact hcount (by rw [← hyk]; exact List.mem_map_of_mem Node.first hy)
    · intro ⟨y, hy, hyk⟩
      have hpos : 0 < (m2.list_element_.map Node.first).count k := by
        rw [hcount, List.count_pos_iff]
        rw [← hyk]
        exact List.mem_map_of_mem Node.first hy
      rw [List.count_pos_iff] at hpos
      obtain ⟨z, hz, hzk⟩ := List.mem_map.1 hpos
      obtain ⟨n2, hn2, hk2, hf, -⟩ := find_at_present hinv2 k ⟨z, hz, hzk⟩
      exact ⟨n2, hn2, hk2, hf⟩

/-- Witness of the amended C5 on the default-constructed map, for the pair `(1, "a")`. -/
theorem insert_erase_round_trip_witness :
    Reachable demo_new ∧
    ∃ m1 m2, demo_new.insert (1, "a") = some m1 ∧ m1.erase 1 = some m2 ∧
      m2.size = demo_new.size ∧
      ((∀ n, n ∈ demo_new.list_element_ → n.first ≠ 1) → m2.find 1 = some Iter.past_end) ∧
      ((∃ n, n ∈ demo_new.list_element_ ∧ n.first = 1) →
        ∃ n, n ∈ m2.list_element_ ∧ n.first = 1 ∧ m2.find 1 = some (Iter.node n.id)) :=
  ⟨demo_new_reachable, insert_erase_round_trip demo_new demo_new_reachable 1 "a"⟩

/-- Subscript is update-or-insert, in every state reachable from a constructor whose capacity argument is below
`SIZE_MAX` (the states of `Reachable`):
if no entry has key `k` then `m[k]` appends
`(k, V())` to the iteration sequence, `size()` grows by 1, the returned reference reads
`V()` and `at(k)` afterwards returns `V()`, with or without growth; if an entry has key
`k` then `m[k]` leaves the state unchanged and returns a reference to the value of the
entry that `find(k)` designates. -/
theorem subscript_update_or_insert [DecidableEq K] [Inhabited V] (m : HashMap K V)
    (hm : Reachable m) (k : K) :
    ((∀ n, n ∈ m.list_element_ → n.first ≠ k) →
      ∃ m1 id, m.subscript k = some (m1, id) ∧
        m1.sequence = m.sequence ++ [(k, default)] ∧ m1.size = m.size + 1 ∧
        m1.read_ref id = some default ∧ m1.at_ k = some (Result.ok default)) ∧
    ((∃ n, n ∈ m.list_element_ ∧ n.first = k) →
      ∃ n, n ∈ m.list_element_ ∧ m.subscript k = some (m, n.id) ∧
        m.find k = some (Iter.node n.id) ∧ m.read_ref n.id = some n.second) := by
  obtain ⟨m1, n, i, hs, hinv, hn, hk, hgi, hu, hl, habs, hpres⟩ := subscript_spec hm.inv k
  have hu2 : m1.used_element_.getD i false = true := hu
  have hl2 : m1.link_element_.getD i Iter.singular = Iter.node n.id := hl
  have hread : m1.read_ref n.id = some n.second := by
    unfold HashMap.read_ref
    rw [deref_of_mem hinv.1.base hn]
    rfl
  have hfind : m1.find k = some (Iter.node n.id) := by
    unfold HashMap.find
    rw [hgi]
    simp only [hu2, if_true, hl2]
  have hat : m1.at_ k = some (Result.ok n.second) := by
    unfold HashMap.at_
    rw [hgi]
    simp only
    rw [hu2, if_neg (show ¬ (true != true) = true by decide), hl2,
      deref_of_mem hinv.1.base hn]
  constructor
  · intro hno
    have hins := habs hno
    obtain ⟨m2, hm2, hp⟩ := insert_spec hm.inv (k, default)
    rw [hins] at hm2
    injection hm2 with e
    rw [← e] at hp
    have hnv : n.second = default := by
      have h1 := mem_sequence_of_mem hn
      rw [hp.sequence_eq, List.mem_append] at h1
      rcases h1 with h1 | h1
      · obtain ⟨y, hy, hy1, -⟩ := exists_node_of_mem_sequence h1
        exact absurd (hy1.trans hk) (hno y hy)
      · simp only [List.mem_singleton, Prod.mk.injEq] at h1
        exact h1.2
    exact ⟨m1, n.id, hs, hp.sequence_eq, hp.length_eq, by rw [hread, hnv], by rw [hat, hnv]⟩
  · intro hex
    have e := hpres hex
    subst e
    exact ⟨n, hn, hs, hfind, hread⟩

/-- Subscript on the default-constructed map, for the key 7. -/
theorem subscript_update_or_insert_witness :
    Reachable demo_new ∧
    (((∀ n, n ∈ demo_new.list_element_ → n.first ≠ 7) →
      ∃ m1 id, demo_new.subscript 7 = some (m1, id) ∧
        m1.sequence = demo_new.sequence ++ [(7, default)] ∧ m1.size = demo_new.size + 1 ∧
        m1.read_ref id = some default ∧ m1.at_ 7 = some (Result.ok default)) ∧
    ((∃ n, n ∈ demo_new.list_element_ ∧ n.first = 7) →
      ∃ n, n ∈ demo_new.list_element_ ∧ demo_new.subscript 7 = some (demo_new, n.id) ∧
        demo_new.find 7 = some (Iter.node n.id) ∧
        demo_new.read_ref n.id = some n.second)) :=
  ⟨demo_new_reachable, subscript_update_or_insert demo_new demo_new_reachable 7⟩

/-- Clear empties the map, in every state reachable from a constructor whose capacity argument is below
`SIZE_MAX` (the states of `Reachable`):
after `clear()` the size is 0, iteration yields
nothing, every slot is unused with distance 0, the capacity and the number of slots are
those before, and `find(k)` returns `end()` for every key `k`. -/
theorem clear_empties [DecidableEq K] [Inhabited V] (m : HashMap K V) (hm : Reachable m) :
    m.clear.size = 0 ∧ m.clear.sequence = [] ∧ m.clear.capacity_ = m.capacity_ ∧
      m.clear.used_element_ = List.replicate m.capacity_ false ∧
      m.clear.dist_element_ = List.replicate m.capacity_ 0 ∧
      (∀ i, i < m.capacity_ →
        m.clear.used_element_.getD i true = false ∧ m.clear.dist_element_.getD i 1 = 0) ∧
      ∀ k : K, m.clear.find k = some Iter.past_end := by
  have hb := hm.inv.1.base
  have hu : m.clear.used_element_ = List.replicate m.capacity_ false := by
    show fill m.used_element_ false = _
    rw [fill, hb.len_used]
  have hd : m.clear.dist_element_ = List.replicate m.capacity_ 0 := by
    show fill m.dist_element_ 0 = _
    rw [fill, hb.len_dist]
  refine ⟨rfl, rfl, rfl, hu, hd, ?_, ?_⟩
  · intro i hi
    rw [hu, hd]
    simp [List.getD_eq_getElem?_getD, List.getElem?_replicate, hi]
  · intro k
    exact (find_at_absent (Inv_clear hm.inv) k (fun n hn => by cases hn)).1

/-- Clear on the map holding `(1, "a")` and `(1, "b")`. -/
theorem clear_empties_witness :
    Reachable demo_two ∧
    (demo_two.clear.size = 0 ∧ demo_two.clear.sequence = [] ∧
      demo_two.clear.capacity_ = demo_two.capacity_ ∧
      demo_two.clear.used_element_ = List.replicate demo_two.capacity_ false ∧
      demo_two.clear.dist_element_ = List.replicate demo_two.capacity_ 0 ∧
      (∀ i, i < demo_two.capacity_ →
        demo_two.clear.used_element_.getD i true = false ∧
        demo_two.clear.dist_element_.getD i 1 = 0) ∧
      ∀ k : Nat, demo_two.clear.find k = some Iter.past_end) :=
  ⟨demo_two_reachable, clear_empties demo_two demo_two_reachable⟩

/-- Claim C8: for every reachable map `s` and every reachable map `t` (another object),
`t = s` returns and the iteration sequence of `t` afterwards is that of `s`, whatever `t`
held before and whatever its capacity was. -/
theorem assign_copies_sequence [DecidableEq K] [Inhabited V] (s t : HashMap K V)
    (hs : Reachable s) (_ht : Reachable t) :
    ∃ t1, t.assign s = some t1 ∧ t1.sequence = s.sequence := by
  obtain ⟨t1, h1, -, hseq, -⟩ := assign_spec t hs.inv
  exact ⟨t1, h1, hseq⟩

/-- Witness of C8: the map holding `(1, "a")` and `(1, "b")` (capacity 7) is assigned
the map built with an `erase` (capacity 13). -/
theorem assign_copies_sequence_witness :
    Reachable demo_shifted ∧ Reachable demo_two ∧
    ∃ t1, demo_two.assign demo_shifted = some t1 ∧ t1.sequence = demo_shifted.sequence :=
  ⟨demo_shifted_reachable, demo_two_reachable,
    assign_copies_sequence demo_shifted demo_two demo_shifted_reachable demo_two_reachable⟩

/-- Counterexample to C9 as stated: the map `m` built by `insert({0, "a"})`,
`insert({1, "z"})`, `insert({1, "w"})`, `insert({13, "p"})`, `erase(13)` on a
default-constructed map returns `"w"` for `at(1)`, and after `x = m; y = x` the map `y`
returns `"z"`. -/
theorem assign_changes_lookup :
    Reachable demo_shifted ∧
      demo_new.insert (0, "a") = some demo_s1 ∧ demo_s1.insert (1, "z") = some demo_s2 ∧
      demo_s2.insert (1, "w") = some demo_s3 ∧ demo_s3.insert (13, "p") = some demo_s4 ∧
      demo_s4.erase 13 = some demo_shifted ∧
      demo_new.assign demo_shifted = some demo_copy ∧
      demo_new.assign demo_copy = some demo_copy2 ∧
      demo_shifted.sequence = [(0, "a"), (1, "z"), (1, "w")] ∧
      demo_copy2.sequence = [(0, "a"), (1, "z"), (1, "w")] ∧
      demo_shifted.at_ 1 = some (Result.ok "w") ∧ demo_copy2.at_ 1 = some (Result.ok "z") ∧
      demo_shifted.at_ 1 ≠ demo_copy2.at_ 1 :=
  ⟨demo_shifted_reachable, rfl, rfl, rfl, rfl, rfl, rfl, rfl, by decide, by decide, by decide,
    by decide, by decide⟩

/-- Claim C9, amended: for every reachable map `m`, after `x = m; y = x` the map `y` has
the iteration sequence of `m`, and for every key `k` the lookup on `y` misses exactly
when it misses on `m`; when it hits, `find(k)`/`at(k)` on `y` return an entry with key `k`
whose pair is in the sequence of `m`, and its value is the one returned on `m` whenever
all entries of `m` with key `k` hold the same value (in particular when `m` holds one
entry with key `k`). -/
theorem assign_twice_lookup [DecidableEq K] [Inhabited V] (m x0 y0 : HashMap K V)
    (hm : Reachable m) (k : K) :
    ∃ x y, x0.assign m = some x ∧ y0.assign x = some y ∧ y.sequence = m.sequence ∧
      ((∀ n, n ∈ m.list_element_ → n.first ≠ k) →
        m.find k = some Iter.past_end ∧ y.find k = some Iter.past_end ∧
        m.at_ k = some (Result.out_of_range "Aboba") ∧
        y.at_ k = some (Result.out_of_range "Aboba")) ∧
      ((∃ n, n ∈ m.list_element_ ∧ n.first = k) →
        ∃ n n2, n ∈ m.list_element_ ∧ n2 ∈ y.list_element_ ∧ n.first = k ∧ n2.first = k ∧
          m.find k = some (Iter.node n.id) ∧ y.find k = some (Iter.node n2.id) ∧
          m.at_ k = some (Result.ok n.second) ∧ y.at_ k = some (Result.ok n2.second) ∧
          (k, n2.second) ∈ m.sequence ∧
          ((∀ a b, (k, a) ∈ m.sequence → (k, b) ∈ m.sequence → a = b) →
            n2.second = n.second)) := by
  obtain ⟨x, hx, hxinv, hxseq, -⟩ := assign_spec x0 hm.inv
  obtain ⟨y, hy, hyinv, hyseq, -⟩ := assign_spec y0 hxinv
  have hseq : y.sequence = m.sequence := by rw [hyseq, hxseq]
  refine ⟨x, y, hx, hy, hseq, ?_, ?_⟩
  · intro hno
    have hno2 : ∀ n, n ∈ y.list_element_ → n.first ≠ k := by
      intro n hn hk
      have h1 := mem_sequence_of_mem hn
      rw [hseq] at h1
      obtain ⟨z, hz, hz1, -⟩ := exists_node_of_mem_sequence h1
      exact hno z hz (hz1.trans hk)
    obtain ⟨a1, a2⟩ := find_at_absent hm.inv k hno
    obtain ⟨b1, b2⟩ := find_at_absent hyinv k hno2
    exact ⟨a1, b1, a2, b2⟩
  · intro ⟨z, hz, hzk⟩
    obtain ⟨n, hn, hk, hf, ha⟩ := find_at_present hm.inv k ⟨z, hz, hzk⟩
    have hex2 : ∃ w, w ∈ y.list_element_ ∧ w.first = k := by
      have h1 := mem_sequence_of_mem hz
      rw [← hseq] at h1
      obtain ⟨w, hw, hw1, -⟩ := exists_node_of_mem_sequence h1
      exact ⟨w, hw, hw1.trans hzk⟩
    obtain ⟨n2, hn2, hk2, hf2, ha2⟩ := find_at_present hyinv k hex2
    have hmem2 : (k, n2.second) ∈ m.sequence := by
      have h1 := mem_sequence_of_mem hn2
      rw [hseq, hk2] at h1
      exact h1
    have hmem1 : (k, n.second) ∈ m.sequence := by
      have h1 := mem_sequence_of_mem hn
      rw [hk] at h1
      exact h1
    exact ⟨n, n2, hn, hn2, hk, hk2, hf, hf2, ha, ha2, hmem2, fun hu => hu _ _ hmem2 hmem1⟩

/-- Witness of the amended C9 on the map built with an `erase`, for the key 1 and
default-constructed `x` and `y`. -/
theorem assign_twice_lookup_witness :
    Reachable demo_shifted ∧
    ∃ x y, demo_new.assign demo_shifted = some x ∧ demo_new.assign x = some y ∧
      y.sequence = demo_shifted.sequence ∧
      ((∀ n, n ∈ demo_shifted.list_element_ → n.first ≠ 1) →
        demo_shifted.find 1 = some Iter.past_end ∧ y.find 1 = some Iter.past_end ∧
        demo_shifted.at_ 1 = some (Result.out_of_range "Aboba") ∧
        y.at_ 1 = some (Result.out_of_range "Aboba")) ∧
      ((∃ n, n ∈ demo_shifted.list_element_ ∧ n.first = 1) →
        ∃ n n2, n ∈ demo_shifted.list_element_ ∧ n2 ∈ y.list_element_ ∧ n.first = 1 ∧
          n2.first = 1 ∧
          demo_shifted.find 1 = some (Iter.node n.id) ∧ y.find 1 = some (Iter.node n2.id) ∧
          demo_shifted.at_ 1 = some (Result.ok n.second) ∧
          y.at_ 1 = some (Result.ok n2.second) ∧
          (1, n2.second) ∈ demo_shifted.sequence ∧
          ((∀ a b, (1, a) ∈ demo_shifted.sequence → (1, b) ∈ demo_shifted.sequence → a = b) →
            n2.second = n.second)) :=
  ⟨demo_shifted_reachable,
    assign_twice_lookup demo_shifted demo_new demo_new demo_shifted_reachable 1⟩

/-- Counterexample to C10 as stated: on the map holding `(1, "a")` in the node that
`find(1)` returns, `insert({2, "b")` reaches the load factor and rebuilds; afterwards the
iterator obtained before designates no node of the list. -/
theorem growth_invalidates_iterator :
    Reachable demo_one ∧ demo_one.find 1 = some (Iter.node 0) ∧
      demo_one.deref (Iter.node 0) = some ⟨0, 1, "a"⟩ ∧
      load_reached (demo_one.size + 1) demo_one.capacity_ = true ∧
      demo_one.insert (2, "b") = some demo_grown ∧
      demo_grown.sequence = [(1, "a"), (2, "b")] ∧
      demo_grown.deref (Iter.node 0) = none :=
  ⟨demo_one_reachable, by decide, by decide, by decide, rfl, by decide, by decide⟩

/-- Claim C10, amended: when an `insert` in a reachable state reaches the load factor,
`rebuild` clears the list and creates it again from a copy: the pairs of the entries
that existed before are kept in their order (followed by the new pair) and the capacity
becomes `3 * size + 1`, but every node of the list is new, so an iterator obtained
before the insert designates no node of the list afterwards. -/
theorem growth_rebuilds_list [DecidableEq K] [Inhabited V] (m : HashMap K V)
    (hm : Reachable m) (val : K × V)
    (hg : load_reached (m.size + 1) m.capacity_ = true) :
    ∃ m1, m.insert val = some m1 ∧ m1.sequence = m.sequence ++ [val] ∧
      m1.capacity_ = (m.size + 1) * 3 + 1 ∧
      (∀ n, n ∈ m.list_element_ → m1.deref (Iter.node n.id) = none) ∧
      (∀ n1, n1 ∈ m1.list_element_ → ∀ n, n ∈ m.list_element_ → n1.id ≠ n.id) := by
  obtain ⟨m1, hm1, hp⟩ := insert_spec hm.inv val
  obtain ⟨hcap, hnew⟩ := hp.growth hg
  refine ⟨m1, hm1, hp.sequence_eq, hcap, ?_, ?_⟩
  · intro n hn
    apply deref_none_of_lt
    intro n1 hn1
    have h1 := hnew n1 hn1
    have h2 := hm.inv.1.base.ids_fresh n hn
    omega
  · intro n1 hn1 n hn
    have h1 := hnew n1 hn1
    have h2 := hm.inv.1.base.ids_fresh n hn
    omega

/-- Witness of the amended C10 on the map holding `(1, "a")`, for `insert({2, "b"})`. -/
theorem growth_rebuilds_list_witness :
    Reachable demo_one ∧ load_reached (demo_one.size + 1) demo_one.capacity_ = true ∧
    ∃ m1, demo_one.insert (2, "b") = some m1 ∧
      m1.sequence = demo_one.sequence ++ [(2, "b")] ∧
      m1.capacity_ = (demo_one.size + 1) * 3 + 1 ∧
      (∀ n, n ∈ demo_one.list_element_ → m1.deref (Iter.node n.id) = none) ∧
      (∀ n1, n1 ∈ m1.list_element_ → ∀ n, n ∈ demo_one.list_element_ → n1.id ≠ n.id) :=
  ⟨demo_one_reachable, by decide,
    growth_rebuilds_list demo_one demo_one_reachable (2, "b") (by decide)⟩

/-! ## Rounding to `float` is monotone -/

/-- The value of `to_float` on a number of at least `2 ^ 24`, in terms of its 24-bit
significand `q` and the dropped bits `r`. -/
theorem to_float_large (n : Nat) (hn : 2 ^ 24 ≤ n) :
    ∃ e q r, n = q * 2 ^ (e + 1) + r ∧ r < 2 ^ (e + 1) ∧ 2 ^ 23 ≤ q ∧ q < 2 ^ 24 ∧
      to_float n =
        (if r < 2 ^ e then q * 2 ^ (e + 1)
         else if 2 ^ e < r then (q + 1) * 2 ^ (e + 1)
         else if q % 2 = 0 then q * 2 ^ (e + 1)
         else (q + 1) * 2 ^ (e + 1)) := by
  obtain ⟨e, he, hq1, hq2⟩ := drop_bits_spec n n (Nat.le_refl n) hn
  refine ⟨e, n / 2 ^ (e + 1), n % 2 ^ (e + 1), ?_, Nat.mod_lt _ (by positivity), hq1, hq2, ?_⟩
  · have := Nat.div_add_mod n (2 ^ (e + 1))
    rw [Nat.mul_comm] at this
    exact this.symm
  · unfold to_float
    rw [if_neg (by omega)]
    simp only [he, Nat.add_sub_cancel]

theorem to_float_mono {a b : Nat} (h : a ≤ b) : to_float a ≤ to_float b := by
  by_cases hb : b < 2 ^ 24
  · have ha : a < 2 ^ 24 := by omega
    unfold to_float
    rw [if_pos ha, if_pos hb]
    exact h
  · obtain ⟨e2, q2, r2, hn2, hr2, hq2a, hq2b, hf2⟩ := to_float_large b (by omega)
    have hP2 : 2 ^ (e2 + 1) = 2 * 2 ^ e2 := by rw [pow_succ]; ring
    have hH2 : 0 < 2 ^ e2 := by positivity
    have hlow2 : q2 * 2 ^ (e2 + 1) ≤ to_float b := by
      rw [hf2]
      have : (q2 + 1) * 2 ^ (e2 + 1) = q2 * 2 ^ (e2 + 1) + 2 ^ (e2 + 1) := by ring
      split_ifs <;> omega
    have hbig2 : 2 ^ 23 * 2 ^ (e2 + 1) ≤ q2 * 2 ^ (e2 + 1) := Nat.mul_le_mul_right _ hq2a
    by_cases ha : a < 2 ^ 24
    · have hfa : to_float a = a := by unfold to_float; rw [if_pos ha]
      rw [hfa]
      have : 2 ^ 24 ≤ 2 ^ 23 * 2 ^ (e2 + 1) := by
        rw [hP2]
        have : 2 ^ 24 = 2 ^ 23 * (2 * 1) := by norm_num
        rw [this]
        exact Nat.mul_le_mul_left _ (Nat.mul_le_mul_left _ hH2)
      omega
    · obtain ⟨e1, q1, r1, hn1, hr1, hq1a, hq1b, hf1⟩ := to_float_large a (by omega)
      have hP1 : 2 ^ (e1 + 1) = 2 * 2 ^ e1 := by rw [pow_succ]; ring
      have hup1 : to_float a ≤ (q1 + 1) * 2 ^ (e1 + 1) := by
        rw [hf1]
        have : (q1 + 1) * 2 ^ (e1 + 1) = q1 * 2 ^ (e1 + 1) + 2 ^ (e1 + 1) := by ring
        split_ifs <;> omega
      rcases Nat.lt_trichotomy e1 e2 with hlt | heq | hgt
      · have h1 : (q1 + 1) * 2 ^ (e1 + 1) ≤ 2 ^ 24 * 2 ^ (e1 + 1) :=
          Nat.mul_le_mul_right _ (by omega)
        have h2 : 2 ^ 24 * 2 ^ (e1 + 1) ≤ 2 ^ 23 * 2 ^ (e2 + 1) := by
          have e : 2 ^ 24 * 2 ^ (e1 + 1) = 2 ^ 23 * 2 ^ (e1 + 1 + 1) := by ring
          rw [e]
          exact Nat.mul_le_mul_left _ (Nat.pow_le_pow_right (by norm_num) (by omega))
        omega
      · subst heq
        have e1' : (q1 + 1) * 2 ^ (e1 + 1) = q1 * 2 ^ (e1 + 1) + 2 ^ (e1 + 1) := by ring
        have e2' : (q2 + 1) * 2 ^ (e1 + 1) = q2 * 2 ^ (e1 + 1) + 2 ^ (e1 + 1) := by ring
        rcases Nat.lt_trichotomy q1 q2 with hq | hq | hq
        · have : (q1 + 1) * 2 ^ (e1 + 1) ≤ q2 * 2 ^ (e1 + 1) :=
            Nat.mul_le_mul_right _ (by omega)
          omega
        · subst hq
          rw [hf1, hf2, e1']
          have hrr : r1 ≤ r2 := by omega
          split_ifs <;> omega
        · have : (q2 + 1) * 2 ^ (e1 + 1) ≤ q1 * 2 ^ (e1 + 1) :=
            Nat.mul_le_mul_right _ (by omega)
          omega
      · have h1 : (q2 + 1) * 2 ^ (e2 + 1) ≤ 2 ^ 24 * 2 ^ (e2 + 1) :=
          Nat.mul_le_mul_right _ (by omega)
        have h2 : 2 ^ 24 * 2 ^ (e2 + 1) ≤ 2 ^ 23 * 2 ^ (e1 + 1) := by
          have e : 2 ^ 24 * 2 ^ (e2 + 1) = 2 ^ 23 * 2 ^ (e2 + 1 + 1) := by ring
          rw [e]
          exact Nat.mul_le_mul_left _ (Nat.pow_le_pow_right (by norm_num) (by omega))
        have h3 : 2 ^ 23 * 2 ^ (e1 + 1) ≤ q1 * 2 ^ (e1 + 1) := Nat.mul_le_mul_right _ hq1a
        have h4 : (q2 + 1) * 2 ^ (e2 + 1) = q2 * 2 ^ (e2 + 1) + 2 ^ (e2 + 1) := by ring
        omega

/-- A 24-bit integer times `2 ^ 24` is a `float`. -/
theorem to_float_shift {n : Nat} (hn : n < 2 ^ 24) : to_float (n * 2 ^ 24) = n * 2 ^ 24 := by
  by_cases h0 : n = 0
  · subst h0; decide
  · obtain ⟨e, q, r, hnq, hr, hqa, hqb, hf⟩ := to_float_large (n * 2 ^ 24)
      (Nat.le_mul_of_pos_left _ (by omega))
    have he : e + 1 ≤ 24 := by
      by_contra hcon
      have h1 : 2 ^ 25 ≤ 2 ^ (e + 1) := Nat.pow_le_pow_right (by norm_num) (by omega)
      have h2 : 2 ^ 23 * 2 ^ 25 ≤ q * 2 ^ (e + 1) := Nat.mul_le_mul hqa h1
      have h3 : n * 2 ^ 24 < 2 ^ 24 * 2 ^ 24 := Nat.mul_lt_mul_of_pos_right hn (by positivity)
      have e1 : (2 : Nat) ^ 23 * 2 ^ 25 = 2 ^ 24 * 2 ^ 24 := by norm_num
      omega
    have hdvd : 2 ^ (e + 1) ∣ n * 2 ^ 24 :=
      Dvd.dvd.mul_left (Nat.pow_dvd_pow 2 he) n
    have hr0 : r = 0 := by
      have h1 : (n * 2 ^ 24) % 2 ^ (e + 1) = 0 := Nat.mod_eq_zero_of_dvd hdvd
      rw [hnq, Nat.mul_add_mod_of_lt hr] at h1
      exact h1
    rw [hf, hr0, if_pos (by positivity)]
    rw [hnq, hr0, Nat.add_zero]
    rfl

/-- The growth test is monotone in the size. -/
theorem load_reached_mono {a b c : Nat} (h : a ≤ b) (hb : load_reached b c = false) :
    load_reached a c = false := by
  unfold load_reached at hb ⊢
  simp only [decide_eq_false_iff_not, not_le] at hb ⊢
  have := to_float_mono h
  calc to_float a * 2 ^ 24 ≤ to_float b * 2 ^ 24 := Nat.mul_le_mul_right _ this
    _ < _ := hb

/-- For a capacity below `2 ^ 24`, the growth test is met as soon as the size is at least
`57 / 100` of the capacity. -/
theorem load_reached_of_ratio {n c : Nat} (hc : c < 2 ^ 24) (h : 57 * c ≤ 100 * n) :
    load_reached n c = true := by
  by_contra hcon
  have hf : load_reached n c = false := by simpa using hcon
  have hlt := load_reached_false_lt hf
  unfold load_reached LOAD_FACTOR at hf
  simp only [decide_eq_false_iff_not, not_le] at hf
  have hfn : to_float n = n := by unfold to_float; rw [if_pos (by omega)]
  have hfc : to_float c = c := by unfold to_float; rw [if_pos hc]
  rw [hfn, hfc] at hf
  have h1 : 9563013 * c ≤ n * 2 ^ 24 := by omega
  have h2 := to_float_mono h1
  rw [to_float_shift (by omega)] at h2
  omega

/-- For a capacity up to `2 ^ 17`, the growth test is met only if the size is at least
`57 / 100` of the capacity. -/
theorem ratio_of_load_reached {n c : Nat} (hc : c ≤ 2 ^ 17) (h : load_reached n c = true) :
    57 * c ≤ 100 * n := by
  by_contra hcon
  unfold load_reached LOAD_FACTOR at h
  simp only [decide_eq_true_eq] at h
  have hfn : to_float n = n := by unfold to_float; rw [if_pos (by omega)]
  have hfc : to_float c = c := by unfold to_float; rw [if_pos (by omega)]
  rw [hfn, hfc] at h
  have h3 := to_float_bounds (9563013 * c)
  omega

/-! ## The growth test is not met between two calls -/

theorem load_reached_zero {c : Nat} (hc : 0 < c) : load_reached 0 c = false := by
  unfold load_reached LOAD_FACTOR
  simp only [decide_eq_false_iff_not, not_le]
  have h0 : to_float 0 = 0 := by decide
  have h2 := to_float_bounds c
  have h3 := to_float_bounds (9563013 * to_float c)
  rw [h0]
  omega

theorem insert_post_not_loaded {m m1 : HashMap K V} {val : K × V}
    (hp : InsertPost m val m1) : load_reached m1.list_element_.length m1.capacity_ = false := by
  by_cases hl : load_reached (m.list_element_.length + 1) m.capacity_ = true
  · rw [hp.length_eq, (hp.growth hl).1]
    exact load_reached_triple (Nat.le_refl _)
  · have hl2 : load_reached (m.list_element_.length + 1) m.capacity_ = false := by
      simpa using hl
    rw [hp.length_eq, (hp.no_growth hl2).2.1]
    exact hl2

theorem insert_all_not_loaded : ∀ (L : List (K × V)) (m m1 : HashMap K V), Inv m →
    load_reached m.list_element_.length m.capacity_ = false →
    insert_all HashMap.insert L m = some m1 →
    load_reached m1.list_element_.length m1.capacity_ = false := by
  intro L
  induction L with
  | nil =>
    intro m m1 _ hl h
    simp only [insert_all, Option.some.injEq] at h
    rw [← h]; exact hl
  | cons x xs ih =>
    intro m m1 hinv _ h
    obtain ⟨m2, hm2, hp⟩ := insert_spec hinv x
    simp only [insert_all, hm2] at h
    exact ih m2 m1 hp.inv (insert_post_not_loaded hp) h

/-- In every state of a `HashMap` object the growth test of `insert` is not met. -/
theorem Reachable.not_loaded [DecidableEq K] [Inhabited V] {m : HashMap K V}
    (h : Reachable m) : load_reached m.list_element_.length m.capacity_ = false := by
  induction h with
  | new hasher capacity h => exact load_reached_zero (Inv_new hasher capacity h).1.base.cap_pos
  | from_list lst hasher m h =>
    refine insert_all_not_loaded lst _ m ?_ ?_ h
    · exact Inv_update_size (Nat.succ_pos _) ⟨0, rfl⟩ ⟨0, rfl⟩ ⟨0, rfl⟩
    · exact load_reached_zero (Nat.succ_pos _)
  | from_range range hasher m h =>
    refine insert_all_not_loaded range _ m ?_ ?_ h
    · exact Inv_update_size Nat.one_pos ⟨0, rfl⟩ ⟨0, rfl⟩ ⟨0, rfl⟩
    · exact load_reached_zero Nat.one_pos
  | insert m val m1 hm h _ =>
    obtain ⟨m2, hm2, hp⟩ := insert_spec hm.inv val
    rw [h] at hm2; injection hm2 with e; rw [e]; exact insert_post_not_loaded hp
  | erase m ind m1 hm h ih =>
    obtain ⟨i, -, -, hc⟩ := erase_spec hm.inv ind
    rcases hc with ⟨-, he⟩ | ⟨-, n, m2, -, -, -, he, -, hlist, hcap, -⟩
    · rw [h] at he; injection he with e; rw [e]; exact ih
    · rw [h] at he; injection he with e; rw [e, hlist, hcap]
      exact load_reached_mono (List.length_eraseP_le _) ih
  | subscript m ind m1 id hm h ih =>
    obtain ⟨m2, n, i, hs, hinv, -, -, -, -, -, habs, hpres⟩ := subscript_spec hm.inv ind
    rw [h] at hs; injection hs with e; injection e with e1 e2
    by_cases hex : ∃ x, x ∈ m.list_element_ ∧ x.first = ind
    · rw [e1, hpres hex]; exact ih
    · have hno : ∀ x, x ∈ m.list_element_ → x.first ≠ ind := fun x hx hk => hex ⟨x, hx, hk⟩
      obtain ⟨m3, hm3, hp⟩ := insert_spec hm.inv (ind, default)
      have := habs hno
      rw [hm3] at this; injection this with e3
      rw [e1, ← e3]; exact insert_post_not_loaded hp
  | store m ind m1 id v hm h ih =>
    obtain ⟨m2, n, i, hs, hinv, -, -, -, -, -, habs, hpres⟩ := subscript_spec hm.inv ind
    rw [h] at hs; injection hs with e; injection e with e1 e2
    have hlen : (m1.write_ref id v).list_element_.length = m1.list_element_.length :=
      List.length_map _ _
    rw [hlen]
    show load_reached m1.list_element_.length m1.capacity_ = false
    by_cases hex : ∃ x, x ∈ m.list_element_ ∧ x.first = ind
    · rw [e1, hpres hex]; exact ih
    · have hno : ∀ x, x ∈ m.list_element_ → x.first ≠ ind := fun x hx hk => hex ⟨x, hx, hk⟩
      obtain ⟨m3, hm3, hp⟩ := insert_spec hm.inv (ind, default)
      have := habs hno
      rw [hm3] at this; injection this with e3
      rw [e1, ← e3]; exact insert_post_not_loaded hp
  | clear m hm _ => exact load_reached_zero hm.inv.1.base.cap_pos
  | assign self other m1 _ ho h _ _ =>
    refine insert_all_not_loaded _ _ m1 ?_ ?_ h
    · exact Inv_update_size ho.inv.1.base.cap_pos ⟨_, rfl⟩ ⟨_, rfl⟩ ⟨_, rfl⟩
    · exact load_reached_zero ho.inv.1.base.cap_pos

/-- The bounds on the ratio of size and capacity that follow from an unmet growth test. -/
theorem ratio_bounds {n c : Nat} (h : load_reached n c = false) :
    n < c ∧ 1000000 * n < 570001 * c ∧ (c < 2 ^ 24 → 100 * n < 57 * c) := by
  refine ⟨load_reached_false_lt h, ?_, ?_⟩
  · unfold load_reached LOAD_FACTOR at h
    simp only [decide_eq_false_iff_not, not_le] at h
    have h1 := to_float_bounds n
    have h2 := to_float_bounds c
    have h3 := to_float_bounds (9563013 * to_float c)
    omega
  · intro hc
    by_contra hcon
    have := load_reached_of_ratio hc (by omega : 57 * c ≤ 100 * n)
    rw [h] at this; cases this

/-! ## Counting the used slots -/

theorem count_true_eq_card (l : List Bool) :
    l.count true = ((Finset.range l.length).filter (fun i => l.getD i false = true)).card := by
  induction l using List.reverseRecOn with
  | nil => rfl
  | append_singleton l b ih =>
    have hcongr : (Finset.range l.length).filter (fun i => (l ++ [b]).getD i false = true)
        = (Finset.range l.length).filter (fun i => l.getD i false = true) := by
      apply Finset.filter_congr
      intro i hi
      rw [Finset.mem_range] at hi
      rw [List.getD_append _ _ _ _ hi]
    have hlast : (l ++ [b]).getD l.length false = b := by
      rw [List.getD_append_right _ _ _ _ (Nat.le_refl _), Nat.sub_self]
      rfl
    rw [List.count_append, List.length_append, List.length_singleton, Finset.range_succ,
      Finset.filter_insert, hlast, hcongr, ih]
    cases b with
    | false => simp
    | true =>
      rw [if_pos rfl, Finset.card_insert_of_not_mem]
      · simp
      · simp

/-- The number of used slots is the number of entries. -/
theorem used_count_eq_size {m : HashMap K V} (h : Inv m) :
    m.used_element_.count true = m.list_element_.length := by
  have hb := h.1.base
  rw [count_true_eq_card, hb.len_used]
  let f : Nat → Nat := fun i => match m.link i with
    | Iter.node id => id
    | _ => 0
  have hcard : (m.list_element_.map Node.id).toFinset.card = m.list_element_.length := by
    rw [List.toFinset_card_of_nodup hb.ids_nodup, List.length_map]
  rw [← hcard]
  apply Finset.card_bij (fun i _ => f i)
  · intro i hi
    rw [Finset.mem_filter, Finset.mem_range] at hi
    obtain ⟨n, hn, hl, -⟩ := hb.link_valid i hi.1 ((hb.used_iff i hi.1).1 hi.2)
    have : f i = n.id := by simp only [f, hl]
    rw [this, List.mem_toFinset]
    exact List.mem_map_of_mem _ hn
  · intro i hi j hj hij
    rw [Finset.mem_filter, Finset.mem_range] at hi hj
    have hdi := (hb.used_iff i hi.1).1 hi.2
    have hdj := (hb.used_iff j hj.1).1 hj.2
    obtain ⟨n, -, hl, -⟩ := hb.link_valid i hi.1 hdi
    obtain ⟨n2, -, hl2, -⟩ := hb.link_valid j hj.1 hdj
    have e1 : f i = n.id := by simp only [f, hl]
    have e2 : f j = n2.id := by simp only [f, hl2]
    apply hb.link_inj i j hi.1 hj.1 hdi hdj
    rw [hl, hl2, ← e1, ← e2, hij]
  · intro c hc
    rw [List.mem_toFinset, List.mem_map] at hc
    obtain ⟨n, hn, rfl⟩ := hc
    obtain ⟨i, hi, hdi, hli⟩ := h.1.link_surj n hn
    refine ⟨i, ?_, ?_⟩
    · rw [Finset.mem_filter, Finset.mem_range]
      exact ⟨hi, (hb.used_iff i hi).2 hdi⟩
    · simp only [f, hli]

/-! ## Filling a table up to the growth test -/

theorem demo_fill_spec (m : HashMap Nat String) (hm : Reachable m) : ∀ n,
    load_reached (m.list_element_.length + n) m.capacity_ = false →
    Reachable (demo_fill n m) ∧ (demo_fill n m).list_element_.length = m.list_element_.length + n ∧
      (demo_fill n m).capacity_ = m.capacity_ := by
  intro n
  induction n with
  | zero => intro _; exact ⟨hm, rfl, rfl⟩
  | succ n ih =>
    intro hl
    obtain ⟨hr, hlen, hcap⟩ := ih (load_reached_mono (by omega) hl)
    obtain ⟨m1, hm1, hp⟩ := insert_spec hr.inv (n, "")
    have hstep : demo_fill (n + 1) m = m1 := by
      show ((demo_fill n m).insert (n, "")).getD (demo_fill n m) = m1
      rw [hm1]; rfl
    rw [hstep]
    have hl2 : load_reached ((demo_fill n m).list_element_.length + 1)
        (demo_fill n m).capacity_ = false := by
      rw [hlen, hcap]; exact hl
    refine ⟨Reachable.insert _ _ _ hr hm1, ?_, ?_⟩
    · rw [hp.length_eq, hlen]; rfl
    · rw [(hp.no_growth hl2).2.1, hcap]

/-! ## Total collision: every key has home 0 -/

/-- With the slots `0 .. N - 1` holding the distances `1 .. N` and slot `N` unused, the
loop of `insert` started at slot `t` with distance `t + 1` walks to slot `N` and writes
there. -/
theorem stacked_loop (N : Nat) : ∀ (fuel t : Nat) (m : HashMap K V) (it : Iter),
    t ≤ N → N < m.capacity_ → (∀ j, j < N → m.dist j = j + 1) → m.dist N = 0 →
    N - t < fuel →
    HashMap.insert_loop fuel m t (t + 1) it = some
      { m with
        dist_element_ := m.dist_element_.set N (N + 1)
        link_element_ := m.link_element_.set N it
        used_element_ := m.used_element_.set N true } := by
  intro fuel
  induction fuel with
  | zero => intro t m it _ _ _ _ h; omega
  | succ fuel ih =>
    intro t m it htN hN hd h0 hf
    unfold HashMap.insert_loop
    by_cases e : t = N
    · subst e
      have h1 : m.dist_element_.getD t 0 = 0 := h0
      rw [if_pos (by omega)]
      simp only
      rw [if_pos h1]
    · have h1 : m.dist_element_.getD t 0 = t + 1 := hd t (by omega)
      rw [if_neg (by omega)]
      have hn : next_index m.capacity_ t = t + 1 := by
        unfold next_index
        rw [if_neg (by omega)]
      rw [hn]
      exact ih (t + 1) m it (by omega) hN hd h0 (by omega)

/-- An `insert` that does not reach the load factor, into a stacked table. -/
theorem stacked_insert_no_growth {m : HashMap K V} (h : Inv0 m)
    (hst : StackedTo m m.list_element_.length) (hz : ∀ k, m.hasher_ k = 0)
    (hs : m.list_element_.length < m.capacity_) (val : K × V) (depth : Nat)
    (hl : load_reached (m.list_element_.length + 1) m.capacity_ = false) :
    ∃ m2, HashMap.insert_fuel (depth + 1) m val = some m2 ∧ Inv0 m2 ∧ Appended m val m2 ∧
      StackedTo m2 m2.list_element_.length := by
  obtain ⟨m2, hm2, hinv, happ⟩ := insert_fuel_no_growth h hs val depth hl
  refine ⟨m2, hm2, hinv, happ, ?_⟩
  have hb := h.base
  have hloop := stacked_loop m.list_element_.length m.capacity_ 0
    ({ m with
      list_element_ := m.list_element_ ++ [⟨m.next_id_, val.1, val.2⟩]
      next_id_ := m.next_id_ + 1 } : HashMap K V) (Iter.node m.next_id_)
    (Nat.zero_le _) hs (fun j hj => ((hst j (by omega)).1 hj).1)
    ((hst _ hs).2 (Nat.le_refl _)).1 (by omega)
  rw [insert_fuel_succ, if_neg (by omega), hz, Nat.zero_mod, hloop] at hm2
  simp only at hm2
  have hl2 : load_reached (m.list_element_ ++ [(⟨m.next_id_, val.1, val.2⟩ : Node K V)]).length
      m.capacity_ = false := by
    rw [List.length_append, List.length_singleton]; exact hl
  rw [hl2] at hm2
  simp only [Bool.false_eq_true, if_false, Option.some.injEq] at hm2
  subst hm2
  have hN := hs
  have hdist : ∀ j, HashMap.dist ({ m with
      list_element_ := m.list_element_ ++ [⟨m.next_id_, val.1, val.2⟩]
      next_id_ := m.next_id_ + 1
      dist_element_ := m.dist_element_.set m.list_element_.length (m.list_element_.length + 1)
      link_element_ := m.link_element_.set m.list_element_.length (Iter.node m.next_id_)
      used_element_ := m.used_element_.set m.list_element_.length true } : HashMap K V) j
      = if j = m.list_element_.length then m.list_element_.length + 1 else m.dist j :=
    fun j => getD_set _ _ _ _ _ (by rw [hb.len_dist]; exact hN)
  have hused : ∀ j, HashMap.used ({ m with
      list_element_ := m.list_element_ ++ [⟨m.next_id_, val.1, val.2⟩]
      next_id_ := m.next_id_ + 1
      dist_element_ := m.dist_element_.set m.list_element_.length (m.list_element_.length + 1)
      link_element_ := m.link_element_.set m.list_element_.length (Iter.node m.next_id_)
      used_element_ := m.used_element_.set m.list_element_.length true } : HashMap K V) j
      = if j = m.list_element_.length then true else m.used j :=
    fun j => getD_set _ _ _ _ _ (by rw [hb.len_used]; exact hN)
  have hlink : ∀ j, HashMap.link ({ m with
      list_element_ := m.list_element_ ++ [⟨m.next_id_, val.1, val.2⟩]
      next_id_ := m.next_id_ + 1
      dist_element_ := m.dist_element_.set m.list_element_.length (m.list_element_.length + 1)
      link_element_ := m.link_element_.set m.list_element_.length (Iter.node m.next_id_)
      used_element_ := m.used_element_.set m.list_element_.length true } : HashMap K V) j
      = if j = m.list_element_.length then Iter.node m.next_id_ else m.link j :=
    fun j => getD_set _ _ _ _ _ (by rw [hb.len_link]; exact hN)
  intro j hj
  have hj2 : j < m.capacity_ := hj
  show (j < (m.list_element_ ++ [(⟨m.next_id_, val.1, val.2⟩ : Node K V)]).length → _) ∧
    ((m.list_element_ ++ [(⟨m.next_id_, val.1, val.2⟩ : Node K V)]).length ≤ j → _)
  rw [List.length_append, List.length_singleton, hdist, hused, hlink]
  constructor
  · intro hlt
    by_cases e : j = m.list_element_.length
    · rw [if_pos e, if_pos e, if_pos e]
      refine ⟨by omega, rfl, ⟨m.next_id_, val.1, val.2⟩, ?_, rfl⟩
      show (m.list_element_ ++ [(⟨m.next_id_, val.1, val.2⟩ : Node K V)])[j]? = _
      rw [e, List.getElem?_append_right (Nat.le_refl _), Nat.sub_self]
      rfl
    · rw [if_neg e, if_neg e, if_neg e]
      obtain ⟨h1, h2, n, h3, h4⟩ := (hst j hj2).1 (by omega)
      refine ⟨h1, h2, n, ?_, h4⟩
      show (m.list_element_ ++ [(⟨m.next_id_, val.1, val.2⟩ : Node K V)])[j]? = _
      rw [List.getElem?_append_left (by omega)]
      exact h3
  · intro hge
    have e : j ≠ m.list_element_.length := by omega
    rw [if_neg e, if_neg e]
    exact (hst j hj2).2 (by omega)

theorem stacked_reinsert (depth N : Nat) : ∀ (L : List (K × V)) (m : HashMap K V),
    Inv0 m → StackedTo m m.list_element_.length → (∀ k, m.hasher_ k = 0) →
    m.capacity_ = N * 3 + 1 → m.list_element_.length + L.length ≤ N →
    ∃ m2, insert_all (HashMap.insert_fuel (depth + 1)) L m = some m2 ∧
      StackedTo m2 m2.list_element_.length := by
  intro L
  induction L with
  | nil => intro m _ hst _ _ _; exact ⟨m, rfl, hst⟩
  | cons x xs ih =>
    intro m h hst hz hcap hlen
    simp only [List.length_cons] at hlen
    obtain ⟨m1, hm1, hinv1, ⟨a1, a2, a3, a4⟩, hst1⟩ :=
      stacked_insert_no_growth h hst hz (by omega) x depth
        (by rw [hcap]; exact load_reached_triple (by omega))
    obtain ⟨m2, hm2, hst2⟩ := ih m1 hinv1 hst1 (by intro k; rw [a3]; exact hz k)
      (by rw [a2, hcap])
      (by rw [a1, List.length_append, List.length_singleton]; omega)
    exact ⟨m2, by simp only [insert_all, hm1, hm2], hst2⟩

/-- An `insert` into a stacked table, with or without growth, leaves a stacked table. -/
theorem stacked_insert {m : HashMap K V} (h : Inv m)
    (hst : StackedTo m m.list_element_.length) (hz : ∀ k, m.hasher_ k = 0) (val : K × V) :
    ∃ m1, m.insert val = some m1 ∧ InsertPost m val m1 ∧
      StackedTo m1 m1.list_element_.length ∧ (∀ k, m1.hasher_ k = 0) := by
  obtain ⟨m1, hm1, hp⟩ := insert_spec h val
  refine ⟨m1, hm1, hp, ?_, by intro k; rw [hp.hasher_eq]; exact hz k⟩
  by_cases hl : load_reached (m.list_element_.length + 1) m.capacity_ = true
  · obtain ⟨m2, hm2, hinv2, ⟨a1, a2, a3, a4⟩⟩ := place_spec h.1 h.2 val
    have hlen : m2.list_element_.length = m.list_element_.length + 1 := by
      rw [a1, List.length_append, List.length_singleton]
    unfold HashMap.insert at hm1
    rw [insert_fuel_succ, if_neg (by have := h.1.base.cap_pos; omega), hm2] at hm1
    simp only at hm1
    rw [hlen, a2, if_pos hl] at hm1
    unfold HashMap.rebuild_with at hm1
    simp only at hm1
    have hblank : Inv0 ({ ({ m2 with capacity_ := m2.list_element_.length * 3 + 1 } :
        HashMap K V).update_size with
        link_element_ := fill ({ m2 with capacity_ := m2.list_element_.length * 3 + 1 } :
          HashMap K V).update_size.link_element_ Iter.singular
        used_element_ := fill ({ m2 with capacity_ := m2.list_element_.length * 3 + 1 } :
          HashMap K V).update_size.used_element_ false
        dist_element_ := fill ({ m2 with capacity_ := m2.list_element_.length * 3 + 1 } :
          HashMap K V).update_size.dist_element_ 0 } : HashMap K V) := by
      apply Inv0_blank
      · exact Nat.succ_pos _
      · exact fill_resize _ _ _
      · exact fill_resize _ _ _
      · exact fill_resize _ _ _
      · rfl
    have hst0 : StackedTo ({ ({ m2 with capacity_ := m2.list_element_.length * 3 + 1 } :
        HashMap K V).update_size with
        link_element_ := fill ({ m2 with capacity_ := m2.list_element_.length * 3 + 1 } :
          HashMap K V).update_size.link_element_ Iter.singular
        used_element_ := fill ({ m2 with capacity_ := m2.list_element_.length * 3 + 1 } :
          HashMap K V).update_size.used_element_ false
        dist_element_ := fill ({ m2 with capacity_ := m2.list_element_.length * 3 + 1 } :
          HashMap K V).update_size.dist_element_ 0 } : HashMap K V) 0 := by
      intro j _
      refine ⟨fun hj => by omega, fun _ => ⟨?_, ?_⟩⟩
      · show (fill _ 0).getD j 0 = 0
        rw [fill]; exact getD_replicate _ _ _
      · show (fill _ false).getD j false = false
        rw [fill]; exact getD_replicate _ _ _
    obtain ⟨m3, hm3, hst3⟩ := stacked_reinsert 0 m2.list_element_.length
      (m2.list_element_.map Node.pair) _ hblank hst0 (by intro k; rw [← hz k, ← a3]; rfl) rfl
      (by simp [HashMap.update_size])
    rw [hm3] at hm1
    injection hm1 with e
    rw [← e]; exact hst3
  · have hl2 : load_reached (m.list_element_.length + 1) m.capacity_ = false := by
      simpa using hl
    obtain ⟨m2, hm2, -, -, hst2⟩ := stacked_insert_no_growth h.1 hst hz h.2 val 1 hl2
    have e : HashMap.insert_fuel 2 m val = some m1 := hm1
    rw [hm2] at e
    injection e with e
    rw [← e]; exact hst2

theorem stacked_insert_all : ∀ (L : List (K × V)) (m : HashMap K V), Inv m →
    StackedTo m m.list_element_.length → (∀ k, m.hasher_ k = 0) →
    ∃ m1, insert_all HashMap.insert L m = some m1 ∧ Inv m1 ∧
      StackedTo m1 m1.list_element_.length ∧ m1.sequence = m.sequence ++ L := by
  intro L
  induction L with
  | nil => intro m h hst _; exact ⟨m, rfl, h, hst, by simp⟩
  | cons x xs ih =>
    intro m h hst hz
    obtain ⟨m1, hm1, hp, hst1, hz1⟩ := stacked_insert h hst hz x
    obtain ⟨m2, hm2, hinv2, hst2, s2⟩ := ih m1 hp.inv hst1 hz1
    refine ⟨m2, by simp only [insert_all, hm1, hm2], hinv2, hst2, ?_⟩
    rw [s2, hp.sequence_eq, List.append_assoc]; rfl

/-! ## The backward shift of `erase`, slot by slot -/

theorem idx_shift {c : Nat} (p s : Nat) : ((p + 1) % c + s) % c = (p + (s + 1)) % c := by
  rw [Nat.mod_add_mod]
  congr 1
  omega

theorem idx_ne {c p s1 s2 : Nat} (h1 : s1 < c) (h2 : s2 < c) (hne : s1 ≠ s2) :
    (p + s1) % c ≠ (p + s2) % c := by
  intro h
  have h3 : Nat.ModEq c (p + s1) (p + s2) := h
  have h4 : Nat.ModEq c s1 s2 := Nat.ModEq.add_left_cancel' p h3
  have h5 : s1 % c = s2 % c := h4
  rw [Nat.mod_eq_of_lt h1, Nat.mod_eq_of_lt h2] at h5
  exact hne h5

theorem erase_loop_run : ∀ (r fuel : Nat) (m : HashMap K V) (p : Nat),
    p < m.capacity_ → m.dist_element_.length = m.capacity_ →
    m.used_element_.length = m.capacity_ → m.link_element_.length = m.capacity_ →
    r + 1 < m.capacity_ → m.dist p = 0 → m.used p = false →
    (∀ t, t < r → 1 < m.dist ((p + 1 + t) % m.capacity_)) →
    m.dist ((p + 1 + r) % m.capacity_) ≤ 1 → r < fuel →
    ∃ m1, HashMap.erase_loop fuel m (next_index m.capacity_ p) = some m1 ∧
      m1.list_element_ = m.list_element_ ∧ m1.capacity_ = m.capacity_ ∧
      m1.hasher_ = m.hasher_ ∧ m1.next_id_ = m.next_id_ ∧ ShiftedRun m m1 p r := by
  intro r
  induction r with
  | zero =>
    intro fuel m p hp _ _ _ _ hd0 hu0 _ hstop hf
    obtain ⟨f, rfl⟩ : ∃ f, fuel = f + 1 := ⟨fuel - 1, by omega⟩
    have hpos : next_index m.capacity_ p = (p + 1) % m.capacity_ := next_index_eq_mod hp
    unfold HashMap.erase_loop
    have hs : ¬ 1 < m.dist_element_.getD (next_index m.capacity_ p) 0 := by
      rw [hpos]
      have : m.dist ((p + 1 + 0) % m.capacity_) ≤ 1 := hstop
      rw [Nat.add_zero] at this
      exact Nat.not_lt.2 this
    rw [if_neg hs]
    refine ⟨m, rfl, rfl, rfl, rfl, rfl, ?_⟩
    intro t _
    refine ⟨fun h => by omega, ?_, fun _ => ⟨rfl, rfl, rfl⟩⟩
    intro e
    subst e
    rw [Nat.add_zero, Nat.mod_eq_of_lt hp]
    exact ⟨hd0, hu0, rfl⟩
  | succ r ih =>
    intro fuel m p hp hld hlu hll hcap hd0 hu0 hrun hstop hf
    obtain ⟨f, rfl⟩ : ∃ f, fuel = f + 1 := ⟨fuel - 1, by omega⟩
    have hc : 0 < m.capacity_ := by omega
    have hpos : next_index m.capacity_ p = (p + 1) % m.capacity_ := next_index_eq_mod hp
    have hposlt : (p + 1) % m.capacity_ < m.capacity_ := Nat.mod_lt _ hc
    have hp0 : (p + 0) % m.capacity_ = p := by rw [Nat.add_zero, Nat.mod_eq_of_lt hp]
    have hne : (p + 1) % m.capacity_ ≠ p := by
      have := idx_ne (p := p) (show 1 < m.capacity_ by omega) hc (by omega : (1 : Nat) ≠ 0)
      rw [hp0] at this
      exact this
    have hne2 : p ≠ (p + 1) % m.capacity_ := fun e => hne e.symm
    have hd1 : 1 < m.dist ((p + 1) % m.capacity_) := by
      have := hrun 0 (Nat.succ_pos _)
      rw [Nat.add_zero] at this
      exact this
    unfold HashMap.erase_loop
    have hd1b : 1 < m.dist_element_.getD (next_index m.capacity_ p) 0 := by
      rw [hpos]; exact hd1
    rw [if_pos hd1b, last_pos_eq (rfl : next_index m.capacity_ p = next_index m.capacity_ p)]
    simp only
    rw [hpos]
    have hdist : ∀ i, HashMap.dist ({ m with
        used_element_ := (m.used_element_.set ((p + 1) % m.capacity_) false).set p true
        link_element_ := m.link_element_.set p
          (m.link_element_.getD ((p + 1) % m.capacity_) Iter.singular)
        dist_element_ := (m.dist_element_.set p
          (m.dist_element_.getD ((p + 1) % m.capacity_) 0 - 1)).set
            ((p + 1) % m.capacity_) 0 } : HashMap K V) i
        = if i = (p + 1) % m.capacity_ then 0
          else if i = p then m.dist ((p + 1) % m.capacity_) - 1 else m.dist i := by
      intro i
      show ((m.dist_element_.set p (m.dist_element_.getD ((p + 1) % m.capacity_) 0 - 1)).set
        ((p + 1) % m.capacity_) 0).getD i 0 = _
      rw [getD_set _ _ _ _ _ (by rw [List.length_set, hld]; exact hposlt),
        getD_set _ _ _ _ _ (by rw [hld]; exact hp)]
      rfl
    have hused : ∀ i, HashMap.used ({ m with
        used_element_ := (m.used_element_.set ((p + 1) % m.capacity_) false).set p true
        link_element_ := m.link_element_.set p
          (m.link_element_.getD ((p + 1) % m.capacity_) Iter.singular)
        dist_element_ := (m.dist_element_.set p
          (m.dist_element_.getD ((p + 1) % m.capacity_) 0 - 1)).set
            ((p + 1) % m.capacity_) 0 } : HashMap K V) i
        = if i = p then true else if i = (p + 1) % m.capacity_ then false else m.used i := by
      intro i
      show ((m.used_element_.set ((p + 1) % m.capacity_) false).set p true).getD i false = _
      rw [getD_set _ _ _ _ _ (by rw [List.length_set, hlu]; exact hp),
        getD_set _ _ _ _ _ (by rw [hlu]; exact hposlt)]
      rfl
    have hlink : ∀ i, HashMap.link ({ m with
        used_element_ := (m.used_element_.set ((p + 1) % m.capacity_) false).set p true
        link_element_ := m.link_element_.set p
          (m.link_element_.getD ((p + 1) % m.capacity_) Iter.singular)
        dist_element_ := (m.dist_element_.set p
          (m.dist_element_.getD ((p + 1) % m.capacity_) 0 - 1)).set
            ((p + 1) % m.capacity_) 0 } : HashMap K V) i
        = if i = p then m.link ((p + 1) % m.capacity_) else m.link i := by
      intro i
      show (m.link_element_.set p
        (m.link_element_.getD ((p + 1) % m.capacity_) Iter.singular)).getD i Iter.singular = _
      rw [getD_set _ _ _ _ _ (by rw [hll]; exact hp)]
      rfl
    have hfar : ∀ s, 2 ≤ s → s < m.capacity_ →
        (p + s) % m.capacity_ ≠ p ∧ (p + s) % m.capacity_ ≠ (p + 1) % m.capacity_ := by
      intro s hs2 hsc
      constructor
      · have := idx_ne (p := p) hsc hc (by omega : s ≠ 0)
        rw [hp0] at this
        exact this
      · exact idx_ne hsc (by omega) (by omega)
    obtain ⟨m1, hm1, f1, f2, f3, f4, hsr⟩ := ih f ({ m with
        used_element_ := (m.used_element_.set ((p + 1) % m.capacity_) false).set p true
        link_element_ := m.link_element_.set p
          (m.link_element_.getD ((p + 1) % m.capacity_) Iter.singular)
        dist_element_ := (m.dist_element_.set p
          (m.dist_element_.getD ((p + 1) % m.capacity_) 0 - 1)).set
            ((p + 1) % m.capacity_) 0 } : HashMap K V) ((p + 1) % m.capacity_)
      hposlt (by simpa using hld) (by simpa using hlu) (by simpa using hll)
      (show r + 1 < m.capacity_ by omega)
      (by rw [hdist, if_pos rfl]) (by rw [hused, if_neg hne, if_pos rfl])
      (by
        intro t ht
        show 1 < HashMap.dist _ (((p + 1) % m.capacity_ + 1 + t) % m.capacity_)
        rw [Nat.add_assoc, idx_shift, hdist]
        obtain ⟨n1, n2⟩ := hfar (1 + t + 1) (by omega) (by omega)
        rw [if_neg n2, if_neg n1]
        have := hrun (t + 1) (by omega)
        rw [show p + 1 + (t + 1) = p + (1 + t + 1) by omega] at this
        exact this)
      (by
        show HashMap.dist _ (((p + 1) % m.capacity_ + 1 + r) % m.capacity_) ≤ 1
        rw [Nat.add_assoc, idx_shift, hdist]
        obtain ⟨n1, n2⟩ := hfar (1 + r + 1) (by omega) (by omega)
        rw [if_neg n2, if_neg n1]
        rw [show p + 1 + (r + 1) = p + (1 + r + 1) by omega] at hstop
        exact hstop)
      (by omega)
    refine ⟨m1, hm1, f1, f2, f3, f4, ?_⟩
    intro t ht
    unfold ShiftedRun at hsr
    dsimp only at hsr
    by_cases e0 : t = 0
    · subst e0
      have h3 := (hsr (m.capacity_ - 1) (by omega)).2.2 (by omega)
      have hidx : ((p + 1) % m.capacity_ + (m.capacity_ - 1)) % m.capacity_ = p := by
        rw [idx_shift, show p + (m.capacity_ - 1 + 1) = p + m.capacity_ by omega,
          Nat.add_mod_right, Nat.mod_eq_of_lt hp]
      rw [hidx] at h3
      rw [hdist, hused, hlink, if_neg hne2, if_pos rfl, if_pos rfl, if_pos rfl] at h3
      refine ⟨fun _ => ?_, fun h => by omega, fun h => by omega⟩
      rw [hp0, Nat.add_zero]
      exact ⟨h3.1, h3.2.2, h3.2.1⟩
    · obtain ⟨t', rfl⟩ : ∃ t', t = t' + 1 := ⟨t - 1, by omega⟩
      have hcl := hsr t' (by omega)
      have hj : ((p + 1) % m.capacity_ + t') % m.capacity_ = (p + (t' + 1)) % m.capacity_ :=
        idx_shift p t'
      have hj2 : ((p + 1) % m.capacity_ + t' + 1) % m.capacity_
          = (p + (t' + 1) + 1) % m.capacity_ := by
        rw [Nat.add_assoc, idx_shift]
        rfl
      simp only [hj, hj2] at hcl
      obtain ⟨c1, c2, c3⟩ := hcl
      refine ⟨fun h => ?_, fun h => ?_, fun h => ?_⟩
      · obtain ⟨a1, a2, a3⟩ := c1 (by omega)
        obtain ⟨n1, n2⟩ := hfar (t' + 1 + 1) (by omega) (by omega)
        rw [← Nat.add_assoc] at n1 n2
        rw [hdist, if_neg n2, if_neg n1] at a1
        rw [hlink, if_neg n1] at a2
        exact ⟨a1, a2, a3⟩
      · obtain ⟨a1, a2, a3⟩ := c2 (by omega)
        have n1 : (p + (t' + 1)) % m.capacity_ ≠ p := by
          have := idx_ne (p := p) (show t' + 1 < m.capacity_ by omega) hc (by omega)
          rw [hp0] at this
          exact this
        rw [hlink, if_neg n1] at a3
        exact ⟨a1, a2, a3⟩
      · obtain ⟨a1, a2, a3⟩ := c3 (by omega)
        obtain ⟨n1, n2⟩ := hfar (t' + 1) (by omega) (by omega)
        rw [hdist, if_neg n2, if_neg n1] at a1
        rw [hused, if_neg n1, if_neg n2] at a2
        rw [hlink, if_neg n1] at a3
        exact ⟨a1, a2, a3⟩

theorem erase_loop_mono_le (m : HashMap K V) (pos : Nat) (m1 : HashMap K V) (f : Nat)
    (h : HashMap.erase_loop f m pos = some m1) :
    ∀ d, HashMap.erase_loop (f + d) m pos = some m1 := by
  intro d
  induction d with
  | zero => exact h
  | succ d ih => exact erase_loop_mono (f + d) m pos m1 ih

/-- The result of the backward-shift loop does not depend on the fuel. -/
theorem erase_loop_unique (m : HashMap K V) (pos : Nat) {f1 f2 : Nat} {a b : HashMap K V}
    (h1 : HashMap.erase_loop f1 m pos = some a) (h2 : HashMap.erase_loop f2 m pos = some b) :
    a = b := by
  have e1 := erase_loop_mono_le m pos a f1 h1 f2
  have e2 := erase_loop_mono_le m pos b f2 h2 f1
  rw [Nat.add_comm] at e2
  rw [e1] at e2
  injection e2

/-- What `erase` of a present key does to every slot. -/
theorem erase_run_spec [DecidableEq K] {m : HashMap K V} (h : Inv m) (k : K)
    (hex : ∃ x, x ∈ m.list_element_ ∧ x.first = k) :
    ∃ i n m1 r, m.get_need_index k = some i ∧ i < m.capacity_ ∧ m.used i = true ∧
      n ∈ m.list_element_ ∧ m.link i = Iter.node n.id ∧ n.first = k ∧
      m.erase k = some m1 ∧ m1.capacity_ = m.capacity_ ∧
      m1.list_element_ = m.list_element_.eraseP (fun x => x.id == n.id) ∧
      r + 1 < m.capacity_ ∧
      (∀ t, t < r → 1 < m.dist ((i + 1 + t) % m.capacity_)) ∧
      m.dist ((i + 1 + r) % m.capacity_) ≤ 1 ∧ ShiftedRun m m1 i r := by
  obtain ⟨x, hx, hxk⟩ := hex
  obtain ⟨i, hgi, hloc, hcase⟩ := erase_spec h k
  have hi := hloc.1
  rcases hcase with ⟨hu, -⟩ | ⟨hu, n, m1, hn, hl, hk, he, -, hlist, hcap, -⟩
  · rcases hloc.2 with ⟨-, hno⟩ | ⟨hu2, -⟩
    · exact absurd hxk (hno x hx)
    · rw [hu] at hu2; cases hu2
  · have hb := h.1.base
    have hc := hb.cap_pos
    have hdi : 0 < m.dist i := (hb.used_iff i hi).1 hu
    -- the run after slot `i`
    obtain ⟨e, he1, he0⟩ := exists_unused hb h.2
    have hei : e ≠ i := by intro hh; rw [hh] at he0; omega
    obtain ⟨s, hs, hse⟩ := exists_offset hi he1
    have hs0 : s ≠ 0 := by
      intro hh
      rw [hh, Nat.add_zero, Nat.mod_eq_of_lt hi] at hse
      exact hei hse.symm
    have hP : ∃ t, m.dist ((i + 1 + t) % m.capacity_) ≤ 1 := by
      refine ⟨s - 1, ?_⟩
      rw [show i + 1 + (s - 1) = i + s by omega, hse, he0]
      exact Nat.zero_le _
    have hmin : ∀ t, t < Nat.find hP → 1 < m.dist ((i + 1 + t) % m.capacity_) := by
      intro t ht
      exact Nat.lt_of_not_le (Nat.find_min hP ht)
    have hstop : m.dist ((i + 1 + Nat.find hP) % m.capacity_) ≤ 1 := Nat.find_spec hP
    have hrle : Nat.find hP ≤ s - 1 := Nat.find_min' hP (by
      rw [show i + 1 + (s - 1) = i + s by omega, hse, he0]
      exact Nat.zero_le _)
    have hr1 : Nat.find hP + 1 < m.capacity_ := by omega
    generalize Nat.find hP = r at hmin hstop hrle hr1
    -- the table after the first statements of `erase`
    have hdist : ∀ j, HashMap.dist ({ m with
        list_element_ := m.list_element_.eraseP (fun x => x.id == n.id)
        dist_element_ := m.dist_element_.set i 0
        used_element_ := m.used_element_.set i false } : HashMap K V) j
        = if j = i then 0 else m.dist j :=
      fun j => getD_set _ _ _ _ _ (by rw [hb.len_dist]; exact hi)
    have hused : ∀ j, HashMap.used ({ m with
        list_element_ := m.list_element_.eraseP (fun x => x.id == n.id)
        dist_element_ := m.dist_element_.set i 0
        used_element_ := m.used_element_.set i false } : HashMap K V) j
        = if j = i then false else m.used j :=
      fun j => getD_set _ _ _ _ _ (by rw [hb.len_used]; exact hi)
    have hoff : ∀ t, 0 < t → t < m.capacity_ → (i + t) % m.capacity_ ≠ i := by
      intro t h0 ht
      have := idx_ne (p := i) ht hc (by omega : t ≠ 0)
      rw [Nat.add_zero, Nat.mod_eq_of_lt hi] at this
      exact this
    obtain ⟨m2, hm2, -, -, -, -, hsr⟩ := erase_loop_run r (r + 1) ({ m with
        list_element_ := m.list_element_.eraseP (fun x => x.id == n.id)
        dist_element_ := m.dist_element_.set i 0
        used_element_ := m.used_element_.set i false } : HashMap K V) i hi
      (by simpa using hb.len_dist) (by simpa using hb.len_used) hb.len_link
      (show r + 1 < m.capacity_ from hr1)
      (by rw [hdist, if_pos rfl]) (by rw [hused, if_pos rfl])
      (by
        intro t ht
        show 1 < HashMap.dist _ ((i + 1 + t) % m.capacity_)
        rw [hdist, Nat.add_assoc, if_neg (hoff (1 + t) (by omega) (by omega)),
          ← Nat.add_assoc]
        exact hmin t ht)
      (by
        show HashMap.dist _ ((i + 1 + r) % m.capacity_) ≤ 1
        rw [hdist, Nat.add_assoc, if_neg (hoff (1 + r) (by omega) (by omega)),
          ← Nat.add_assoc]
        exact hstop)
      (Nat.lt_succ_self _)
    -- `erase` runs the same loop
    have he2 := he
    unfold HashMap.erase at he2
    rw [hgi] at he2
    have hu2 : m.used_element_.getD i false = true := hu
    have hl2 : m.link_element_.getD i Iter.singular = Iter.node n.id := hl
    have hany : m.list_element_.any (fun x => x.id == n.id) = true := by
      rw [List.any_eq_true]
      exact ⟨n, hn, by simp⟩
    simp only [hu2, if_true, hl2, hany] at he2
    have hsame : m2 = m1 := erase_loop_unique _ _ hm2 he2
    rw [hsame] at hsr
    refine ⟨i, n, m1, r, hgi, hi, hu, hn, hl, hk, he, hcap, hlist, hr1, hmin, hstop, ?_⟩
    unfold ShiftedRun at hsr ⊢
    dsimp only at hsr
    intro t ht
    obtain ⟨c1, c2, c3⟩ := hsr t ht
    refine ⟨fun hlt => ?_, c2, fun hgt => ?_⟩
    · obtain ⟨a1, a2, a3⟩ := c1 hlt
      rw [hdist, Nat.add_assoc, if_neg (hoff (t + 1) (by omega) (by omega)),
        ← Nat.add_assoc] at a1
      exact ⟨a1, a2, a3⟩
    · obtain ⟨a1, a2, a3⟩ := c3 hgt
      rw [hdist, if_neg (hoff t (by omega) ht)] at a1
      rw [hused, if_neg (hoff t (by omega) ht)] at a2
      exact ⟨a1, a2, a3⟩

/-- In a state satisfying the invariant the three probe loops stop within the bounds that
the model gives them. -/
theorem probe_loops_return [DecidableEq K] {m : HashMap K V} (h : Inv m) :
    1 ≤ m.capacity_ ∧ m.list_element_.length < m.capacity_ ∧
      (∃ j, j < m.capacity_ ∧ m.used j = false ∧ m.dist j = 0) ∧
      (∀ k : K, ∃ i, i < m.capacity_ ∧
        m.get_need_index_loop k m.capacity_ (m.hasher_ k % m.capacity_) = some i) ∧
      (∀ val : K × V, ∃ m2, HashMap.insert_loop m.capacity_
        ({ m with
          list_element_ := m.list_element_ ++ [⟨m.next_id_, val.1, val.2⟩]
          next_id_ := m.next_id_ + 1 } : HashMap K V)
        (m.hasher_ val.1 % m.capacity_) 1 (Iter.node m.next_id_) = some m2) ∧
      (∀ k : K, ∃ m1, m.erase k = some m1) := by
  have hb := h.1.base
  refine ⟨hb.cap_pos, h.2, ?_, ?_, ?_, ?_⟩
  · obtain ⟨j, hj, hj0⟩ := exists_unused hb h.2
    refine ⟨j, hj, ?_, hj0⟩
    cases hu : m.used j with
    | false => rfl
    | true =>
      have := (hb.used_iff j hj).1 hu
      omega
  · intro k
    obtain ⟨i, hgi, hloc⟩ := get_need_index_spec h k
    unfold HashMap.get_need_index at hgi
    rw [if_neg (by have := hb.cap_pos; omega)] at hgi
    exact ⟨i, hloc.1, hgi⟩
  · intro val
    obtain ⟨m2, hm2, -, -⟩ := place_spec h.1 h.2 val
    exact ⟨m2, hm2⟩
  · intro k
    obtain ⟨i, -, -, hc⟩ := erase_spec h k
    rcases hc with ⟨-, he⟩ | ⟨-, n, m1, -, -, -, he, -⟩
    · exact ⟨m, he⟩
    · exact ⟨m1, he⟩

/-! ## Claims on the table -/

theorem demo_xyz_reachable : Reachable demo_xyz :=
  Reachable.insert demo_xy (3, "z") demo_xyz
    (Reachable.insert demo_x (2, "y") demo_xy
      (Reachable.insert (HashMap.new zero_hash 1) (1, "x") demo_x
        (Reachable.new zero_hash 1 (by norm_num)) rfl) rfl) rfl

/-- Counterexample to C11 as stated: the map constructed with the capacity argument
29433734 and filled by 16777229 inserts has capacity 29433735 and has never reached the
`float` growth test, yet 16777229 / 29433735 is not below 57 / 100. -/
theorem load_bound_fails_large :
    Reachable demo_full ∧ demo_full.capacity_ = 29433735 ∧ demo_full.size = 16777229 ∧
      load_reached 16777229 29433735 = false ∧
      ¬ (100 * demo_full.size < 57 * demo_full.capacity_) := by
  obtain ⟨h1, h2, h3⟩ := demo_fill_spec (HashMap.new demo_hash 29433734)
    (Reachable.new demo_hash 29433734 (by norm_num)) 16777229 (by decide)
  have e2 : demo_full.size = 16777229 := h2
  have e3 : demo_full.capacity_ = 29433735 := h3
  refine ⟨h1, e3, e2, by decide, ?_⟩
  rw [e2, e3]
  decide

/-- Claim C11, amended: in every state reachable from a constructor whose capacity
argument is below `SIZE_MAX` (the states of `Reachable`) the `float` growth test of
`insert` is not met, so `size < capacity` and `size / capacity < 0.570001`; the ratio is below the
exact rational `57 / 100` whenever the capacity is below `2 ^ 24`. -/
theorem load_bound [DecidableEq K] [Inhabited V] (m : HashMap K V) (hm : Reachable m) :
    load_reached m.size m.capacity_ = false ∧ m.size < m.capacity_ ∧
      1000000 * m.size < 570001 * m.capacity_ ∧
      (m.capacity_ < 2 ^ 24 → 100 * m.size < 57 * m.capacity_) :=
  ⟨hm.not_loaded, ratio_bounds hm.not_loaded⟩

/-- Witness of the amended C11 on the map holding `(1, "a")` and `(1, "b")`. -/
theorem load_bound_witness :
    Reachable demo_two ∧
    (load_reached demo_two.size demo_two.capacity_ = false ∧
      demo_two.size < demo_two.capacity_ ∧
      1000000 * demo_two.size < 570001 * demo_two.capacity_ ∧
      (demo_two.capacity_ < 2 ^ 24 → 100 * demo_two.size < 57 * demo_two.capacity_)) :=
  ⟨demo_two_reachable, load_bound demo_two demo_two_reachable⟩

/-- Claim C12: whenever an `insert` in a reachable state reaches the load factor with `n`
entries (the new one counted), it returns with capacity `3 * n + 1` and `n` entries, and
the table was rebuilt once: the result is that of `rebuild` on the table with the new
entry placed, whose reinsertions run without a further `rebuild`, because no size up to
`n` reaches the load factor at the capacity `3 * n + 1`. -/
theorem growth_once [DecidableEq K] [Inhabited V] (m : HashMap K V) (hm : Reachable m)
    (val : K × V) (hg : load_reached (m.size + 1) m.capacity_ = true) :
    ∃ m1 m2 : HashMap K V, m.insert val = some m1 ∧ m1.capacity_ = 3 * (m.size + 1) + 1 ∧
      m1.size = m.size + 1 ∧ 1 ≤ m1.size ∧
      m2.sequence = m.sequence ++ [val] ∧ m2.capacity_ = m.capacity_ ∧
      m2.rebuild = some m1 ∧
      (∀ k, k ≤ m.size + 1 → load_reached k (3 * (m.size + 1) + 1) = false) := by
  obtain ⟨m1, hm1, hp⟩ := insert_spec hm.inv val
  obtain ⟨m2, hm2, hinv2, happ⟩ := place_spec hm.inv.1 hm.inv.2 val
  have hseq := sequence_of_appended happ
  obtain ⟨a1, a2, a3, a4⟩ := happ
  have hlen : m2.list_element_.length = m.list_element_.length + 1 := by
    rw [a1, List.length_append, List.length_singleton]
  have hreb : m2.rebuild = some m1 := by
    have e := hm1
    unfold HashMap.insert at e
    rw [insert_fuel_succ, if_neg (by have := hm.inv.1.base.cap_pos; omega), hm2] at e
    simp only at e
    have hg1 : load_reached (m.list_element_.length + 1) m.capacity_ = true := hg
    rw [hlen, a2, if_pos hg1] at e
    exact e
  refine ⟨m1, m2, hm1, ?_, hp.length_eq, ?_, hseq, a2, hreb, ?_⟩
  · rw [(hp.growth hg).1]
    show (m.list_element_.length + 1) * 3 + 1 = 3 * (m.list_element_.length + 1) + 1
    omega
  · show 1 ≤ m1.list_element_.length
    rw [hp.length_eq]; omega
  · intro k hk
    rw [show 3 * (m.size + 1) + 1 = (m.size + 1) * 3 + 1 by omega]
    exact load_reached_triple hk

/-- Witness of C12 on the map holding `(1, "a")`, for `insert({2, "b"})`. -/
theorem growth_once_witness :
    Reachable demo_one ∧ load_reached (demo_one.size + 1) demo_one.capacity_ = true ∧
    ∃ m1 m2 : HashMap Nat String, demo_one.insert (2, "b") = some m1 ∧
      m1.capacity_ = 3 * (demo_one.size + 1) + 1 ∧
      m1.size = demo_one.size + 1 ∧ 1 ≤ m1.size ∧
      m2.sequence = demo_one.sequence ++ [(2, "b")] ∧ m2.capacity_ = demo_one.capacity_ ∧
      m2.rebuild = some m1 ∧
      (∀ k, k ≤ demo_one.size + 1 → load_reached k (3 * (demo_one.size + 1) + 1) = false) :=
  ⟨demo_one_reachable, by decide,
    growth_once demo_one demo_one_reachable (2, "b") (by decide)⟩

/-- Counterexample to C13 as stated: one `insert` into a default-constructed map (capacity
2) leaves 1 entry, which is at least `floor(0.57 * 2) = 1`, and the table is not rebuilt:
the capacity stays 2 and the node keeps its identity. -/
theorem first_insert_no_growth :
    demo_new.capacity_ = 2 ∧ demo_new.insert (1, "a") = some demo_one ∧
      demo_one.size = 1 ∧ 57 * demo_new.capacity_ / 100 = 1 ∧
      57 * demo_new.capacity_ / 100 ≤ demo_one.size ∧
      load_reached 1 2 = false ∧ demo_one.capacity_ = 2 ∧
      demo_one.list_element_ = [⟨0, 1, "a"⟩] :=
  ⟨by decide, rfl, by decide, by decide, by decide, by decide, by decide, by decide⟩

/-- Claim C13, amended: in every reachable state `insert` calls `rebuild` exactly when
`size >= LOAD_FACTOR * capacity_` holds in `float` arithmetic for the size that counts
the new entry (no floor is taken): then the capacity becomes `3 * size + 1` and every
node is new; otherwise the capacity is kept and the new node is appended to the old
ones. For capacities up to `2 ^ 17` the test is exactly `57 * capacity <= 100 * size`,
so one insert into a default-constructed map (1 < 1.14) does not grow the table. -/
theorem growth_trigger [DecidableEq K] [Inhabited V] (m : HashMap K V) (hm : Reachable m)
    (val : K × V) :
    ∃ m1, m.insert val = some m1 ∧
      (load_reached (m.size + 1) m.capacity_ = true →
        m1.capacity_ = (m.size + 1) * 3 + 1 ∧
        ∀ n, n ∈ m1.list_element_ → m.next_id_ < n.id) ∧
      (load_reached (m.size + 1) m.capacity_ = false →
        m1.capacity_ = m.capacity_ ∧
        m1.list_element_ = m.list_element_ ++ [⟨m.next_id_, val.1, val.2⟩]) ∧
      (m.capacity_ < 2 ^ 24 → 57 * m.capacity_ ≤ 100 * (m.size + 1) →
        load_reached (m.size + 1) m.capacity_ = true) ∧
      (m.capacity_ ≤ 2 ^ 17 →
        (load_reached (m.size + 1) m.capacity_ = true ↔
          57 * m.capacity_ ≤ 100 * (m.size + 1))) := by
  obtain ⟨m1, hm1, hp⟩ := insert_spec hm.inv val
  refine ⟨m1, hm1, hp.growth, ?_, fun hc hr => load_reached_of_ratio hc hr, ?_⟩
  · intro hl
    obtain ⟨a1, a2, -, -⟩ := hp.no_growth hl
    exact ⟨a2, a1⟩
  · intro hc
    exact ⟨ratio_of_load_reached hc, load_reached_of_ratio (by omega)⟩

/-- Witness of the amended C13 on the default-constructed map, for `insert({1, "a"})`. -/
theorem growth_trigger_witness :
    Reachable demo_new ∧
    ∃ m1, demo_new.insert (1, "a") = some m1 ∧
      (load_reached (demo_new.size + 1) demo_new.capacity_ = true →
        m1.capacity_ = (demo_new.size + 1) * 3 + 1 ∧
        ∀ n, n ∈ m1.list_element_ → demo_new.next_id_ < n.id) ∧
      (load_reached (demo_new.size + 1) demo_new.capacity_ = false →
        m1.capacity_ = demo_new.capacity_ ∧
        m1.list_element_ = demo_new.list_element_ ++ [⟨demo_new.next_id_, 1, "a"⟩]) ∧
      (demo_new.capacity_ < 2 ^ 24 → 57 * demo_new.capacity_ ≤ 100 * (demo_new.size + 1) →
        load_reached (demo_new.size + 1) demo_new.capacity_ = true) ∧
      (demo_new.capacity_ ≤ 2 ^ 17 →
        (load_reached (demo_new.size + 1) demo_new.capacity_ = true ↔
          57 * demo_new.capacity_ ≤ 100 * (demo_new.size + 1))) :=
  ⟨demo_new_reachable, growth_trigger demo_new demo_new_reachable (1, "a")⟩

/-- Claim C14: in every reachable state every used slot holds an iterator to a node of
the list, every node of the list is held by exactly one used slot, node identities are
unique, and the number of used slots equals `size()`. -/
theorem index_entry_bijection [DecidableEq K] [Inhabited V] (m : HashMap K V)
    (hm : Reachable m) :
    (∀ i, i < m.capacity_ → m.used i = true →
      ∃ n, n ∈ m.list_element_ ∧ m.link i = Iter.node n.id ∧ m.deref (m.link i) = some n) ∧
    (∀ n, n ∈ m.list_element_ →
      ∃ i, i < m.capacity_ ∧ m.used i = true ∧ m.link i = Iter.node n.id ∧
        ∀ j, j < m.capacity_ → m.used j = true → m.link j = Iter.node n.id → j = i) ∧
    (m.list_element_.map Node.id).Nodup ∧
    m.used_element_.length = m.capacity_ ∧
    m.used_element_.count true = m.size := by
  have h := hm.inv
  have hb := h.1.base
  refine ⟨?_, ?_, hb.ids_nodup, hb.len_used, used_count_eq_size h⟩
  · intro i hi hu
    obtain ⟨n, hn, hl, hd, -⟩ := hb.deref_link hi ((hb.used_iff i hi).1 hu)
    exact ⟨n, hn, hl, hd⟩
  · intro n hn
    obtain ⟨i, hi, hdi, hli⟩ := h.1.link_surj n hn
    refine ⟨i, hi, (hb.used_iff i hi).2 hdi, hli, ?_⟩
    intro j hj hu hlj
    exact hb.link_inj j i hj hi ((hb.used_iff j hj).1 hu) hdi (by rw [hlj, hli])

/-- Witness of C14 on the map built with an `erase`. -/
theorem index_entry_bijection_witness :
    Reachable demo_shifted ∧
    ((∀ i, i < demo_shifted.capacity_ → demo_shifted.used i = true →
      ∃ n, n ∈ demo_shifted.list_element_ ∧ demo_shifted.link i = Iter.node n.id ∧
        demo_shifted.deref (demo_shifted.link i) = some n) ∧
    (∀ n, n ∈ demo_shifted.list_element_ →
      ∃ i, i < demo_shifted.capacity_ ∧ demo_shifted.used i = true ∧
        demo_shifted.link i = Iter.node n.id ∧
        ∀ j, j < demo_shifted.capacity_ → demo_shifted.used j = true →
          demo_shifted.link j = Iter.node n.id → j = i) ∧
    (demo_shifted.list_element_.map Node.id).Nodup ∧
    demo_shifted.used_element_.length = demo_shifted.capacity_ ∧
    demo_shifted.used_element_.count true = demo_shifted.size) :=
  ⟨demo_shifted_reachable, index_entry_bijection demo_shifted demo_shifted_reachable⟩

/-- Claim C15: in every reachable state, for every used slot `i` holding the key `k` with
distance `d`, the slot lies `d - 1` places after the home `hash(k) mod capacity`, every
slot of the probe path at depth `t` (`1 <= t <= d`) is used with distance at least `t`,
and if `d > 1` the cyclic predecessor of `i` is used with distance at least `d - 1`. -/
theorem robin_hood_order [DecidableEq K] [Inhabited V] (m : HashMap K V) (hm : Reachable m)
    (i : Nat) (hi : i < m.capacity_) (hu : m.used i = true) :
    ∃ n, n ∈ m.list_element_ ∧ m.link i = Iter.node n.id ∧
      (m.hasher_ n.first % m.capacity_ + (m.dist i - 1)) % m.capacity_ = i ∧
      (∀ t, 1 ≤ t → t ≤ m.dist i →
        m.used ((m.hasher_ n.first % m.capacity_ + (t - 1)) % m.capacity_) = true ∧
        t ≤ m.dist ((m.hasher_ n.first % m.capacity_ + (t - 1)) % m.capacity_)) ∧
      (1 < m.dist i →
        m.used (if i = 0 then m.capacity_ - 1 else i - 1) = true ∧
        m.dist i - 1 ≤ m.dist (if i = 0 then m.capacity_ - 1 else i - 1)) := by
  have h := hm.inv
  have hb := h.1.base
  have hc := hb.cap_pos
  have hd := (hb.used_iff i hi).1 hu
  obtain ⟨n, hn, hl, hh⟩ := hb.link_valid i hi hd
  refine ⟨n, hn, hl, by rw [Nat.mod_add_mod]; exact hh, ?_, ?_⟩
  · intro t ht1 htd
    have hdist : m.dist ((m.hasher_ n.first + (m.dist i - 1)) % m.capacity_) = m.dist i := by
      rw [hh]
    have hp := path_used_at hc h.1.robin (m.hasher_ n.first) (m.dist i) hdist (t - 1)
      (by omega)
    rw [Nat.mod_add_mod]
    refine ⟨(hb.used_iff _ (Nat.mod_lt _ hc)).2 (by omega), by omega⟩
  · intro h1
    have hpl : (if i = 0 then m.capacity_ - 1 else i - 1) < m.capacity_ := by
      split_ifs <;> omega
    have hnx : next_index m.capacity_ (if i = 0 then m.capacity_ - 1 else i - 1) = i := by
      unfold next_index
      split_ifs <;> omega
    have hr := h.1.robin _ hpl
    rw [hnx] at hr
    exact ⟨(hb.used_iff _ hpl).2 (by omega), by omega⟩

/-- Witness of C15 on the map of three colliding keys, for slot 2. -/
theorem robin_hood_order_witness :
    Reachable demo_xyz ∧ 2 < demo_xyz.capacity_ ∧ demo_xyz.used 2 = true ∧
    ∃ n, n ∈ demo_xyz.list_element_ ∧ demo_xyz.link 2 = Iter.node n.id ∧
      (demo_xyz.hasher_ n.first % demo_xyz.capacity_ + (demo_xyz.dist 2 - 1))
        % demo_xyz.capacity_ = 2 ∧
      (∀ t, 1 ≤ t → t ≤ demo_xyz.dist 2 →
        demo_xyz.used ((demo_xyz.hasher_ n.first % demo_xyz.capacity_ + (t - 1))
          % demo_xyz.capacity_) = true ∧
        t ≤ demo_xyz.dist ((demo_xyz.hasher_ n.first % demo_xyz.capacity_ + (t - 1))
          % demo_xyz.capacity_)) ∧
      (1 < demo_xyz.dist 2 →
        demo_xyz.used (if 2 = 0 then demo_xyz.capacity_ - 1 else 2 - 1) = true ∧
        demo_xyz.dist 2 - 1 ≤ demo_xyz.dist (if 2 = 0 then demo_xyz.capacity_ - 1 else 2 - 1)) :=
  ⟨demo_xyz_reachable, by decide, by decide,
    robin_hood_order demo_xyz demo_xyz_reachable 2 (by decide) (by decide)⟩

/-- Claim C16: in every reachable state a slot is used exactly when its distance is at
least 1, an unused slot has distance 0, and a used slot `i` with distance `d` holds an
iterator to a node of the list whose key `k` satisfies
`i = (hash(k) + d - 1) mod capacity`. -/
theorem slot_metadata [DecidableEq K] [Inhabited V] (m : HashMap K V) (hm : Reachable m)
    (i : Nat) (hi : i < m.capacity_) :
    (m.used i = true ↔ 1 ≤ m.dist i) ∧ (m.used i = false → m.dist i = 0) ∧
    (m.used i = true →
      ∃ n, n ∈ m.list_element_ ∧ m.link i = Iter.node n.id ∧
        m.deref (m.link i) = some n ∧
        i = (m.hasher_ n.first + m.dist i - 1) % m.capacity_) := by
  have hb := hm.inv.1.base
  refine ⟨hb.used_iff i hi, ?_, ?_⟩
  · intro hu
    by_contra hne
    have := (hb.used_iff i hi).2 (by omega)
    rw [hu] at this; cases this
  · intro hu
    have hd := (hb.used_iff i hi).1 hu
    obtain ⟨n, hn, hl, hdr, hh⟩ := hb.deref_link hi hd
    refine ⟨n, hn, hl, hdr, ?_⟩
    rw [show m.hasher_ n.first + m.dist i - 1 = m.hasher_ n.first + (m.dist i - 1) by omega]
    exact hh.symm

/-- Witness of C16 on the map built with an `erase`, for slot 2. -/
theorem slot_metadata_witness :
    Reachable demo_shifted ∧ 2 < demo_shifted.capacity_ ∧
    ((demo_shifted.used 2 = true ↔ 1 ≤ demo_shifted.dist 2) ∧
    (demo_shifted.used 2 = false → demo_shifted.dist 2 = 0) ∧
    (demo_shifted.used 2 = true →
      ∃ n, n ∈ demo_shifted.list_element_ ∧ demo_shifted.link 2 = Iter.node n.id ∧
        demo_shifted.deref (demo_shifted.link 2) = some n ∧
        2 = (demo_shifted.hasher_ n.first + demo_shifted.dist 2 - 1)
          % demo_shifted.capacity_)) :=
  ⟨demo_shifted_reachable, by decide,
    slot_metadata demo_shifted demo_shifted_reachable 2 (by decide)⟩

/-- The default-constructed map is stacked to 0: no slot is used. -/
theorem stacked_new (hasher : K → Nat) :
    StackedTo (HashMap.new hasher 1 : HashMap K V)
      (HashMap.new hasher 1 : HashMap K V).list_element_.length := by
  intro j hj
  have hj2 : j < 2 := hj
  refine ⟨fun h => absurd h (Nat.not_lt_zero j), fun _ => ?_⟩
  interval_cases j
  · exact ⟨rfl, rfl⟩
  · exact ⟨rfl, rfl⟩

/-- Claim C17: with the hasher that maps every key to 0, the inserts of any list of
entries, one by one, into a default-constructed map all return, the iteration sequence
is the insertion order, slot `j` below the number of entries is used by the `j`-th
inserted entry with distance `j + 1`, and every other slot is unused with distance 0;
for the keys 1, 2, 3 with the values "x", "y", "z" the capacity is 7, the distances
1, 2, 3 sit in the slots 0, 1, 2, and `at` returns "x", "y", "z". -/
theorem total_collision :
    (∀ L : List (K × V), ∃ m : HashMap K V,
      insert_all HashMap.insert L (HashMap.new (fun _ => 0) 1) = some m ∧
      m.sequence = L ∧ m.size = L.length ∧ L.length < m.capacity_ ∧
      ∀ j, j < m.capacity_ →
        (j < L.length → m.used j = true ∧ m.dist j = j + 1 ∧
          ∃ n, m.list_element_[j]? = some n ∧ m.deref (m.link j) = some n ∧
            L[j]? = some (n.first, n.second)) ∧
        (L.length ≤ j → m.used j = false ∧ m.dist j = 0)) ∧
    (insert_all HashMap.insert [(1, "x"), (2, "y"), (3, "z")] (HashMap.new zero_hash 1)
        = some demo_xyz ∧
      demo_xyz.capacity_ = 7 ∧ demo_xyz.dist_element_ = [1, 2, 3, 0, 0, 0, 0] ∧
      demo_xyz.used_element_ = [true, true, true, false, false, false, false] ∧
      demo_xyz.sequence = [(1, "x"), (2, "y"), (3, "z")] ∧
      demo_xyz.at_ 1 = some (Result.ok "x") ∧ demo_xyz.at_ 2 = some (Result.ok "y") ∧
      demo_xyz.at_ 3 = some (Result.ok "z")) := by
  refine ⟨?_, rfl, by decide, by decide, by decide, by decide, by decide, by decide,
    by decide⟩
  intro L
  obtain ⟨m, hm, hinv, hst, hseq⟩ := stacked_insert_all L
    (HashMap.new (fun _ => 0) 1 : HashMap K V) (Inv_new _ 1 (by norm_num))
    (stacked_new _) (fun _ => rfl)
  have hseq1 : m.sequence = L := by
    rw [hseq]
    show [] ++ L = L
    rfl
  have hlen : m.list_element_.length = L.length := by
    rw [← hseq1]
    exact (List.length_map _ _).symm
  refine ⟨m, hm, hseq1, hlen, by rw [← hlen]; exact hinv.2, ?_⟩
  intro j hj
  obtain ⟨h1, h2⟩ := hst j hj
  rw [hlen] at h1 h2
  refine ⟨fun hjl => ?_, fun hjl => ⟨(h2 hjl).2, (h2 hjl).1⟩⟩
  obtain ⟨hd, hu, n, hn, hl⟩ := h1 hjl
  refine ⟨hu, hd, n, hn, ?_, ?_⟩
  · rw [hl]
    exact deref_of_mem hinv.1.base (List.getElem?_mem hn)
  · rw [← hseq1]
    show (m.list_element_.map Node.pair)[j]? = some (n.first, n.second)
    rw [List.getElem?_map, hn]
    rfl

/-- Claim C18: in every reachable state, `erase(k)` of a present key `k` found at slot
`i` returns; with `r` the length of the maximal run of slots after `i` (cyclically) whose
distance is above 1, the slot `t < r` places after `i` then holds the iterator of the slot
after it with the distance lowered by 1, the slot `r` places after `i` is unused with
distance 0, the slot that follows the run has distance at most 1, and every other slot is
unchanged.  In the table of the keys 1, 2, 3 that all hash to 0, `erase(1)` leaves key 2
in slot 0 with distance 1, key 3 in slot 1 with distance 2, slot 2 unused, and the
sequence `[(2, "y"), (3, "z")]`. -/
theorem backward_shift [DecidableEq K] [Inhabited V] :
    (∀ (m : HashMap K V) (k : K), Reachable m →
      (∃ x, x ∈ m.list_element_ ∧ x.first = k) →
      ∃ (i : Nat) (n : Node K V) (m1 : HashMap K V) (r : Nat),
        m.get_need_index k = some i ∧ i < m.capacity_ ∧ m.used i = true ∧
        m.deref (m.link i) = some n ∧ n.first = k ∧
        m.erase k = some m1 ∧ m1.capacity_ = m.capacity_ ∧
        m1.list_element_ = m.list_element_.eraseP (fun x => x.id == n.id) ∧
        r + 1 < m.capacity_ ∧
        (∀ t, t < r → 1 < m.dist ((i + 1 + t) % m.capacity_)) ∧
        m.dist ((i + 1 + r) % m.capacity_) ≤ 1 ∧
        ∀ t, t < m.capacity_ →
          (t < r →
            m1.dist ((i + t) % m.capacity_) = m.dist ((i + t + 1) % m.capacity_) - 1 ∧
            m1.link ((i + t) % m.capacity_) = m.link ((i + t + 1) % m.capacity_) ∧
            m1.used ((i + t) % m.capacity_) = true) ∧
          (t = r →
            m1.dist ((i + t) % m.capacity_) = 0 ∧
            m1.used ((i + t) % m.capacity_) = false) ∧
          (r < t →
            m1.dist ((i + t) % m.capacity_) = m.dist ((i + t) % m.capacity_) ∧
            m1.used ((i + t) % m.capacity_) = m.used ((i + t) % m.capacity_) ∧
            m1.link ((i + t) % m.capacity_) = m.link ((i + t) % m.capacity_))) ∧
    (demo_xyz.erase 1 = some demo_xyz_erased ∧
      demo_xyz_erased.dist_element_ = [1, 2, 0, 0, 0, 0, 0] ∧
      demo_xyz_erased.used_element_ = [true, true, false, false, false, false, false] ∧
      (demo_xyz_erased.deref (demo_xyz_erased.link 0)).map Node.pair = some (2, "y") ∧
      (demo_xyz_erased.deref (demo_xyz_erased.link 1)).map Node.pair = some (3, "z") ∧
      demo_xyz_erased.sequence = [(2, "y"), (3, "z")]) := by
  refine ⟨?_, rfl, by decide, by decide, by decide, by decide, by decide⟩
  intro m k hm hex
  obtain ⟨i, n, m1, r, h1, h2, h3, h4, h5, h6, h7, h8, h9, h10, h11, h12, h13⟩ :=
    erase_run_spec hm.inv k hex
  refine ⟨i, n, m1, r, h1, h2, h3, ?_, h6, h7, h8, h9, h10, h11, h12, ?_⟩
  · rw [h5]
    exact deref_of_mem hm.inv.1.base h4
  · intro t ht
    obtain ⟨a, b, c⟩ := h13 t ht
    exact ⟨a, fun e => ⟨(b e).1, (b e).2.1⟩, c⟩

/-- Witness of C18 on the table of the keys 1, 2, 3 that all hash to 0, for `erase(1)`. -/
theorem backward_shift_witness :
    Reachable demo_xyz ∧ (∃ x, x ∈ demo_xyz.list_element_ ∧ x.first = 1) ∧
    ∃ (i : Nat) (n : Node Nat String) (m1 : HashMap Nat String) (r : Nat),
      demo_xyz.get_need_index 1 = some i ∧ i < demo_xyz.capacity_ ∧
      demo_xyz.used i = true ∧
      demo_xyz.deref (demo_xyz.link i) = some n ∧ n.first = 1 ∧
      demo_xyz.erase 1 = some m1 ∧ m1.capacity_ = demo_xyz.capacity_ ∧
      m1.list_element_ = demo_xyz.list_element_.eraseP (fun x => x.id == n.id) ∧
      r + 1 < demo_xyz.capacity_ ∧
      (∀ t, t < r → 1 < demo_xyz.dist ((i + 1 + t) % demo_xyz.capacity_)) ∧
      demo_xyz.dist ((i + 1 + r) % demo_xyz.capacity_) ≤ 1 ∧
      ∀ t, t < demo_xyz.capacity_ →
        (t < r →
          m1.dist ((i + t) % demo_xyz.capacity_)
            = demo_xyz.dist ((i + t + 1) % demo_xyz.capacity_) - 1 ∧
          m1.link ((i + t) % demo_xyz.capacity_)
            = demo_xyz.link ((i + t + 1) % demo_xyz.capacity_) ∧
          m1.used ((i + t) % demo_xyz.capacity_) = true) ∧
        (t = r →
          m1.dist ((i + t) % demo_xyz.capacity_) = 0 ∧
          m1.used ((i + t) % demo_xyz.capacity_) = false) ∧
        (r < t →
          m1.dist ((i + t) % demo_xyz.capacity_) = demo_xyz.dist ((i + t) % demo_xyz.capacity_) ∧
          m1.used ((i + t) % demo_xyz.capacity_) = demo_xyz.used ((i + t) % demo_xyz.capacity_) ∧
          m1.link ((i + t) % demo_xyz.capacity_)
            = demo_xyz.link ((i + t) % demo_xyz.capacity_)) :=
  ⟨demo_xyz_reachable, by decide,
    backward_shift.1 demo_xyz 1 demo_xyz_reachable (by decide)⟩

/-- Claim C19, failing input: after `HashMap<size_t, std::string> m(hasher, SIZE_MAX)` the
increment `++capacity_` has wrapped to 0, so the map has no slot at all (`size() <
capacity` fails), and `find`, `at`, `insert` and `erase` have no result: each starts with
`hasher_(key) % capacity_`, a division by zero. -/
theorem size_max_capacity_zero :
    demo_size_max.capacity_ = 0 ∧ demo_size_max.size = 0 ∧
      demo_size_max.used_element_ = [] ∧ demo_size_max.dist_element_ = [] ∧
      ¬ (1 ≤ demo_size_max.capacity_) ∧ ¬ (demo_size_max.size < demo_size_max.capacity_) ∧
      demo_size_max.get_need_index 1 = none ∧ demo_size_max.find 1 = none ∧
      demo_size_max.at_ 1 = none ∧ demo_size_max.insert (1, "a") = none ∧
      demo_size_max.erase 1 = none :=
  ⟨rfl, rfl, rfl, rfl, by decide, by decide, rfl, rfl, rfl, rfl, rfl⟩

/-- Counterexample to C20 as stated: the map constructed from the empty range has
capacity 1, not 2 (the capacity of a default-constructed map), and size 0. -/
theorem range_capacity_one :
    HashMap.from_range ([] : List (Nat × String)) demo_hash = some demo_range_empty ∧
      demo_range_empty.capacity_ = 1 ∧ demo_range_empty.capacity_ ≠ 2 ∧
      demo_range_empty.size = 0 ∧ demo_range_empty.used_element_ = [false] ∧
      demo_new.capacity_ = 2 :=
  ⟨rfl, by decide, by decide, by decide, by decide, by decide⟩

/-- Claim C20, amended: for every input range the range constructor sets the capacity
to 1 (one unused slot, empty list) and then inserts each element in traversal order; every
insert returns and the iteration sequence of the constructed map is the range; a map
constructed from the empty range has capacity 1 and size 0. -/
theorem range_starts_at_one (range : List (K × V)) (hasher : K → Nat) :
    HashMap.from_range range hasher
        = insert_all HashMap.insert range
            { capacity_ := 1, hasher_ := hasher, link_element_ := [Iter.singular],
              dist_element_ := [0], used_element_ := [false], list_element_ := [],
              next_id_ := 0 } ∧
      HashMap.from_range ([] : List (K × V)) hasher
        = some { capacity_ := 1, hasher_ := hasher, link_element_ := [Iter.singular],
                 dist_element_ := [0], used_element_ := [false], list_element_ := [],
                 next_id_ := 0 } ∧
      ∃ m, HashMap.from_range range hasher = some m ∧ m.sequence = range ∧
        m.size = range.length ∧ m.hasher_ = hasher ∧ 1 ≤ m.capacity_ := by
  refine ⟨rfl, rfl, ?_⟩
  obtain ⟨m, h1, h2, h3, h4⟩ := from_range_spec range hasher
  refine ⟨m, h1, h3, ?_, h4, h2.1.base.cap_pos⟩
  rw [← h3]
  exact (List.length_map _ _).symm

/-! ## The map constructed with the capacity argument `SIZE_MAX` -/

/-- Claim C1, failing input: after `HashMap<size_t, std::string> m(hasher, SIZE_MAX)` the
list is empty, so no entry has the key 1, and `capacity_` is 0; `find(1)` does not return
`end()` and `at(1)` does not throw `std::out_of_range`: neither has a result, for any key,
because `get_need_index` starts with `hasher_(key) % capacity_`, a division by zero. -/
theorem size_max_lookup_fails :
    demo_size_max.capacity_ = 0 ∧ demo_size_max.list_element_ = [] ∧
      (∀ n, n ∈ demo_size_max.list_element_ → n.first ≠ 1) ∧
      demo_size_max.get_need_index 1 = none ∧
      demo_size_max.find 1 = none ∧ demo_size_max.find 1 ≠ some demo_size_max.end_ ∧
      demo_size_max.at_ 1 = none ∧
      (∀ what, demo_size_max.at_ 1 ≠ some (Result.out_of_range what)) ∧
      (∀ k, demo_size_max.find k = none ∧ demo_size_max.at_ k = none) := by
  refine ⟨rfl, rfl, ?_, rfl, rfl, by decide, rfl, ?_, fun k => ⟨rfl, rfl⟩⟩
  · intro n hn
    have e : demo_size_max.list_element_ = [] := rfl
    rw [e] at hn
    cases hn
  · intro what h
    have e : demo_size_max.at_ 1 = none := rfl
    rw [e] at h
    cases h

/-- Claim C3, failing input: after `HashMap<size_t, std::string> m(hasher, SIZE_MAX)` the
capacity is 0 and `insert({1, "a"})` has no result, whatever the nesting depth allowed to
it: `insert` starts with `hasher_(val.first) % capacity_`, a division by zero, before
`emplace_back`, so nothing is appended and `size()` does not become 1. -/
theorem size_max_insert_fails :
    demo_size_max.capacity_ = 0 ∧ demo_size_max.sequence = [] ∧ demo_size_max.size = 0 ∧
      demo_size_max.insert (1, "a") = none ∧
      (∀ depth val, HashMap.insert_fuel depth demo_size_max val = none) ∧
      ¬ ∃ m1, demo_size_max.insert (1, "a") = some m1 ∧
        m1.sequence = demo_size_max.sequence ++ [(1, "a")] ∧
        m1.size = demo_size_max.size + 1 := by
  refine ⟨rfl, rfl, rfl, rfl, ?_, ?_⟩
  · intro depth val
    cases depth <;> rfl
  · rintro ⟨m1, h, -⟩
    have e : demo_size_max.insert (1, "a") = none := rfl
    rw [e] at h
    cases h

/-- Claim C4, failing input: after `HashMap<size_t, std::string> m(hasher, SIZE_MAX)` no
entry has the key 1, and `erase(1)` does not leave the state unchanged: it has no result,
because `get_need_index` starts with `hasher_(1) % capacity_` where `capacity_` is 0. -/
theorem size_max_erase_fails :
    demo_size_max.capacity_ = 0 ∧ demo_size_max.list_element_ = [] ∧
      (∀ n, n ∈ demo_size_max.list_element_ → n.first ≠ 1) ∧
      demo_size_max.get_need_index 1 = none ∧
      demo_size_max.erase 1 = none ∧ demo_size_max.erase 1 ≠ some demo_size_max ∧
      (∀ k, demo_size_max.erase k = none) := by
  refine ⟨rfl, rfl, ?_, rfl, rfl, ?_, fun k => rfl⟩
  · intro n hn
    have e : demo_size_max.list_element_ = [] := rfl
    rw [e] at hn
    cases hn
  · intro h
    have e : demo_size_max.erase 1 = none := rfl
    rw [e] at h
    cases h

/-- Claim C6, failing input: after `HashMap<size_t, std::string> m(hasher, SIZE_MAX)` no
entry has the key 1, and `m[1]` appends no entry and returns no reference: it has no
result, because its first call of `get_need_index` divides by `capacity_`, which is 0. -/
theorem size_max_subscript_fails :
    demo_size_max.capacity_ = 0 ∧ demo_size_max.list_element_ = [] ∧
      (∀ n, n ∈ demo_size_max.list_element_ → n.first ≠ 1) ∧
      demo_size_max.get_need_index 1 = none ∧
      demo_size_max.subscript 1 = none ∧
      (∀ k, demo_size_max.subscript k = none) ∧
      ¬ ∃ m1 id, demo_size_max.subscript 1 = some (m1, id) ∧
        m1.sequence = demo_size_max.sequence ++ [(1, default)] := by
  refine ⟨rfl, rfl, ?_, rfl, rfl, fun k => rfl, ?_⟩
  · intro n hn
    have e : demo_size_max.list_element_ = [] := rfl
    rw [e] at hn
    cases hn
  · rintro ⟨m1, id, h, -⟩
    have e : demo_size_max.subscript 1 = none := rfl
    rw [e] at h
    cases h

/-- Claim C7, failing input: after `HashMap<size_t, std::string> m(hasher, SIZE_MAX)` and
`m.clear()` the size is 0, iteration yields nothing and the capacity is still 0, but
`find(1)` does not return `end()`: it has no result, for any key, because
`get_need_index` starts with `hasher_(key) % capacity_`, a division by zero. -/
theorem size_max_clear_find_fails :
    demo_size_max.capacity_ = 0 ∧ demo_size_max.clear.capacity_ = 0 ∧
      demo_size_max.clear.size = 0 ∧ demo_size_max.clear.sequence = [] ∧
      demo_size_max.clear.used_element_ = [] ∧
      demo_size_max.clear.find 1 = none ∧
      demo_size_max.clear.find 1 ≠ some demo_size_max.clear.end_ ∧
      (∀ k, demo_size_max.clear.find k = none) :=
  ⟨rfl, rfl, rfl, rfl, rfl, rfl, by decide, fun _ => rfl⟩

end Jurijo
